import Mathlib

/-!
# arsenal-ng: templating engine, search filter and navigation state machine

A shallow embedding of the Go packages `internal/model`, `internal/loader`,
`internal/state` and `internal/ui`, and theorems about them.

Conventions of the embedding.

* A Go `string` is a `List Char`: the sequence of its runes (the strings of the
  program are valid UTF-8: they come from YAML files, JSON files and key events).
  Byte offsets are recovered with `byteLen`.
* Library functions (`strings`, `regexp`) are given by executable definitions that
  follow the documented behaviour of the Go standard library.
* Behaviour of libraries that cannot be stated from the repository (the Unicode
  case tables, the JSON encoder, the text input widget) is taken as a parameter,
  bundled in the structure `Ext`.
-/

namespace ArsenalNG

/-- Go strings, as sequences of runes. -/
abbrev Str := List Char

/-- Length in bytes of the UTF-8 encoding: what Go's `len(s)` returns. -/
def byteLen : Str → Nat
  | [] => 0
  | c :: cs => c.utf8Size + byteLen cs

/-! ## Package `strings` -/

namespace strings

/-- Left brace. -/
def lbrace : Char := Char.ofNat 123

/-- Right brace. -/
def rbrace : Char := Char.ofNat 125

/-- Vertical bar. -/
def bar : Char := Char.ofNat 124

/-- `strings.HasPrefix(s, pre)`. -/
def HasPrefix (s pre : Str) : Bool := pre.isPrefixOf s

/-- `strings.Contains(s, substr)`: `substr` occurs in `s` at some offset. -/
def Contains : Str → Str → Bool
  | [], substr => substr.isPrefixOf []
  | c :: cs, substr => substr.isPrefixOf (c :: cs) || Contains cs substr

/-- The scanning loop of `strings.ReplaceAll` for a non-empty `old`: `skip` counts the
runes of the current occurrence of `old` that are still to be passed over. -/
def ReplaceAllAux (old new : Str) : Nat → Str → Str
  | _, [] => []
  | k + 1, _ :: cs => ReplaceAllAux old new k cs
  | 0, c :: cs =>
    if old.isPrefixOf (c :: cs) then new ++ ReplaceAllAux old new (old.length - 1) cs
    else c :: ReplaceAllAux old new 0 cs

/-- `strings.ReplaceAll(s, old, new)`: every non-overlapping occurrence of `old`,
from left to right, is replaced by `new`. For an empty `old` the replacement is
inserted before every rune and at the end. -/
def ReplaceAll (s old new : Str) : Str :=
  match old with
  | [] => new ++ s.flatMap (fun c => c :: new)
  | _ :: _ => ReplaceAllAux old new 0 s

/-- `unicode.IsSpace`: the runes with the Unicode White_Space property. -/
def IsSpace (c : Char) : Bool :=
  let n := c.toNat
  (9 ≤ n && n ≤ 13) || n = 32 || n = 133 || n = 160 || n = 5760 ||
  (8192 ≤ n && n ≤ 8202) || n = 8232 || n = 8233 || n = 8239 || n = 8287 || n = 12288

/-- The loop of `strings.Fields`: `cur` is the field being read, in reverse. -/
def FieldsAux : Str → Str → List Str
  | cur, [] => if cur = [] then [] else [cur.reverse]
  | cur, c :: cs =>
    if IsSpace c then
      (if cur = [] then FieldsAux [] cs else cur.reverse :: FieldsAux [] cs)
    else FieldsAux (c :: cur) cs

/-- `strings.Fields(s)`: the maximal runs of non-space runes of `s`, in order. -/
def Fields (s : Str) : List Str := FieldsAux [] s

/-- `strings.TrimSpace(s)`: `s` without leading and trailing white space. -/
def TrimSpace (s : Str) : Str :=
  ((s.dropWhile IsSpace).reverse.dropWhile IsSpace).reverse

/-- `strings.Join(elems, sep)`. -/
def Join : List Str → Str → Str
  | [], _ => []
  | [a], _ => a
  | a :: b :: rest, sep => a ++ sep ++ Join (b :: rest) sep

/-- The loop of `strings.SplitN(s, sep, 2)` for a one-rune separator: the text before
the first separator and the text after it, or `s` alone when there is none. -/
def SplitN2 (s : Str) (sep : Char) : List Str :=
  if sep ∈ s then [s.takeWhile (fun c => c != sep), (s.dropWhile (fun c => c != sep)).drop 1]
  else [s]

end strings

open strings

/-! ## Package `model` -/

namespace model

/-- Struct `Cheat`: the runtime representation of a command. -/
structure Cheat where
  Tool : Str
  Tags : List Str
  Title : Str
  Desc : Str
  Command : Str
  Filename : Str
  deriving DecidableEq, Repr

/-- Struct `Argument`: a placeholder of a command template. `Position` is a byte
offset into the template. -/
structure Argument where
  Name : Str
  DefaultValue : Str
  Value : Str
  Position : Nat
  deriving DecidableEq, Repr

/-- One match of `ArgPattern`, as `FindAllStringSubmatchIndex` reports it: `start` is
`match[0]`, `name` is `command[match[2]:match[3]]`, and `dflt` is
`command[match[4]:match[5]]`, or `none` when the second group did not take part
in the match (`match[4] == -1`). -/
structure Submatch where
  start : Nat
  name : Str
  dflt : Option Str
  deriving DecidableEq, Repr

namespace ArgPattern

/-- The class `[^{}|]` of the first group. -/
def isNameRune (c : Char) : Bool := c != lbrace && c != rbrace && c != bar

/-- The class `[^{}]` of the second group. -/
def isDefaultRune (c : Char) : Bool := c != lbrace && c != rbrace

/-- Whether `s` starts with two right braces, and the text after them. -/
def closing : Str → Option Str
  | c1 :: c2 :: rest => if c1 = rbrace ∧ c2 = rbrace then some rest else none
  | _ => none

/-- The part of the pattern after the opening braces: the name, the optional
default and the closing braces. Both repetitions are greedy and a shorter
repetition can never lead to a match (the rune that follows a maximal run lies
outside the class), so the match is the one of the maximal runs. -/
def matchBody (t : Str) : Option (Str × Option Str) :=
  let name := t.takeWhile isNameRune
  let r := t.dropWhile isNameRune
  if name = [] then none
  else
    match closing r with
    | some _ => some (name, none)
    | none =>
      match r with
      | c :: r2 =>
        if c = bar then
          let d := r2.takeWhile isDefaultRune
          if d = [] then none
          else
            match closing (r2.dropWhile isDefaultRune) with
            | some _ => some (name, some d)
            | none => none
        else none
      | [] => none

/-- The match of `\{\{([^{}|]+)(?:\|([^{}]+))?\}\}` anchored at the start of `s`:
the two captured groups. -/
def matchAt : Str → Option (Str × Option Str)
  | c1 :: c2 :: t => if c1 = lbrace ∧ c2 = lbrace then matchBody t else none
  | _ => none

/-- Number of runes of a match with the given groups. -/
def matchLen (g : Str × Option Str) : Nat :=
  match g.2 with
  | none => 2 + g.1.length + 2
  | some d => 2 + g.1.length + 1 + d.length + 2

/-- The loop of `FindAllStringSubmatchIndex`: scans from left to right, at byte offset
`pos`; after a match the search resumes behind it (`skip` counts the runes of the
match still to be passed over). -/
def FindAllAux : Nat → Nat → Str → List Submatch
  | _, _, [] => []
  | pos, k + 1, c :: cs => FindAllAux (pos + c.utf8Size) k cs
  | pos, 0, c :: cs =>
    match matchAt (c :: cs) with
    | some g => ⟨pos, g.1, g.2⟩ :: FindAllAux (pos + c.utf8Size) (matchLen g - 1) cs
    | none => FindAllAux (pos + c.utf8Size) 0 cs

/-- `ArgPattern.FindAllStringSubmatchIndex(s, -1)`: all successive non-overlapping
matches, leftmost first. -/
def FindAllStringSubmatchIndex (s : Str) : List Submatch := FindAllAux 0 0 s

/-- The loop of `ReplaceAllString`: text outside the matches is copied, each match is
replaced by the expansion `expand name dflt` of the replacement template. -/
def ReplaceAllAux (expand : Str → Option Str → Str) : Nat → Str → Str
  | _, [] => []
  | k + 1, _ :: cs => ReplaceAllAux expand k cs
  | 0, c :: cs =>
    match matchAt (c :: cs) with
    | some g => expand g.1 g.2 ++ ReplaceAllAux expand (matchLen g - 1) cs
    | none => c :: ReplaceAllAux expand 0 cs

/-- The expansion of the replacement template made of two left braces, `$1` and two
right braces: the first group between double braces. -/
def expandName (name : Str) (_dflt : Option Str) : Str :=
  [lbrace, lbrace] ++ name ++ [rbrace, rbrace]

/-- `ArgPattern.ReplaceAllString(s, repl)` for the replacement template that
`BuildCommand` passes. -/
def ReplaceAllString (s : Str) : Str := ReplaceAllAux expandName 0 s

end ArgPattern

/-- The loop of `ParseArguments` over the matches; `seen` holds the names met so
far (the keys of the Go map `seen`). -/
def ParseArgumentsLoop : List Str → List Submatch → List Argument
  | _, [] => []
  | seen, m :: ms =>
    if m.name ∈ seen then ParseArgumentsLoop seen ms
    else
      let defaultVal := match m.dflt with
        | some d => d
        | none => []
      { Name := m.name, DefaultValue := defaultVal, Value := defaultVal, Position := m.start }
        :: ParseArgumentsLoop (m.name :: seen) ms

/-- The argument that `ParseArguments` builds from a match: the struct literal of the
loop body. -/
def argOf (m : Submatch) : Argument :=
  { Name := m.name, DefaultValue := m.dflt.getD [], Value := m.dflt.getD [],
    Position := m.start }

/-- `ParseArguments(command)`: the unique arguments of a template, in order of first
appearance. -/
def ParseArguments (command : Str) : List Argument :=
  ParseArgumentsLoop [] (ArgPattern.FindAllStringSubmatchIndex command)

/-- The placeholder that `BuildCommand` searches for: the name between double
braces. -/
def placeholder (name : Str) : Str := [lbrace, lbrace] ++ name ++ [rbrace, rbrace]

/-- `BuildCommand(command, args)`: normalises the placeholders with a default to the
bare form, then replaces the placeholder of each argument, in the order of
`args`, by the value of the argument. -/
def BuildCommand (command : Str) (args : List Argument) : Str :=
  args.foldl (fun result arg => ReplaceAll result (placeholder arg.Name) arg.Value)
    (ArgPattern.ReplaceAllString command)

/-- `HasEmptyArgs(args)`: some argument has an empty value. -/
def HasEmptyArgs : List Argument → Bool
  | [] => false
  | arg :: rest => if arg.Value = [] then true else HasEmptyArgs rest

/-- `GetEmptyArgs(args)`: the names of the arguments that have no value. -/
def GetEmptyArgs : List Argument → List Str
  | [] => []
  | arg :: rest => if arg.Value = [] then arg.Name :: GetEmptyArgs rest else GetEmptyArgs rest

/-! ### Placeholder structure of templates

A template read as a sequence of segments: single runes of ordinary text and
placeholders. These definitions state the shape of templates in the theorems on
`BuildCommand`; the program itself never builds them. -/

/-- A text without braces. -/
def braceFree (s : Str) : Prop := ∀ c ∈ s, c ≠ lbrace ∧ c ≠ rbrace

instance (s : Str) : Decidable (braceFree s) := by unfold braceFree; infer_instance

/-- A placeholder name the pattern accepts: a non-empty run of `[^{}|]`. -/
def validName (n : Str) : Prop := n ≠ [] ∧ ∀ c ∈ n, ArgPattern.isNameRune c = true

instance (n : Str) : Decidable (validName n) := by unfold validName; infer_instance

/-- A default the pattern accepts: a non-empty run of `[^{}]`. -/
def validDefault (d : Str) : Prop := d ≠ [] ∧ ∀ c ∈ d, ArgPattern.isDefaultRune c = true

instance (d : Str) : Decidable (validDefault d) := by unfold validDefault; infer_instance

/-- The text of a placeholder with the given name and optional default. -/
def phText (n : Str) : Option Str → Str
  | none => [lbrace, lbrace] ++ n ++ [rbrace, rbrace]
  | some d => [lbrace, lbrace] ++ n ++ bar :: d ++ [rbrace, rbrace]

/-- A segment of a template: one rune of text, or one placeholder. -/
inductive Seg where
  | lit (c : Char)
  | ph (name : Str) (dflt : Option Str)
  deriving DecidableEq, Repr

/-- The text of a segment. -/
def Seg.render : Seg → Str
  | .lit c => [c]
  | .ph n d => phText n d

/-- The text of a sequence of segments. -/
def render (segs : List Seg) : Str := segs.flatMap Seg.render

/-- The text of a segment once its placeholder is filled by `f`. -/
def Seg.fill (f : Str → Option Str → Str) : Seg → Str
  | .lit c => [c]
  | .ph n d => f n d

/-- A well-formed segment: the text rune is not a brace, the placeholder has a valid
name and, when it has a default, a valid default. -/
def Seg.WF : Seg → Prop
  | .lit c => c ≠ lbrace ∧ c ≠ rbrace
  | .ph n d => validName n ∧ ∀ x, d = some x → validDefault x

/-- Whether the pattern matches somewhere in `s`: some suffix of `s` starts with a
well-formed placeholder. -/
def hasPlaceholder (s : Str) : Bool := s.tails.any (fun t => (ArgPattern.matchAt t).isSome)

/-- The text that fills the placeholder `n` once the arguments `args` have been
substituted in order: the value of the first argument of that name, or the bare
placeholder when no argument has that name. -/
def fillWith (args : List Argument) (n : Str) (_d : Option Str) : Str :=
  match args.find? (fun a => a.Name = n) with
  | some a => a.Value
  | none => placeholder n

/-- The placeholder named `n`, with the optional default `d`, occurs in the template
`T` at the byte offset `off`: the text of the placeholder, with a valid name and a
valid default, stands in `T` behind a prefix of `off` bytes. -/
def OccursAt (T n : Str) (d : Option Str) (off : Nat) : Prop :=
  validName n ∧ (∀ x, d = some x → validDefault x) ∧
    ∃ pre post, T = pre ++ phText n d ++ post ∧ byteLen pre = off

/-- The text of a template outside its placeholders: what `ReplaceAllString` copies. -/
def outsideText (command : Str) : Str := ArgPattern.ReplaceAllAux (fun _ _ => []) 0 command

/-- The default of the first occurrence of the placeholder `name` in the template
(empty when that occurrence has none, or when the name does not occur). -/
def firstDefault (command : Str) (name : Str) : Str :=
  match (ArgPattern.FindAllStringSubmatchIndex command).find? (fun m => m.name = name) with
  | some m => m.dflt.getD []
  | none => []

/-- The single-pass substitution of the specification: each placeholder occurrence
found by the pattern is replaced by the default of the first occurrence of its
name, all other text is copied. -/
def singlePassDefaults (command : Str) : Str :=
  ArgPattern.ReplaceAllAux (fun n _ => firstDefault command n) 0 command

/-! ### Sample templates -/

/-- The template `nmap -p {{port|80}} {{ip}} {{port|443}}`. -/
def sampleScan : Str := "nmap -p \x7b\x7bport|80\x7d\x7d \x7b\x7bip\x7d\x7d \x7b\x7bport|443\x7d\x7d".toList

/-- The template `{{{{a}}x}}`: a placeholder between stray braces. -/
def sampleNested : Str := "\x7b\x7b\x7b\x7ba\x7d\x7dx\x7d\x7d".toList

/-- The template `{{{{a}}x}} {{x|v}}`. -/
def sampleNestedTwice : Str :=
  "\x7b\x7b\x7b\x7ba\x7d\x7dx\x7d\x7d \x7b\x7bx|v\x7d\x7d".toList

/-- The unterminated template `echo {{ip`. -/
def sampleUnterminated : Str := "echo \x7b\x7bip".toList

end model

/-! ## Package `loader` -/

namespace loader

open model

/-- `strings.ToLower(s)`: every rune mapped by `unicode.ToLower`, given as `lower`. -/
def ToLower (lower : Char → Char) (s : Str) : Str := s.map lower

/-- `buildSearchText(cheat)`: the lower-cased text of all fields of a cheat. -/
def buildSearchText (lower : Char → Char) (cheat : Cheat) : Str :=
  ToLower lower
    (cheat.Tool ++ [' '] ++ Join cheat.Tags [' '] ++ [' '] ++ cheat.Title ++ [' ']
      ++ cheat.Command ++ [' '] ++ cheat.Desc)

/-- The loop of `matchesAllTerms` over the terms, for the search text `searchText`. -/
def matchesAllTermsLoop (searchText : Str) : List Str → Bool
  | [] => true
  | term :: rest =>
    if !Contains searchText term then false else matchesAllTermsLoop searchText rest

/-- `matchesAllTerms(cheat, terms)`: every term occurs in the search text. -/
def matchesAllTerms (lower : Char → Char) (cheat : Cheat) (terms : List Str) : Bool :=
  matchesAllTermsLoop (buildSearchText lower cheat) terms

/-- The loop of `Search` over the cheats; `results` is the slice built so far. -/
def SearchLoop (lower : Char → Char) (terms : List Str) : List Cheat → List Cheat → List Cheat
  | results, [] => results
  | results, cheat :: rest =>
    if matchesAllTerms lower cheat terms then SearchLoop lower terms (results ++ [cheat]) rest
    else SearchLoop lower terms results rest

/-- `Search(cheats, query)`: the cheats that match every term of the query. -/
def Search (lower : Char → Char) (cheats : List Cheat) (query : Str) : List Cheat :=
  if query = [] then cheats
  else SearchLoop lower (Fields (ToLower lower query)) [] cheats

/-- The whitespace-separated terms of a text, in the words of the specification: `t` is
a term of `q` when it is a non-empty run of runes none of which is white space, and it
stands in `q` with white space or an end of `q` on either side. -/
def IsTerm (q t : Str) : Prop :=
  t ≠ [] ∧ (∀ c ∈ t, IsSpace c = false) ∧
    ∃ pre post, q = pre ++ t ++ post ∧
      (∀ pre1 c, pre = pre1 ++ [c] → IsSpace c = true) ∧
      (∀ c post1, post = c :: post1 → IsSpace c = true)

end loader

/-! ## Package `state` -/

namespace state

/-- A Go `error`: `none` is `nil`, `some msg` is an error whose text is `msg`. -/
abbrev Error := Option Str

/-- Struct `Global` (without its mutex). `vars` is the field `variables`, a Go map:
`none` is the nil map of the zero value, `some l` a map whose entries are the pairs
of `l` (one pair per key). -/
structure Global where
  vars : Option (List (Str × Str))
  filePath : Str
  deriving DecidableEq, Repr

/-- The part of the file system that `SaveToFile` touches: the content of the
variables file and of its temporary file (`none`: the file does not exist), and
the error, if any, with which `os.WriteFile` and `os.Rename` fail. `readErr` is the
error, if any, with which `os.ReadFile` fails on an existing variables file. -/
structure Disk where
  file : Option Str
  tmp : Option Str
  writeErr : Error
  renameErr : Error
  readErr : Error := none
  deriving DecidableEq, Repr

/-- Lookup `m[k]` in a Go map, with the `ok` flag as the option. -/
def mapGet (m : Option (List (Str × Str))) (k : Str) : Option Str :=
  match m with
  | none => none
  | some l => l.lookup k

/-- The assignment `m[k] = v` on a non-nil map. -/
def mapSet (l : List (Str × Str)) (k v : Str) : List (Str × Str) :=
  if (l.lookup k).isSome then l.map (fun p => if p.1 = k then (k, v) else p)
  else l ++ [(k, v)]

/-- The statement `delete(m, k)`. -/
def mapDelete (l : List (Str × Str)) (k : Str) : List (Str × Str) :=
  l.filter (fun p => p.1 != k)

/-- `Global.SaveToFile()`: marshals a copy of the map, writes the temporary file and
renames it over the variables file; with an empty `filePath` it does nothing.
`marshal` is `json.MarshalIndent` on the copy. A failed write is taken to leave the
temporary file as it was; the variables file itself changes only by the rename. -/
def Global.SaveToFile (marshal : List (Str × Str) → Except Str Str) (g : Global) (d : Disk) :
    Disk × Error :=
  if g.filePath = [] then (d, none)
  else
    let varsCopy := match g.vars with
      | some l => l
      | none => []
    match marshal varsCopy with
    | .error e => (d, some ("failed to marshal variables: ".toList ++ e))
    | .ok data =>
      match d.writeErr with
      | some e => (d, some ("failed to write variables file: ".toList ++ e))
      | none =>
        match d.renameErr with
        | some e => ({ d with tmp := none }, some ("failed to rename variables file: ".toList ++ e))
        | none => ({ d with file := some data, tmp := none }, none)

/-- `Global.Set(name, value)`: `none` is the runtime panic of an assignment to an
entry of a nil map. -/
def Global.Set (marshal : List (Str × Str) → Except Str Str) (g : Global) (d : Disk)
    (name value : Str) : Option (Global × Disk × Error) :=
  match g.vars with
  | none => none
  | some l =>
    let g1 : Global := { g with vars := some (mapSet l name value) }
    let r := g1.SaveToFile marshal d
    some (g1, r.1, r.2)

/-- `Global.Get(name)`. -/
def Global.Get (g : Global) (name : Str) : Str × Bool :=
  match mapGet g.vars name with
  | some v => (v, true)
  | none => ([], false)

/-- `Global.Unset(name)`: the store, the disk, and the pair `(existed, err)`. -/
def Global.Unset (marshal : List (Str × Str) → Except Str Str) (g : Global) (d : Disk)
    (name : Str) : Global × Disk × Bool × Error :=
  match mapGet g.vars name with
  | some _ =>
    let g1 : Global := { g with vars := g.vars.map (fun l => mapDelete l name) }
    let r := g1.SaveToFile marshal d
    (g1, r.1, true, r.2)
  | none => (g, d, false, none)

/-- `Global.All()`: a copy of the map (empty for the nil map). -/
def Global.All (g : Global) : List (Str × Str) :=
  match g.vars with
  | some l => l
  | none => []

/-- The error that `LoadFromFile` returns, as far as `NewGlobal` inspects it:
`notExist` is an error for which `os.IsNotExist` holds, `failed msg` any other. -/
inductive LoadError where
  | notExist
  | failed (msg : Str)
  deriving DecidableEq, Repr

/-- `Global.LoadFromFile()`: reads the variables file and replaces the map by the
decoded one; with an empty `filePath` it does nothing. `unmarshal` is
`json.Unmarshal` into a `map[string]string`: it fails with a message, or yields a
map, which is the nil map (`none`) for the JSON value `null`. -/
def Global.LoadFromFile (unmarshal : Str → Except Str (Option (List (Str × Str))))
    (g : Global) (d : Disk) : Global × Option LoadError :=
  if g.filePath = [] then (g, none)
  else
    match d.file with
    | none => (g, some LoadError.notExist)
    | some data =>
      match d.readErr with
      | some e => (g, some (LoadError.failed e))
      | none =>
        if data.length = 0 then (g, none)
        else
          match unmarshal data with
          | .error e => (g, some (LoadError.failed ("failed to parse variables.json: ".toList ++ e)))
          | .ok vars => ({ g with vars := vars }, none)

/-- `NewGlobal()`: `path` is the result of `config.GetVariablesPath()`. -/
def NewGlobal (path : Except Str Str)
    (unmarshal : Str → Except Str (Option (List (Str × Str)))) (d : Disk) : Except Str Global :=
  match path with
  | .error e => .error ("failed to get variables path: ".toList ++ e)
  | .ok filePath =>
    let g : Global := { vars := some [], filePath := filePath }
    match g.LoadFromFile unmarshal d with
    | (_, some (LoadError.failed e)) => .error ("failed to load variables: ".toList ++ e)
    | (g1, _) => .ok g1

/-- The loop of `ApplyToCommand` over the entries of the map, in the order of the
list (a Go map is ranged over in an unspecified order: what holds for every list
holds for every order). -/
def ApplyToCommandLoop : List (Str × Str) → Str → List Str → Str × List Str
  | [], result, applied => (result, applied)
  | (name, value) :: rest, result, applied =>
    let placeholder := [lbrace, lbrace] ++ name ++ [rbrace, rbrace]
    if Contains result placeholder then
      ApplyToCommandLoop rest (ReplaceAll result placeholder value) (applied ++ [name])
    else ApplyToCommandLoop rest result applied

/-- `Global.ApplyToCommand(command)`. -/
def Global.ApplyToCommand (g : Global) (command : Str) : Str × List Str :=
  ApplyToCommandLoop g.All command []

/-! ### Substitution of stored variables, as a specification -/

/-- The text between the braces of a placeholder with the groups `n` and `d`. -/
def innerText (n : Str) : Option Str → Str
  | none => n
  | some d => n ++ bar :: d

/-- The text that stands for the placeholder with the groups `n` and `d` once the
entries `l` are substituted: the value stored under the text between its braces, or
the placeholder itself when that text is not a stored name. -/
def fillStore (l : List (Str × Str)) (n : Str) (d : Option Str) : Str :=
  match l.lookup (innerText n d) with
  | some v => v
  | none => model.phText n d

/-- One simultaneous substitution of the stored variables: each placeholder occurrence
of the command whose text between the braces is a stored name is replaced by the
stored value; every other placeholder and all other text is copied. -/
def substituteStored (l : List (Str × Str)) (command : Str) : Str :=
  model.ArgPattern.ReplaceAllAux (fillStore l) 0 command

/-! ### Sample stores and files -/

/-- The file that `json.MarshalIndent` writes for the map with the single entry
`ip = 10.0.0.1`. -/
def sampleJson : Str := "\x7b\n  \"ip\": \"10.0.0.1\"\n\x7d".toList

/-- The behaviour of `json.MarshalIndent` on the maps of the examples. -/
def sampleMarshal (l : List (Str × Str)) : Except Str Str :=
  if l = [("ip".toList, "10.0.0.1".toList)] then .ok sampleJson
  else if l = [] then .ok "\x7b\x7d".toList
  else .error "not among the examples".toList

/-- The behaviour of `json.Unmarshal` into a `map[string]string` on the files of the
examples: the JSON value `null` sets the map to nil, an object yields its
entries, and text that is not JSON is an error. -/
def sampleUnmarshal (data : Str) : Except Str (Option (List (Str × Str))) :=
  if data = "null".toList then .ok none
  else if data = "\x7b\x7d".toList then .ok (some [])
  else if data = sampleJson then .ok (some [("ip".toList, "10.0.0.1".toList)])
  else .error "invalid character".toList

/-- A store with the single entry `ip = 10.0.0.1`. -/
def sampleStore : Global :=
  { vars := some [("ip".toList, "10.0.0.1".toList)], filePath := "variables.json".toList }

/-- An empty store, as `NewGlobal` creates it on a fresh installation. -/
def freshStore : Global := { vars := some [], filePath := "variables.json".toList }

/-- A store whose entry `a` holds the placeholder of `b`. -/
def chainStore : Global :=
  { vars := some [("a".toList, "\x7b\x7bb\x7d\x7d".toList), ("b".toList, "x".toList)],
    filePath := "variables.json".toList }

/-- A store with an empty value under `a` and an entry named `xy`. -/
def nestedStore : Global :=
  { vars := some [("a".toList, []), ("xy".toList, "Z".toList)],
    filePath := "variables.json".toList }

/-- The entries of `nestedStore`, visited in the other order. -/
def nestedStoreRev : Global :=
  { vars := some [("xy".toList, "Z".toList), ("a".toList, [])],
    filePath := "variables.json".toList }

/-- A store with the entries `ip = 10.0.0.1` and `port = 80`. -/
def twoStore : Global :=
  { vars := some [("ip".toList, "10.0.0.1".toList), ("port".toList, "80".toList)],
    filePath := "variables.json".toList }

/-- The entries of `twoStore`, visited in the other order. -/
def twoStoreRev : Global :=
  { vars := some [("port".toList, "80".toList), ("ip".toList, "10.0.0.1".toList)],
    filePath := "variables.json".toList }

/-- A store with the names `a` and `a}}{{a`: twice the placeholder of the first
is the placeholder of the second. -/
def overlapStore : Global :=
  { vars := some [("a".toList, "1".toList), ("a\x7d\x7d\x7b\x7ba".toList, "2".toList)],
    filePath := "variables.json".toList }

/-- The command `nmap {{ip}}`. -/
def ipCommand : Str := "nmap \x7b\x7bip\x7d\x7d".toList

/-- The command `{{a}}`. -/
def chainCommand : Str := "\x7b\x7ba\x7d\x7d".toList

/-- The command `{{x{{a}}y}}`. -/
def nestedCommand : Str := "\x7b\x7bx\x7b\x7ba\x7d\x7dy\x7d\x7d".toList

/-- The command `{{a}}{{a}}`. -/
def overlapCommand : Str := "\x7b\x7ba\x7d\x7d\x7b\x7ba\x7d\x7d".toList

/-- A disk without a variables file, on which every operation succeeds. -/
def emptyDisk : Disk := { file := none, tmp := none, writeErr := none, renameErr := none }

/-- A disk whose variables file holds the JSON value `null`. -/
def nullDisk : Disk :=
  { file := some "null".toList, tmp := none, writeErr := none, renameErr := none }

/-- A disk on which writing the temporary file fails. -/
def fullDisk : Disk :=
  { file := none, tmp := none, writeErr := some "no space left on device".toList,
    renameErr := none }

/-- A disk whose variables file is not JSON. -/
def corruptDisk : Disk :=
  { file := some "ip=10.0.0.1".toList, tmp := none, writeErr := none, renameErr := none }

end state

/-! ## Package `ui` -/

namespace ui

open model state

/-- Type `appState`. -/
inductive appState where
  | stateSearch
  | stateArgs
  | stateShowVars
  | stateShowTools
  | stateHelp
  deriving DecidableEq, Repr

open appState

/-- A `tea.Cmd` as far as the program inspects it: `nil`, `tea.Quit`, or a command
returned by a widget. -/
inductive Cmd where
  | nil
  | Quit
  | widget
  deriving DecidableEq, Repr

/-- A `tea.Msg`: a key press (with the text of `msg.String()`), a window resize, or
any other message. -/
inductive Msg where
  | KeyMsg (key : Str)
  | WindowSizeMsg (Width Height : Int)
  | other
  deriving DecidableEq, Repr

/-- The fields of `textinput.Model` that the program reads or writes. -/
structure TextInput where
  value : Str
  focus : Bool
  Placeholder : Str
  CharLimit : Int
  Width : Int
  deriving DecidableEq, Repr

/-- The fields of `table.Model` that the program reads or writes. -/
structure Table where
  rows : List (List Str)
  cursor : Int
  height : Int
  deriving DecidableEq, Repr

/-- The fields of `paginator.Model` that the program reads or writes. -/
structure Paginator where
  Page : Int
  PerPage : Int
  TotalPages : Int
  deriving DecidableEq, Repr

/-- Struct `ToolInfo`. -/
structure ToolInfo where
  Name : Str
  CommandCount : Nat
  deriving DecidableEq, Repr

/-- Struct `App`: the model of the application. The store `globals`, a pointer in
the program, is held by value: a session has a single live model. -/
structure App where
  state : appState
  cheats : List Cheat
  filtered : List Cheat
  searchInput : TextInput
  cursor : Int
  offset : Int
  width : Int
  height : Int
  globals : Global
  statusMsg : Str
  statusIsError : Bool
  selectedCheat : Option Cheat
  args : List Argument
  argInputs : List TextInput
  argCursor : Int
  FinalCommand : Str
  Cancelled : Bool
  toolsTable : Table
  toolsPaginator : Paginator
  toolsPerPage : Int
  varsTable : Table
  deriving DecidableEq, Repr

/-- Behaviour of the libraries that the repository does not determine: the Unicode
case table, the JSON encoder, the widgets of `bubbles` and the heights that
`lipgloss` measures on rendered text. -/
structure Ext where
  /-- `unicode.ToLower`. -/
  toLower : Char → Char
  /-- `json.MarshalIndent` on a map of strings. -/
  marshalIndent : List (Str × Str) → Except Str Str
  /-- The value a text input holds after `SetValue(s)`, for its `CharLimit`. -/
  tiSetValue : Int → Str → Str
  /-- `textinput.Model.Update`. -/
  tiUpdate : TextInput → Msg → TextInput × Cmd
  /-- `table.Model.Update`. -/
  tableUpdate : Table → Msg → Table × Cmd
  /-- `lipgloss.Height(m.renderHeader())`. -/
  headerRows : App → Int
  /-- `lipgloss.Height(m.renderInfoBox(cheat, width))`. -/
  infoBoxRows : App → Cheat → Int → Int
  /-- `lipgloss.Height(footer) + lipgloss.Height(searchInput)` of `footerHeight`. -/
  footerRows : App → Int
  /-- The sum of the heights of title, paginator and footer in `initToolsTable`. -/
  toolsChromeRows : App → Int
  /-- The sum of the heights of title and footer in `initVarsTable`. -/
  varsChromeRows : App → Int

/-! ### Keys and directives -/

/-- Key `up`. -/
def keyUp : Str := "up".toList
/-- Key `down`. -/
def keyDown : Str := "down".toList
/-- Key `left`. -/
def keyLeft : Str := "left".toList
/-- Key `right`. -/
def keyRight : Str := "right".toList
/-- Key `ctrl+p`. -/
def keyCtrlP : Str := "ctrl+p".toList
/-- Key `ctrl+n`. -/
def keyCtrlN : Str := "ctrl+n".toList
/-- Key `pgup`. -/
def keyPgUp : Str := "pgup".toList
/-- Key `pgdown`. -/
def keyPgDown : Str := "pgdown".toList
/-- Key `enter`. -/
def keyEnter : Str := "enter".toList
/-- Key `esc`. -/
def keyEsc : Str := "esc".toList
/-- Key `ctrl+c`. -/
def keyCtrlC : Str := "ctrl+c".toList
/-- Key `?`. -/
def keyHelp : Str := "?".toList
/-- Key `q`. -/
def keyQuit : Str := "q".toList
/-- Key `tab`. -/
def keyTab : Str := "tab".toList
/-- Key `shift+tab`. -/
def keyShiftTab : Str := "shift+tab".toList
/-- Directive prefix `set`. -/
def cmdSet : Str := "set".toList
/-- Directive prefix `unset`. -/
def cmdUnset : Str := "unset".toList

/-- `config.ArgCharLimit`. -/
def ArgCharLimit : Int := 200
/-- `config.DefaultWidth`. -/
def DefaultWidth : Int := 80
/-- Constant `minVisibleItems`. -/
def minVisibleItems : Int := 3
/-- Constant `minWidth`. -/
def minWidth : Int := 40

/-! ### Widgets -/

/-- `textinput.New()`. -/
def TextInput.New : TextInput :=
  { value := [], focus := false, Placeholder := [], CharLimit := 0, Width := 0 }

/-- `ti.SetValue(s)`. -/
def TextInput.SetValue (ext : Ext) (ti : TextInput) (s : Str) : TextInput :=
  { ti with value := ext.tiSetValue ti.CharLimit s }

/-- `ti.Focus()`. -/
def TextInput.Focus (ti : TextInput) : TextInput := { ti with focus := true }

/-- `ti.Blur()`. -/
def TextInput.Blur (ti : TextInput) : TextInput := { ti with focus := false }

/-- `t.SelectedRow()`: the row under the cursor, or `nil` (here the empty row). -/
def Table.SelectedRow (t : Table) : List Str :=
  if t.cursor < 0 ∨ t.cursor ≥ t.rows.length then []
  else match t.rows[t.cursor.toNat]? with
    | some r => r
    | none => []

/-- `table.New` with the given rows and height, focused: the cursor is on row 0. -/
def Table.New (rows : List (List Str)) (height : Int) : Table :=
  { rows := rows, cursor := 0, height := height }

/-- `paginator.New()`. -/
def Paginator.New : Paginator := { Page := 0, PerPage := 1, TotalPages := 1 }

/-- `p.SetTotalPages(items)`. -/
def Paginator.SetTotalPages (p : Paginator) (items : Int) : Option Paginator :=
  if items < 1 then some p
  else if p.PerPage = 0 then none
  else
    let n := Int.tdiv items p.PerPage
    some { p with TotalPages := if Int.tmod items p.PerPage > 0 then n + 1 else n }

/-- `p.PrevPage()`. -/
def Paginator.PrevPage (p : Paginator) : Paginator :=
  if p.Page > 0 then { p with Page := p.Page - 1 } else p

/-- `p.NextPage()`. -/
def Paginator.NextPage (p : Paginator) : Paginator :=
  if p.Page = p.TotalPages - 1 then p else { p with Page := p.Page + 1 }

/-- Element `l[i]` of a slice for a Go `int` index; `none` is the index-out-of-range
panic. -/
def index {α : Type} (l : List α) (i : Int) : Option α :=
  if i < 0 then none else l[i.toNat]?

/-- The slice `l` after `l[i] = x`; `none` is the index-out-of-range panic. -/
def assign {α : Type} (l : List α) (i : Int) (x : α) : Option (List α) :=
  if i < 0 ∨ i ≥ l.length then none else some (l.set i.toNat x)

/-! ### Layout -/

/-- `m.effectiveWidth()`. -/
def effectiveWidth (m : App) : Int := if m.width < minWidth then DefaultWidth else m.width

/-- `m.headerHeight()`. -/
def headerHeight (ext : Ext) (m : App) : Int := ext.headerRows m + 2

/-- `m.infoBoxHeight()`. -/
def infoBoxHeight (ext : Ext) (m : App) : Int :=
  if m.filtered.length = 0 ∨ m.cursor < 0 ∨ m.cursor ≥ m.filtered.length then 0
  else match index m.filtered m.cursor with
    | some cheat => ext.infoBoxRows m cheat (effectiveWidth m)
    | none => 0

/-- `m.footerHeight()`. -/
def footerHeight (ext : Ext) (m : App) : Int := ext.footerRows m + 2

/-- `m.maxVisibleItems()`. -/
def maxVisibleItems (ext : Ext) (m : App) : Int :=
  let fixedHeight := headerHeight ext m + infoBoxHeight ext m + footerHeight ext m
  let available := m.height - fixedHeight
  if available < minVisibleItems then minVisibleItems else available

/-! ### Tools and variables tables -/

/-- The statement `toolMap[tool]++` on the map of counts. -/
def countTool (toolMap : List (Str × Nat)) (tool : Str) : List (Str × Nat) :=
  if (toolMap.lookup tool).isSome then
    toolMap.map (fun p => if p.1 = tool then (p.1, p.2 + 1) else p)
  else toolMap ++ [(tool, 1)]

/-- The first loop of `getToolInfoList`: counts the cheats of each named tool. -/
def countTools : List (Str × Nat) → List Cheat → List (Str × Nat)
  | toolMap, [] => toolMap
  | toolMap, cheat :: rest =>
    if cheat.Tool ≠ [] then countTools (countTool toolMap cheat.Tool) rest
    else countTools toolMap rest

/-- The body of the inner sorting loop: swaps `tools[i]` and `tools[j]` when
`tools[i].Name > tools[j].Name`. -/
def swapIfGreater (tools : List ToolInfo) (i j : Nat) : List ToolInfo :=
  match tools[i]?, tools[j]? with
  | some a, some b => if b.Name < a.Name then (tools.set i b).set j a else tools
  | _, _ => tools

/-- The inner sorting loop `for j := ...; j < len(tools); j++`, with `fuel` bounding
the number of iterations. -/
def sortInner (i : Nat) : Nat → Nat → List ToolInfo → List ToolInfo
  | 0, _, tools => tools
  | fuel + 1, j, tools =>
    if j < tools.length then sortInner i fuel (j + 1) (swapIfGreater tools i j) else tools

/-- The outer sorting loop `for i := ...; i < len(tools)-1; i++`. -/
def sortOuter : Nat → Nat → List ToolInfo → List ToolInfo
  | 0, _, tools => tools
  | fuel + 1, i, tools =>
    if i + 1 < tools.length then
      sortOuter fuel (i + 1) (sortInner i tools.length (i + 1) tools)
    else tools

/-- `m.getToolInfoList()`: the tools of the catalog with their command counts, sorted
by name. The map is ranged over in the order in which the tools were first met
(the order of a Go map range is unspecified; the sort makes the result
independent of it). -/
def getToolInfoList (m : App) : List ToolInfo :=
  let tools := (countTools [] m.cheats).map (fun p => ({ Name := p.1, CommandCount := p.2 } : ToolInfo))
  sortOuter tools.length 0 tools

/-- Insertion of a key into a sorted list of keys. -/
def insertKey (k : Str) : List Str → List Str
  | [] => [k]
  | x :: xs => if k < x then k :: x :: xs else x :: insertKey k xs

/-- `sort.Strings(keys)`. -/
def sortStrings : List Str → List Str
  | [] => []
  | k :: ks => insertKey k (sortStrings ks)

/-- The clamping of the table height in `initToolsTable` and `initVarsTable`. -/
def clampHeight (tableHeight maxHeight : Int) : Int :=
  let h := if tableHeight > maxHeight then maxHeight else tableHeight
  if h < 3 then 3 else h

/-- `m.initVarsTable()`. -/
def initVarsTable (ext : Ext) (m : App) : App :=
  let vars := m.globals.All
  let keys := sortStrings (vars.map (fun p => p.1))
  let rows := keys.map (fun key => [key, (vars.lookup key).getD []])
  let reservedHeight := ext.headerRows m + 2 + ext.varsChromeRows m + 4
  let tableHeight := clampHeight (rows.length + 2) (m.height - reservedHeight)
  let tableHeight := if rows.length = 0 then 3 else tableHeight
  { m with varsTable := Table.New rows tableHeight }

/-- `m.initToolsTable()`; `none` is a runtime panic (division by zero, or a negative
slice capacity, for a page size that is not positive). -/
def initToolsTable (ext : Ext) (m : App) : Option App :=
  let toolInfoList := getToolInfoList m
  if toolInfoList.length = 0 then
    some { m with toolsTable := Table.New [] 10, toolsPaginator := Paginator.New }
  else if m.toolsPerPage ≤ 0 then none
  else
    let totalPages := Int.tdiv (toolInfoList.length + m.toolsPerPage - 1) m.toolsPerPage
    let totalPages := if totalPages = 0 then 1 else totalPages
    let currentPage := if m.toolsPaginator.TotalPages > 0 then m.toolsPaginator.Page else 0
    let currentPage := if currentPage ≥ totalPages then totalPages - 1 else currentPage
    let currentPage := if currentPage < 0 then 0 else currentPage
    match Paginator.New.SetTotalPages totalPages with
    | none => none
    | some p0 =>
      let p : Paginator := { p0 with Page := currentPage }
      let m1 : App := { m with toolsPaginator := p }
      let startIdx := currentPage * m.toolsPerPage
      let endIdx := startIdx + m.toolsPerPage
      let endIdx := if endIdx > toolInfoList.length then (toolInfoList.length : Int) else endIdx
      let rows := ((toolInfoList.take endIdx.toNat).drop startIdx.toNat).map
        (fun t => [t.Name, (Nat.repr t.CommandCount).toList])
      let reservedHeight := ext.headerRows m1 + 2 + ext.toolsChromeRows m1 + 6
      let tableHeight := clampHeight (rows.length + 2) (m1.height - reservedHeight)
      some { m1 with toolsTable := Table.New rows tableHeight }

/-! ### Search view -/

/-- `isSpecialCommand(query)`. -/
def isSpecialCommand (ext : Ext) (query : Str) : Bool :=
  let q := TrimSpace (loader.ToLower ext.toLower query)
  q = cmdSet || HasPrefix q (cmdSet ++ [' ']) || q = cmdUnset || HasPrefix q (cmdUnset ++ [' '])
    || q = "variables".toList || q = "help".toList || q = "tools".toList

/-- `m.updateFilter()`. -/
def updateFilter (ext : Ext) (m : App) : App :=
  let query := m.searchInput.value
  if !isSpecialCommand ext query then
    { m with filtered := loader.Search ext.toLower m.cheats query, cursor := -1, offset := 0 }
  else m

/-- The slice expression `s[n:]` for a string whose first `n` bytes are ASCII runes. -/
def sliceFrom (s : Str) (n : Nat) : Str := s.drop n

/-- `m.handleSetCommand(query)`. -/
def handleSetCommand (ext : Ext) (m : App) (d : Disk) (query : Str) :
    Option ((Bool × App) × Disk) :=
  let parts := SplitN2 (sliceFrom query 4) '='
  let usage : Option ((Bool × App) × Disk) :=
    some ((true, { m with statusMsg := "✗ Usage: set name=value".toList, statusIsError := true }), d)
  match parts with
  | [p0, p1] =>
    let name := TrimSpace p0
    let value := TrimSpace p1
    if name ≠ [] ∧ value ≠ [] then
      match m.globals.Set ext.marshalIndent d name value with
      | none => none
      | some (g, d1, err) =>
        let m1 : App := { m with globals := g }
        let m2 : App :=
          match err with
          | some e =>
            { m1 with statusMsg := "✗ Failed to save variable: ".toList ++ e, statusIsError := true }
          | none =>
            let m3 : App := { m1 with statusMsg := "✓ Set ".toList ++ name ++ " = ".toList ++ value }
            if m3.state = stateShowVars then initVarsTable ext m3 else m3
        some ((true, { m2 with searchInput := m2.searchInput.SetValue ext [],
                               filtered := m2.cheats }), d1)
    else usage
  | _ => usage

/-- `m.handleUnsetCommand(query)`. -/
def handleUnsetCommand (ext : Ext) (m : App) (d : Disk) (query : Str) : (Bool × App) × Disk :=
  let name := TrimSpace (sliceFrom query 6)
  if name ≠ [] then
    let r := m.globals.Unset ext.marshalIndent d name
    let m1 : App := { m with globals := r.1 }
    let m2 : App :=
      match r.2.2.2 with
      | some e =>
        { m1 with statusMsg := "✗ Failed to save changes: ".toList ++ e, statusIsError := true }
      | none =>
        if r.2.2.1 then
          let m3 : App := { m1 with statusMsg := "✓ Unset ".toList ++ name }
          if m3.state = stateShowVars then initVarsTable ext m3 else m3
        else
          { m1 with statusMsg := "✗ Variable \x27".toList ++ name ++ "\x27 not found".toList,
                    statusIsError := true }
    ((true, { m2 with searchInput := m2.searchInput.SetValue ext [], filtered := m2.cheats }),
      r.2.1)
  else
    ((true, { m with statusMsg := "✗ Usage: unset name".toList, statusIsError := true }), d)

/-- `m.handleSpecialCommand(query)`: whether the query was a directive, and the model
after it; `none` is a runtime panic. -/
def handleSpecialCommand (ext : Ext) (m : App) (d : Disk) (query : Str) :
    Option ((Bool × App) × Disk) :=
  let q := TrimSpace query
  let qLower := loader.ToLower ext.toLower q
  if qLower = "variables".toList then
    let m1 : App := { m with state := stateShowVars, searchInput := m.searchInput.SetValue ext [] }
    some ((true, initVarsTable ext m1), d)
  else if qLower = "help".toList then
    some ((true, { m with state := stateHelp, searchInput := m.searchInput.SetValue ext [] }), d)
  else if qLower = "tools".toList then
    let m1 : App := { m with state := stateShowTools, searchInput := m.searchInput.SetValue ext [] }
    let m2 : App := if m1.toolsPerPage = 0 then { m1 with toolsPerPage := 25 } else m1
    (initToolsTable ext m2).map (fun m3 => ((true, m3), d))
  else if HasPrefix qLower "set ".toList then handleSetCommand ext m d q
  else if HasPrefix qLower "unset ".toList then some (handleUnsetCommand ext m d q)
  else some ((false, m), d)

/-- The loop of `enterArgsState`: builds one text input per argument; `firstEmpty` is
the index of the first argument without a value, or `-1`. -/
def enterArgsLoop (ext : Ext) : Int → Int → List Argument → List TextInput × Int
  | _, firstEmpty, [] => ([], firstEmpty)
  | i, firstEmpty, arg :: rest =>
    let ti : TextInput := { TextInput.New with Placeholder := arg.Name, CharLimit := ArgCharLimit,
                                                Width := 40 }
    let ti := ti.SetValue ext arg.Value
    if arg.Value = [] ∧ firstEmpty = -1 then
      let r := enterArgsLoop ext (i + 1) i rest
      (ti.Focus :: r.1, r.2)
    else
      let r := enterArgsLoop ext (i + 1) firstEmpty rest
      (ti :: r.1, r.2)

/-- `m.enterArgsState()`; `none` is the index-out-of-range panic of `m.argInputs[0]`
for an empty argument list. -/
def enterArgsState (ext : Ext) (m : App) : Option (App × Cmd) :=
  let r := enterArgsLoop ext 0 (-1) m.args
  let m1 : App := { m with state := stateArgs, argInputs := r.1 }
  if r.2 = -1 then
    match m1.argInputs with
    | [] => none
    | ti :: rest => some ({ m1 with argInputs := ti.Focus :: rest, argCursor := 0 }, Cmd.nil)
  else some ({ m1 with argCursor := r.2 }, Cmd.nil)

/-- The loop of `handleEnter` that pre-fills one argument from the store. -/
def prefill (globals : Global) (arg : Argument) : Argument :=
  if (globals.Get arg.Name).2 then { arg with Value := (globals.Get arg.Name).1 }
  else if arg.DefaultValue ≠ [] then { arg with Value := arg.DefaultValue }
  else arg

/-- `m.handleEnter()`. -/
def handleEnter (ext : Ext) (m : App) (d : Disk) : Option ((App × Cmd) × Disk) :=
  let query := TrimSpace m.searchInput.value
  match handleSpecialCommand ext m d query with
  | none => none
  | some ((handled, newModel), d1) =>
    if handled then some ((newModel, Cmd.nil), d1)
    else if m.filtered.length = 0 ∨ m.cursor < 0 ∨ m.cursor ≥ m.filtered.length then
      some ((m, Cmd.nil), d)
    else
      match index m.filtered m.cursor with
      | none => none
      | some cheat =>
        let args := (ParseArguments cheat.Command).map (prefill m.globals)
        let m1 : App := { m with selectedCheat := some cheat, args := args }
        if m1.args.length = 0 then
          some (({ m1 with FinalCommand := BuildCommand cheat.Command m1.args }, Cmd.Quit), d)
        else (enterArgsState ext m1).map (fun r => (r, d))

/-- `m.moveCursorUp()`. -/
def moveCursorUp (m : App) : App :=
  if m.cursor > 0 then
    let m1 : App := { m with cursor := m.cursor - 1 }
    if m1.cursor < m1.offset then { m1 with offset := m1.cursor } else m1
  else if m.cursor = 0 then { m with cursor := -1 }
  else m

/-- `m.moveCursorDown()`. -/
def moveCursorDown (ext : Ext) (m : App) : App :=
  if m.cursor < 0 then
    if m.filtered.length > 0 then { m with cursor := 0, offset := 0 } else m
  else if m.cursor < (m.filtered.length : Int) - 1 then
    let m1 : App := { m with cursor := m.cursor + 1 }
    let maxVisible := maxVisibleItems ext m1
    if m1.cursor ≥ m1.offset + maxVisible then { m1 with offset := m1.cursor - maxVisible + 1 }
    else m1
  else m

/-- `m.pageUp()`. -/
def pageUp (ext : Ext) (m : App) : App :=
  if m.cursor < 0 then m
  else
    let m1 : App := { m with cursor := m.cursor - maxVisibleItems ext m }
    if m1.cursor < 0 then { m1 with cursor := -1, offset := 0 }
    else { m1 with offset := m1.cursor }

/-- `m.pageDown()`. -/
def pageDown (ext : Ext) (m : App) : App :=
  if m.cursor < 0 then
    if m.filtered.length > 0 then { m with cursor := 0, offset := 0 } else m
  else
    let m1 : App := { m with cursor := m.cursor + maxVisibleItems ext m }
    let m2 : App :=
      if m1.cursor ≥ m1.filtered.length then { m1 with cursor := (m1.filtered.length : Int) - 1 }
      else m1
    let maxVisible := maxVisibleItems ext m2
    if m2.cursor ≥ m2.offset + maxVisible then { m2 with offset := m2.cursor - maxVisible + 1 }
    else m2

/-- The final statements of `updateSearch`: the message is handed to the search input. -/
def searchInputUpdate (ext : Ext) (m : App) (msg : Msg) : App × Cmd :=
  let r := ext.tiUpdate m.searchInput msg
  ({ m with searchInput := r.1 }, r.2)

/-- `m.updateSearch(msg)`. -/
def updateSearch (ext : Ext) (m : App) (d : Disk) (msg : Msg) : Option ((App × Cmd) × Disk) :=
  let m : App := { m with statusMsg := [], statusIsError := false }
  match msg with
  | Msg.KeyMsg key =>
    if key = keyCtrlC ∨ key = keyEsc then some (({ m with Cancelled := true }, Cmd.Quit), d)
    else if key = keyHelp then
      if m.searchInput.value = [] then some (({ m with state := stateHelp }, Cmd.nil), d)
      else some (searchInputUpdate ext m msg, d)
    else if key = keyEnter then handleEnter ext m d
    else if key = keyUp ∨ key = keyCtrlP then some (searchInputUpdate ext (moveCursorUp m) msg, d)
    else if key = keyDown ∨ key = keyCtrlN then
      some (searchInputUpdate ext (moveCursorDown ext m) msg, d)
    else if key = keyPgUp then some (searchInputUpdate ext (pageUp ext m) msg, d)
    else if key = keyPgDown then some (searchInputUpdate ext (pageDown ext m) msg, d)
    else
      let r := searchInputUpdate ext m msg
      some ((updateFilter ext r.1, r.2), d)
  | _ => some (searchInputUpdate ext m msg, d)

/-! ### Argument view -/

/-- `m.nextArg()`; `none` is a runtime panic (index out of range, or the remainder of
a division by zero). -/
def nextArg (m : App) : Option App :=
  match index m.argInputs m.argCursor with
  | none => none
  | some ti =>
    match assign m.argInputs m.argCursor ti.Blur with
    | none => none
    | some inputs1 =>
      if m.args.length = 0 then none
      else
        let c := Int.tmod (m.argCursor + 1) m.args.length
        match index inputs1 c with
        | none => none
        | some ti2 =>
          match assign inputs1 c ti2.Focus with
          | none => none
          | some inputs2 => some { m with argInputs := inputs2, argCursor := c }

/-- `m.prevArg()`; `none` is the index-out-of-range panic. -/
def prevArg (m : App) : Option App :=
  match index m.argInputs m.argCursor with
  | none => none
  | some ti =>
    match assign m.argInputs m.argCursor ti.Blur with
    | none => none
    | some inputs1 =>
      let c := m.argCursor - 1
      let c := if c < 0 then (m.args.length : Int) - 1 else c
      match index inputs1 c with
      | none => none
      | some ti2 =>
        match assign inputs1 c ti2.Focus with
        | none => none
        | some inputs2 => some { m with argInputs := inputs2, argCursor := c }

/-- The loop of `submitArgs`: copies the text of each input into its argument; `none`
is the index-out-of-range panic of `m.argInputs[i]`. -/
def submitArgsLoop : List Argument → List TextInput → Option (List Argument)
  | [], _ => some []
  | _ :: _, [] => none
  | arg :: args, ti :: inputs =>
    match submitArgsLoop args inputs with
    | none => none
    | some rest => some ({ arg with Value := ti.value } :: rest)

/-- `m.submitArgs()`; `none` is a runtime panic (index out of range, or the use of a
nil `selectedCheat`). -/
def submitArgs (m : App) : Option (App × Cmd) :=
  match submitArgsLoop m.args m.argInputs with
  | none => none
  | some args =>
    let m1 : App := { m with args := args }
    if !HasEmptyArgs m1.args then
      match m1.selectedCheat with
      | none => none
      | some cheat => some ({ m1 with FinalCommand := BuildCommand cheat.Command m1.args }, Cmd.Quit)
    else some (m1, Cmd.nil)

/-- The final statements of `updateArgs`: the message is handed to the focused input. -/
def argInputUpdate (ext : Ext) (m : App) (msg : Msg) : Option (App × Cmd) :=
  match index m.argInputs m.argCursor with
  | none => none
  | some ti =>
    let r := ext.tiUpdate ti msg
    match assign m.argInputs m.argCursor r.1 with
    | none => none
    | some inputs => some ({ m with argInputs := inputs }, r.2)

/-- `m.updateArgs(msg)`. -/
def updateArgs (ext : Ext) (m : App) (msg : Msg) : Option (App × Cmd) :=
  match msg with
  | Msg.KeyMsg key =>
    if key = keyCtrlC then some ({ m with Cancelled := true }, Cmd.Quit)
    else if key = keyEsc then
      some ({ m with state := stateSearch, searchInput := m.searchInput.Focus }, Cmd.nil)
    else if key = keyEnter then submitArgs m
    else if key = keyTab ∨ key = keyDown then (nextArg m).map (fun m1 => (m1, Cmd.nil))
    else if key = keyShiftTab ∨ key = keyUp then (prevArg m).map (fun m1 => (m1, Cmd.nil))
    else argInputUpdate ext m msg
  | _ => argInputUpdate ext m msg

/-! ### Variables, tools and help views -/

/-- `m.updateShowVars(msg)`. -/
def updateShowVars (ext : Ext) (m : App) (msg : Msg) : App × Cmd :=
  let m : App := if m.varsTable.rows.length = 0 then initVarsTable ext m else m
  let toTable : App × Cmd :=
    let r := ext.tableUpdate m.varsTable msg
    ({ m with varsTable := r.1 }, r.2)
  match msg with
  | Msg.KeyMsg key =>
    if key = keyEsc ∨ key = keyQuit ∨ key = keyEnter then
      ({ m with state := stateSearch, searchInput := m.searchInput.Focus }, Cmd.nil)
    else toTable
  | _ => toTable

/-- `m.updateShowTools(msg)`; `none` is a runtime panic of `initToolsTable`. -/
def updateShowTools (ext : Ext) (m : App) (msg : Msg) : Option (App × Cmd) :=
  let toTable : Option (App × Cmd) :=
    let r := ext.tableUpdate m.toolsTable msg
    some ({ m with toolsTable := r.1 }, r.2)
  match msg with
  | Msg.KeyMsg key =>
    if key = keyEsc ∨ key = keyQuit then
      some ({ m with state := stateSearch, searchInput := m.searchInput.Focus }, Cmd.nil)
    else if key = keyEnter then
      match m.toolsTable.SelectedRow with
      | toolName :: _ =>
        let m1 : App := { m with state := stateSearch,
                                 searchInput := (m.searchInput.SetValue ext toolName).Focus }
        some (updateFilter ext m1, Cmd.nil)
      | [] => some ({ m with state := stateSearch, searchInput := m.searchInput.Focus }, Cmd.nil)
    else if key = keyLeft ∨ key = "h".toList then
      if m.toolsPaginator.Page > 0 then
        (initToolsTable ext { m with toolsPaginator := m.toolsPaginator.PrevPage }).map
          (fun m1 => (m1, Cmd.nil))
      else some (m, Cmd.nil)
    else if key = keyRight ∨ key = "l".toList then
      if m.toolsPaginator.Page < m.toolsPaginator.TotalPages - 1 then
        (initToolsTable ext { m with toolsPaginator := m.toolsPaginator.NextPage }).map
          (fun m1 => (m1, Cmd.nil))
      else some (m, Cmd.nil)
    else toTable
  | _ => toTable

/-- `m.updateHelp(msg)`. -/
def updateHelp (m : App) (msg : Msg) : App × Cmd :=
  match msg with
  | Msg.KeyMsg key =>
    if key = keyEsc ∨ key = keyQuit ∨ key = keyEnter ∨ key = keyHelp then
      ({ m with state := stateSearch, searchInput := m.searchInput.Focus }, Cmd.nil)
    else (m, Cmd.nil)
  | _ => (m, Cmd.nil)

/-! ### Router -/

/-- The first part of `Update`: a window resize is recorded before the message is
routed. -/
def resize (ext : Ext) (m : App) (msg : Msg) : Option App :=
  match msg with
  | Msg.WindowSizeMsg w h =>
    let m1 : App := { m with width := w, height := h,
                             searchInput := { m.searchInput with Width := w - 10 } }
    let m2 : Option App :=
      if m1.state = stateShowTools ∧ m1.toolsPerPage > 0 then initToolsTable ext m1 else some m1
    m2.map (fun m3 => if m3.state = stateShowVars then initVarsTable ext m3 else m3)
  | _ => some m

/-- `m.Update(msg)`: the transition of the session on a message, with the disk that
the store writes to; `none` is a runtime panic. -/
def Update (ext : Ext) (m : App) (d : Disk) (msg : Msg) : Option ((App × Cmd) × Disk) :=
  match resize ext m msg with
  | none => none
  | some m1 =>
    match m1.state with
    | stateSearch => updateSearch ext m1 d msg
    | stateArgs => (updateArgs ext m1 msg).map (fun r => (r, d))
    | stateShowVars => some (updateShowVars ext m1 msg, d)
    | stateShowTools => (updateShowTools ext m1 msg).map (fun r => (r, d))
    | stateHelp => some (updateHelp m1 msg, d)

/-! ### Tokenizer of the syntax highlighting -/

/-- The rune of the double quote. -/
def dquote : Char := Char.ofNat 34

/-- The rune of the single quote. -/
def squote : Char := Char.ofNat 39

/-- The rune of the backslash. -/
def backslash : Char := Char.ofNat 92

/-- The rune of the horizontal tab. -/
def tab : Char := Char.ofNat 9

/-- The value `rune(0)` of `inQuote` outside a quoted string. -/
def noQuote : Char := Char.ofNat 0

/-- The statements `if current.Len() > 0 { tokens = append(tokens, current.String());
current.Reset() }` of `tokenize`, as far as `tokens` is concerned. -/
def flush (tokens : List Str) (current : Str) : List Str :=
  if current.length > 0 then tokens ++ [current] else tokens

/-- The loop of `tokenize` over the runes of the line. `prev` is the rune before the
current one (`none` at offset 0), which is what the byte `line[i-1]` is compared
with; the byte `line[i+1]` is read behind a one-byte rune only, where it starts the
next rune. -/
def tokenizeLoop : Option Char → List Str → Str → Char → Nat → Str → List Str
  | _, tokens, current, _, _, [] => flush tokens current
  | prev, tokens, current, inQuote, inBraces, char :: rest =>
    if inBraces > 0 then
      let current := current ++ [char]
      if char = rbrace ∧ prev = some rbrace then
        if inBraces - 1 = 0 then
          tokenizeLoop (some char) (tokens ++ [current]) [] inQuote (inBraces - 1) rest
        else tokenizeLoop (some char) tokens current inQuote (inBraces - 1) rest
      else tokenizeLoop (some char) tokens current inQuote inBraces rest
    else if inQuote ≠ noQuote then
      let current := current ++ [char]
      if char = inQuote ∧ prev ≠ some backslash then
        tokenizeLoop (some char) (tokens ++ [current]) [] noQuote inBraces rest
      else tokenizeLoop (some char) tokens current inQuote inBraces rest
    else if char = lbrace ∧ rest.head? = some lbrace then
      tokenizeLoop (some char) (flush tokens current) [char] inQuote (inBraces + 1) rest
    else if char = dquote ∨ char = squote then
      tokenizeLoop (some char) (flush tokens current) [char] char inBraces rest
    else if char = ' ' ∨ char = tab then
      tokenizeLoop (some char) (flush tokens current ++ [[char]]) [] inQuote inBraces rest
    else if char = bar ∨ char = '>' ∨ char = '<' ∨ char = ';' ∨ char = '&' then
      match rest with
      | next :: _ =>
        if (char = '>' ∧ next = '>') ∨ (char = '&' ∧ next = '&') ∨ (char = bar ∧ next = bar) then
          tokenizeLoop (some char) (flush tokens current ++ [[char, next]]) [] inQuote inBraces rest
        else tokenizeLoop (some char) (flush tokens current ++ [[char]]) [] inQuote inBraces rest
      | [] => tokenizeLoop (some char) (flush tokens current ++ [[char]]) [] inQuote inBraces rest
    else tokenizeLoop (some char) tokens (current ++ [char]) inQuote inBraces rest

/-- `tokenize(line)`. -/
def tokenize (line : Str) : List Str := tokenizeLoop none [] [] noQuote 0 line

/-- The command line `cat a >> b`. -/
def appendLine : Str := "cat a >> b".toList

/-- Whether a line is free of the two-rune operators `>>`, `&&` and `||`. -/
def noDoubleOperator : Str → Bool
  | a :: b :: rest =>
    !(decide ((a = '>' ∧ b = '>') ∨ (a = '&' ∧ b = '&') ∨ (a = bar ∧ b = bar)))
      && noDoubleOperator (b :: rest)
  | _ => true

/-! ### Initialisation -/

/-- `config.SearchPlaceholder`. -/
def SearchPlaceholder : Str := "Search commands...".toList

/-- The zero value of `state.Global`: a nil map and an empty path. -/
def zeroGlobal : Global := { vars := none, filePath := [] }

/-- `New(cheats)`: `path` and `d` are what `state.NewGlobal` finds (the result of
`config.GetVariablesPath()` and the disk), `unmarshal` is `json.Unmarshal`. -/
def New (unmarshal : Str → Except Str (Option (List (Str × Str)))) (cheats : List Cheat)
    (path : Except Str Str) (d : Disk) : App :=
  let ti : TextInput :=
    { TextInput.New with Placeholder := SearchPlaceholder, focus := true, CharLimit := 100,
                         Width := 50 }
  let globals : Global :=
    match NewGlobal path unmarshal d with
    | .ok g => g
    | .error _ => zeroGlobal
  { state := stateSearch, cheats := cheats, filtered := cheats, searchInput := ti,
    cursor := -1, offset := 0, width := DefaultWidth, height := 24, globals := globals,
    statusMsg := [], statusIsError := false, selectedCheat := none, args := [], argInputs := [],
    argCursor := 0, FinalCommand := [], Cancelled := false,
    toolsTable := { rows := [], cursor := 0, height := 0 },
    toolsPaginator := { Page := 0, PerPage := 0, TotalPages := 0 }, toolsPerPage := 25,
    varsTable := { rows := [], cursor := 0, height := 0 } }

/-! ### Sample session -/

/-- The query of the search input is not a directive: `handleSpecialCommand` on the
trimmed text reports that it did not handle it. -/
def nonDirective (ext : Ext) (m : App) (d : Disk) : Prop :=
  (handleSpecialCommand ext m d (TrimSpace m.searchInput.value)).map (fun r => r.1.1)
    = some false

instance (ext : Ext) (m : App) (d : Disk) : Decidable (nonDirective ext m d) := by
  unfold nonDirective; infer_instance

/-- A library behaviour for the examples: ASCII lower-casing, a text input that
truncates to its limit and ignores messages, a table that ignores messages. The
header is the logo of `config.Logo`, 7 rows; the info box of a record without a
description is the title and a command of one line inside a border, 4 rows; the
footer and the search input are one row each. -/
def sampleExt : Ext where
  toLower := Char.toLower
  marshalIndent := fun _ => .ok []
  tiSetValue := fun limit s => if limit > 0 then s.take limit.toNat else s
  tiUpdate := fun ti _ => (ti, Cmd.nil)
  tableUpdate := fun t _ => (t, Cmd.nil)
  headerRows := fun _ => 7
  infoBoxRows := fun _ _ _ => 4
  footerRows := fun _ => 2
  toolsChromeRows := fun _ => 3
  varsChromeRows := fun _ => 2

/-- The record `nmap -sV {{ip}}` of the tool `nmap`. -/
def sampleCheat : Cheat :=
  { Tool := "nmap".toList, Tags := ["scan".toList], Title := "Version scan".toList, Desc := [],
    Command := "nmap -sV \x7b\x7bip\x7d\x7d".toList, Filename := "nmap.yaml".toList }

/-- A session in the search view over the catalog `[sampleCheat]`, the first record
selected, with an empty store. -/
def sampleApp : App :=
  { state := stateSearch, cheats := [sampleCheat], filtered := [sampleCheat],
    searchInput := { value := [], focus := true, Placeholder := "Search commands...".toList,
                     CharLimit := 100, Width := 50 },
    cursor := 0, offset := 0, width := 80, height := 24,
    globals := { vars := some [], filePath := "variables.json".toList },
    statusMsg := [], statusIsError := false, selectedCheat := none, args := [], argInputs := [],
    argCursor := 0, FinalCommand := [], Cancelled := false,
    toolsTable := { rows := [], cursor := 0, height := 0 },
    toolsPaginator := { Page := 0, PerPage := 0, TotalPages := 0 }, toolsPerPage := 25,
    varsTable := { rows := [], cursor := 0, height := 0 } }

/-- A disk without a variables file, on which writes succeed. -/
def sampleDisk : Disk := { file := none, tmp := none, writeErr := none, renameErr := none }

/-- The session `sampleApp` in the argument view for `sampleCheat`, with the text
`10.10.10.10` typed into the input of `ip`. -/
def sampleArgsApp : App :=
  { sampleApp with
    state := stateArgs, selectedCheat := some sampleCheat,
    args := [{ Name := "ip".toList, DefaultValue := [], Value := [], Position := 9 }],
    argInputs := [{ value := "10.10.10.10".toList, focus := true, Placeholder := "ip".toList,
                    CharLimit := 200, Width := 40 }],
    argCursor := 0 }

/-! ### Runs, invariants and further sample sessions -/

/-- The step `f` applied `k` times in a row; `none` as soon as one application panics. -/
def repeatStep (f : App → Option App) : Nat → App → Option App
  | 0, m => some m
  | k + 1, m =>
    match f m with
    | none => none
    | some m1 => repeatStep f k m1

/-- The session `sampleArgsApp` with a second argument `port` and the focus on it. -/
def twoArgsApp : App :=
  { sampleArgsApp with
    args := sampleArgsApp.args ++
      [{ Name := "port".toList, DefaultValue := [], Value := [], Position := 20 }],
    argInputs := sampleArgsApp.argInputs.map TextInput.Blur ++
      [{ TextInput.New with Placeholder := "port".toList, CharLimit := ArgCharLimit, Width := 40,
                            focus := true }],
    argCursor := 1 }

/-- The visible-window invariant of the search list: the offset is not negative, and
either no record is selected or the cursor is an index of the filtered list inside
the window of `maxVisibleItems` rows that starts at the offset. -/
def windowInv (ext : Ext) (m : App) : Prop :=
  m.offset ≥ 0 ∧
    (m.cursor = -1 ∨
      (0 ≤ m.cursor ∧ m.cursor < m.filtered.length ∧ m.offset ≤ m.cursor ∧
        m.cursor < m.offset + maxVisibleItems ext m))

instance (ext : Ext) (m : App) : Decidable (windowInv ext m) := by
  unfold windowInv; infer_instance

/-- The session after a sequence of messages, with the disk; `none` is a runtime
panic. Commands returned on the way are dropped. -/
def run (ext : Ext) : List Msg → App × Disk → Option (App × Disk)
  | [], s => some s
  | msg :: rest, s =>
    match Update ext s.1 s.2 msg with
    | none => none
    | some r => run ext rest (r.1.1, r.2)

/-- The library behaviour `sampleExt` with an info box that is two rows higher for a
record with a description (one that wraps to two lines) than for a record
without one. -/
def wrapExt : Ext :=
  { sampleExt with infoBoxRows := fun _ cheat _ => if cheat.Desc = [] then 4 else 6 }

/-- A record of the tool `nmap` with the given title and description. -/
def scanCheat (title desc : String) : Cheat :=
  { Tool := "nmap".toList, Tags := [], Title := title.toList, Desc := desc.toList,
    Command := "nmap 10.0.0.1".toList, Filename := "nmap.yaml".toList }

/-- A catalog of six records; only the fifth has a description. -/
def sixCheats : List Cheat :=
  [scanCheat "a" "", scanCheat "b" "", scanCheat "c" "", scanCheat "d" "",
   scanCheat "e"
     "Runs the default scripts and the version detection on every open port and writes the results in all formats",
   scanCheat "f" ""]

/-- The messages of the failing session: a terminal of 22 rows, `pgdown` twice. -/
def toBottom : List Msg :=
  [Msg.WindowSizeMsg 80 22, Msg.KeyMsg keyPgDown, Msg.KeyMsg keyPgDown]

/-- The session `sampleApp` with the bare keyword `set` as query. -/
def bareSetApp : App :=
  { sampleApp with searchInput := { sampleApp.searchInput with value := "set".toList } }

/-- The session `sampleApp` with the partial keyword `se` as query. -/
def partialSetApp : App :=
  { sampleApp with searchInput := { sampleApp.searchInput with value := "se".toList } }

/-- The session `sampleApp` with the query ` SET ip = 10.0.0.1 `. -/
def setApp : App :=
  { sampleApp with
    searchInput := { sampleApp.searchInput with value := " SET ip = 10.0.0.1 ".toList } }

/-- The inner sorting loop as a pass over the tools behind position `i`: `a` is the
tool at position `i`; the pass returns the tool left at position `i` and the
tools behind it. -/
def minPass (a : ToolInfo) : List ToolInfo → ToolInfo × List ToolInfo
  | [] => (a, [])
  | b :: rest =>
    if b.Name < a.Name then ((minPass b rest).1, a :: (minPass b rest).2)
    else ((minPass a rest).1, b :: (minPass a rest).2)

/-- The catalog of the tools `nmap` (twice), `ffuf` and a record without a tool. -/
def toolsApp : App :=
  { sampleApp with
    cheats := [sampleCheat, { sampleCheat with Tool := "ffuf".toList },
               { sampleCheat with Tool := [] }, sampleCheat] }

/-- The invariant of the argument view: there is one input per argument, at least one
argument, the focus is on an argument, and a record is selected. -/
def argsInv (m : App) : Prop :=
  m.state = stateArgs →
    m.argInputs.length = m.args.length ∧ 1 ≤ m.args.length ∧ 0 ≤ m.argCursor ∧
      m.argCursor < m.args.length ∧ m.selectedCheat ≠ none

/-- The part of the session that the argument view works on. -/
def argsCore (m : App) : appState × List Argument × List TextInput × Int × Option Cheat :=
  (m.state, m.args, m.argInputs, m.argCursor, m.selectedCheat)

/-- A library behaviour in which the text input appends a typed rune to its value (the
cursor of the input is at the end, the value is below the limit) and ignores every
other message. -/
def typingExt : Ext :=
  { sampleExt with
    tiUpdate := fun ti msg =>
      match msg with
      | Msg.KeyMsg [c] => ({ ti with value := ti.value ++ [c] }, Cmd.nil)
      | _ => (ti, Cmd.nil) }

/-- The key events of a text typed rune by rune. -/
def typed (text : String) : List Msg := text.toList.map (fun c => Msg.KeyMsg [c])

/-- The key events `h`, `e`, `l`, `p`, `enter`, `esc`: the directive `help` is entered
and the help view is dismissed. -/
def helpAndBack : List Msg := typed "help" ++ [Msg.KeyMsg keyEnter, Msg.KeyMsg keyEsc]

/-- The initial session over the sample catalog. -/
def initialApp : App :=
  New sampleUnmarshal [sampleCheat] (.ok "variables.json".toList) emptyDisk

/-- The initial session over the sample catalog when the variables file holds the JSON
value `null`: `NewGlobal` succeeds and the map of the store is nil. -/
def nullFileApp : App :=
  New sampleUnmarshal [sampleCheat] (.ok "variables.json".toList) nullDisk

/-- The session that `New` creates when `config.GetVariablesPath()` fails: the store is
the zero value of `state.Global`. -/
def fallbackApp : App :=
  New sampleUnmarshal [sampleCheat] (.error "no home directory".toList) sampleDisk

/-- The session `fallbackApp` with `set ip=10.0.0.1` typed into the search input. -/
def fallbackSetApp : App :=
  { fallbackApp with
    searchInput := { fallbackApp.searchInput with value := "set ip=10.0.0.1".toList } }

/-- The session `sampleApp` in the help view. -/
def helpApp : App := { sampleApp with state := stateHelp }

/-- The session `sampleApp` with no record selected. -/
def unselectedApp : App := { sampleApp with cursor := -1 }

end ui

/-! # Theorems -/

namespace model

open ArgPattern

/-! ### Runs and prefixes -/

theorem takeWhile_stop {p : Char → Bool} (a : Str) (x : Char) (r : Str)
    (ha : ∀ c ∈ a, p c = true) (hx : p x = false) :
    (a ++ x :: r).takeWhile p = a := by
  induction a with
  | nil => simp [List.takeWhile, hx]
  | cons c cs ih =>
    have hc : p c = true := ha c (by simp)
    simp only [List.cons_append, List.takeWhile_cons, hc, if_true]
    rw [ih (fun y hy => ha y (by simp [hy]))]

theorem dropWhile_stop {p : Char → Bool} (a : Str) (x : Char) (r : Str)
    (ha : ∀ c ∈ a, p c = true) (hx : p x = false) :
    (a ++ x :: r).dropWhile p = x :: r := by
  induction a with
  | nil => simp [List.dropWhile, hx]
  | cons c cs ih =>
    have hc : p c = true := ha c (by simp)
    simp only [List.cons_append, List.dropWhile_cons, hc, if_true]
    rw [ih (fun y hy => ha y (by simp [hy]))]

theorem isNameRune_iff (c : Char) :
    isNameRune c = true ↔ c ≠ lbrace ∧ c ≠ rbrace ∧ c ≠ bar := by
  simp [isNameRune, and_assoc]

theorem isDefaultRune_iff (c : Char) :
    isDefaultRune c = true ↔ c ≠ lbrace ∧ c ≠ rbrace := by
  simp [isDefaultRune]

theorem isNameRune_rbrace : isNameRune rbrace = false := by decide

theorem isNameRune_bar : isNameRune bar = false := by decide

theorem isDefaultRune_rbrace : isDefaultRune rbrace = false := by decide

theorem lbrace_ne_rbrace : lbrace ≠ rbrace := by decide

theorem bar_ne_rbrace : bar ≠ rbrace := by decide

/-! ### The anchored match -/

theorem matchAt_of_ne_lbrace (c : Char) (cs : Str) (h : c ≠ lbrace) :
    matchAt (c :: cs) = none := by
  cases cs with
  | nil => simp [matchAt]
  | cons c2 t => simp [matchAt, h]

theorem closing_braces (rest : Str) : closing (rbrace :: rbrace :: rest) = some rest := by
  simp [closing]

theorem closing_eq_some {r rest : Str} (h : closing r = some rest) :
    r = rbrace :: rbrace :: rest := by
  match r, h with
  | c1 :: c2 :: t, h =>
    simp only [closing] at h
    split at h
    · rename_i hc
      obtain ⟨h1, h2⟩ := hc
      simp only [Option.some.injEq] at h
      subst h1 h2 h
      rfl
    · simp at h
  | [_], h => simp [closing] at h
  | [], h => simp [closing] at h

theorem closing_bar (r : Str) : closing (bar :: r) = none := by
  cases r with
  | nil => simp [closing]
  | cons c t =>
    have : bar ≠ rbrace := bar_ne_rbrace
    simp [closing, this]

theorem matchBody_bare (n rest : Str) (hn : validName n) :
    matchBody (n ++ rbrace :: rbrace :: rest) = some (n, none) := by
  unfold matchBody
  simp only [takeWhile_stop n rbrace (rbrace :: rest) hn.2 isNameRune_rbrace,
    dropWhile_stop n rbrace (rbrace :: rest) hn.2 isNameRune_rbrace, closing_braces]
  simp [hn.1]

theorem matchBody_default (n d rest : Str) (hn : validName n) (hd : validDefault d) :
    matchBody (n ++ bar :: (d ++ rbrace :: rbrace :: rest)) = some (n, some d) := by
  unfold matchBody
  simp only [takeWhile_stop n bar _ hn.2 isNameRune_bar,
    dropWhile_stop n bar _ hn.2 isNameRune_bar, closing_bar,
    takeWhile_stop d rbrace (rbrace :: rest) hd.2 isDefaultRune_rbrace,
    dropWhile_stop d rbrace (rbrace :: rest) hd.2 isDefaultRune_rbrace, closing_braces]
  simp [hn.1, hd.1]

theorem matchAt_phText (n : Str) (d : Option Str) (rest : Str) (hn : validName n)
    (hd : ∀ x, d = some x → validDefault x) :
    matchAt (phText n d ++ rest) = some (n, d) := by
  cases d with
  | none =>
    have := matchBody_bare n rest hn
    simp [phText, matchAt, this]
  | some x =>
    have := matchBody_default n x rest hn (hd x rfl)
    simp [phText, matchAt, this]

theorem matchLen_eq (n : Str) (d : Option Str) : matchLen (n, d) = (phText n d).length := by
  cases d with
  | none => simp [matchLen, phText]; omega
  | some x => simp [matchLen, phText]; omega

theorem matchBody_sound {t : Str} {g : Str × Option Str} (h : matchBody t = some g) :
    validName g.1 ∧ (∀ x, g.2 = some x → validDefault x) ∧
      ∃ rest, t = (phText g.1 g.2).drop 2 ++ rest := by
  unfold matchBody at h
  have hsplit : t.takeWhile isNameRune ++ t.dropWhile isNameRune = t :=
    List.takeWhile_append_dropWhile _ _
  have hall : ∀ c ∈ t.takeWhile isNameRune, isNameRune c = true :=
    fun c hc => List.mem_takeWhile_imp hc
  simp only at h
  split at h
  · simp at h
  · rename_i hne
    split at h
    · rename_i rest hcl
      simp only [Option.some.injEq] at h
      subst h
      refine ⟨⟨hne, hall⟩, by simp, rest, ?_⟩
      rw [closing_eq_some hcl] at hsplit
      simp [phText, hsplit]
    · split at h
      · rename_i c r2 hr
        split at h
        · rename_i hc
          split at h
          · simp at h
          · rename_i hdne
            split at h
            · rename_i rest hcl
              simp only [Option.some.injEq] at h
              subst h
              have hall2 : ∀ c ∈ r2.takeWhile isDefaultRune, isDefaultRune c = true :=
                fun c hc => List.mem_takeWhile_imp hc
              have hsplit2 : r2.takeWhile isDefaultRune ++ r2.dropWhile isDefaultRune = r2 :=
                List.takeWhile_append_dropWhile _ _
              refine ⟨⟨hne, hall⟩, ?_, rest, ?_⟩
              · intro x hx
                simp only [Option.some.injEq] at hx
                subst hx
                exact ⟨hdne, hall2⟩
              · rw [closing_eq_some hcl] at hsplit2
                rw [hr, ← hsplit2, hc] at hsplit
                simp [phText, hsplit]
            · simp at h
        · simp at h
      · simp at h

theorem matchAt_sound {s : Str} {g : Str × Option Str} (h : matchAt s = some g) :
    validName g.1 ∧ (∀ x, g.2 = some x → validDefault x) ∧
      ∃ rest, s = phText g.1 g.2 ++ rest := by
  match s, h with
  | c1 :: c2 :: t, h =>
    simp only [matchAt] at h
    split at h
    · rename_i hc
      obtain ⟨h1, h2, rest, h3⟩ := matchBody_sound h
      refine ⟨h1, h2, rest, ?_⟩
      rw [hc.1, hc.2, h3]
      cases hg : g.2 <;> simp [phText]
    · simp at h
  | [_], h => simp [matchAt] at h
  | [], h => simp [matchAt] at h

/-- The anchored match is the language of the pattern: `matchAt s` returns the groups
`(n, d)` exactly when `s` starts with the text of a placeholder with the valid name
`n` and the valid optional default `d`. In particular at most one pair of groups
fits at a position, so the preference order of the matcher plays no role. -/
theorem matchAt_iff (s n : Str) (d : Option Str) :
    matchAt s = some (n, d) ↔
      validName n ∧ (∀ x, d = some x → validDefault x) ∧ ∃ rest, s = phText n d ++ rest := by
  constructor
  · intro h
    exact matchAt_sound h
  · rintro ⟨hn, hd, rest, rfl⟩
    exact matchAt_phText n d rest hn hd

/-! ### Passing over a match -/

theorem byteLen_append (xs ys : Str) : byteLen (xs ++ ys) = byteLen xs + byteLen ys := by
  induction xs with
  | nil => simp [byteLen]
  | cons c cs ih => simp [byteLen, ih, Nat.add_assoc]

theorem FindAllAux_skip (xs : Str) (pos : Nat) (ys : Str) :
    FindAllAux pos xs.length (xs ++ ys) = FindAllAux (pos + byteLen xs) 0 ys := by
  induction xs generalizing pos with
  | nil => simp [byteLen]
  | cons c cs ih =>
    simp only [List.length_cons, List.cons_append, FindAllAux, byteLen, List.append_eq]
    rw [ih, Nat.add_assoc]

theorem ReplaceAllAux_skip (e : Str → Option Str → Str) (xs ys : Str) :
    ArgPattern.ReplaceAllAux e xs.length (xs ++ ys) = ArgPattern.ReplaceAllAux e 0 ys := by
  induction xs with
  | nil => simp
  | cons c cs ih =>
    simp only [List.length_cons, List.cons_append, ArgPattern.ReplaceAllAux, List.append_eq, ih]

theorem strings_ReplaceAllAux_skip (old new xs ys : Str) :
    strings.ReplaceAllAux old new xs.length (xs ++ ys) = strings.ReplaceAllAux old new 0 ys := by
  induction xs with
  | nil => simp
  | cons c cs ih =>
    simp only [List.length_cons, List.cons_append, strings.ReplaceAllAux, List.append_eq, ih]

theorem phText_eq_cons (n : Str) (d : Option Str) :
    ∃ tl, phText n d = lbrace :: tl ∧ tl.length = matchLen (n, d) - 1 := by
  cases d with
  | none => exact ⟨lbrace :: (n ++ [rbrace, rbrace]), by simp [phText], by simp [matchLen]; omega⟩
  | some x =>
    exact ⟨lbrace :: (n ++ bar :: x ++ [rbrace, rbrace]), by simp [phText],
      by simp [matchLen]; omega⟩

theorem FindAllAux_match (pos : Nat) (n : Str) (d : Option Str) (rest : Str)
    (hn : validName n) (hd : ∀ x, d = some x → validDefault x) :
    FindAllAux pos 0 (phText n d ++ rest)
      = ⟨pos, n, d⟩ :: FindAllAux (pos + byteLen (phText n d)) 0 rest := by
  have hm := matchAt_phText n d rest hn hd
  obtain ⟨tl, htl, hlen⟩ := phText_eq_cons n d
  rw [htl] at hm ⊢
  simp only [List.cons_append] at hm ⊢
  simp only [FindAllAux, hm]
  rw [← hlen, FindAllAux_skip, byteLen, Nat.add_assoc]

theorem ReplaceAllAux_match (e : Str → Option Str → Str) (n : Str) (d : Option Str)
    (rest : Str) (hn : validName n) (hd : ∀ x, d = some x → validDefault x) :
    ArgPattern.ReplaceAllAux e 0 (phText n d ++ rest)
      = e n d ++ ArgPattern.ReplaceAllAux e 0 rest := by
  have hm := matchAt_phText n d rest hn hd
  obtain ⟨tl, htl, hlen⟩ := phText_eq_cons n d
  rw [htl] at hm ⊢
  simp only [List.cons_append] at hm ⊢
  simp only [ArgPattern.ReplaceAllAux, hm]
  rw [← hlen, ReplaceAllAux_skip]

/-! ### Scanning a well-formed sequence of segments -/

theorem render_cons (s : Seg) (segs : List Seg) : render (s :: segs) = s.render ++ render segs := by
  simp [render]

theorem ReplaceAllAux_render (e : Str → Option Str → Str) (segs : List Seg)
    (hwf : ∀ s ∈ segs, s.WF) :
    ArgPattern.ReplaceAllAux e 0 (render segs) = segs.flatMap (Seg.fill e) := by
  induction segs with
  | nil => simp [render, ArgPattern.ReplaceAllAux]
  | cons s rest ih =>
    have ih := ih (fun x hx => hwf x (by simp [hx]))
    have hs := hwf s (by simp)
    rw [render_cons, List.flatMap_cons]
    cases s with
    | lit c =>
      simp only [Seg.render, Seg.fill, List.singleton_append, ArgPattern.ReplaceAllAux,
        matchAt_of_ne_lbrace c _ hs.1, ih, List.append_eq, List.nil_append]
    | ph n d =>
      simp only [Seg.render, Seg.fill]
      rw [ReplaceAllAux_match e n d _ hs.1 hs.2, ih]

theorem mem_FindAllAux_render (segs : List Seg) (hwf : ∀ s ∈ segs, s.WF) (pos : Nat)
    (n : Str) (d : Option Str) (hmem : Seg.ph n d ∈ segs) :
    ∃ m ∈ FindAllAux pos 0 (render segs), m.name = n := by
  induction segs generalizing pos with
  | nil => simp at hmem
  | cons s rest ih =>
    have hs := hwf s (by simp)
    rw [render_cons]
    cases s with
    | lit c =>
      have hmem2 : Seg.ph n d ∈ rest := by simpa using hmem
      obtain ⟨m, hm, hmn⟩ := ih (fun x hx => hwf x (by simp [hx])) (pos + c.utf8Size) hmem2
      refine ⟨m, ?_, hmn⟩
      simpa only [Seg.render, List.singleton_append, FindAllAux,
        matchAt_of_ne_lbrace c _ hs.1] using hm
    | ph n2 d2 =>
      simp only [Seg.render]
      rw [FindAllAux_match pos n2 d2 _ hs.1 hs.2]
      rcases List.mem_cons.1 hmem with heq | hmem2
      · injection heq with h1 h2
        exact ⟨⟨pos, n2, d2⟩, by simp, h1.symm⟩
      · obtain ⟨m, hm, hmn⟩ := ih (fun x hx => hwf x (by simp [hx]))
          (pos + byteLen (phText n2 d2)) hmem2
        exact ⟨m, List.mem_cons_of_mem _ hm, hmn⟩

/-! ### Literal replacement of one placeholder -/

theorem strings_ReplaceAllAux_cons_copy (old v : Str) (c : Char) (cs : Str)
    (h : old.isPrefixOf (c :: cs) = false) :
    strings.ReplaceAllAux old v 0 (c :: cs) = c :: strings.ReplaceAllAux old v 0 cs := by
  simp [strings.ReplaceAllAux, h]

theorem copy_no_lbrace (o v xs r : Str) (h : ∀ c ∈ xs, c ≠ lbrace) :
    strings.ReplaceAllAux (lbrace :: o) v 0 (xs ++ r)
      = xs ++ strings.ReplaceAllAux (lbrace :: o) v 0 r := by
  induction xs with
  | nil => simp
  | cons c cs ih =>
    have hc : c ≠ lbrace := h c (by simp)
    have hc2 : (lbrace == c) = false := by
      simp only [beq_eq_false_iff_ne, ne_eq]
      exact fun e => hc e.symm
    simp only [List.cons_append, strings.ReplaceAllAux, List.isPrefixOf, hc2, Bool.false_and,
      List.append_eq]
    simp [ih (fun y hy => h y (by simp [hy]))]

theorem placeholder_prefix_eq (a n r : Str) (ha : braceFree a) (hn : validName n)
    (h : (placeholder a).isPrefixOf (placeholder n ++ r) = true) : a = n := by
  rw [List.isPrefixOf_iff_prefix] at h
  obtain ⟨z, hz⟩ := h
  simp only [placeholder, List.cons_append, List.nil_append, List.append_assoc,
    List.cons.injEq, true_and] at hz
  have h1 : ∀ c ∈ a, (fun c => c != rbrace) c = true := by
    intro c hc
    simpa using (ha c hc).2
  have h2 : ∀ c ∈ n, (fun c => c != rbrace) c = true := by
    intro c hc
    simpa using ((isNameRune_iff c).1 (hn.2 c hc)).2.1
  have h3 : (fun c => c != rbrace) rbrace = false := by simp
  have := congrArg (List.takeWhile (fun c => c != rbrace)) hz
  rwa [takeWhile_stop a rbrace _ h1 h3, takeWhile_stop n rbrace _ h2 h3] at this

theorem ReplaceAllAux_placeholder_same (a v r : Str) :
    strings.ReplaceAllAux (placeholder a) v 0 (placeholder a ++ r)
      = v ++ strings.ReplaceAllAux (placeholder a) v 0 r := by
  have hp : (placeholder a).isPrefixOf (placeholder a ++ r) = true := by
    rw [List.isPrefixOf_iff_prefix]
    exact List.prefix_append _ _
  have hcons : placeholder a = lbrace :: (lbrace :: (a ++ [rbrace, rbrace])) := by
    simp [placeholder]
  have hlen : (placeholder a).length - 1 = (lbrace :: (a ++ [rbrace, rbrace])).length := by
    simp [placeholder]
  have hstep : strings.ReplaceAllAux (placeholder a) v 0
      (lbrace :: ((lbrace :: (a ++ [rbrace, rbrace])) ++ r))
      = v ++ strings.ReplaceAllAux (placeholder a) v ((placeholder a).length - 1)
          ((lbrace :: (a ++ [rbrace, rbrace])) ++ r) := by
    have hp2 : (placeholder a).isPrefixOf
        (lbrace :: ((lbrace :: (a ++ [rbrace, rbrace])) ++ r)) = true := by
      rw [← hp, hcons]
      rfl
    simp only [strings.ReplaceAllAux, hp2, if_true]
  have hlhs : placeholder a ++ r = lbrace :: ((lbrace :: (a ++ [rbrace, rbrace])) ++ r) := by
    rw [hcons]
    rfl
  rw [hlhs, hstep, hlen, strings_ReplaceAllAux_skip]

theorem ReplaceAllAux_placeholder_other (a v n r : Str) (ha : braceFree a) (hn : validName n)
    (hne : n ≠ a) :
    strings.ReplaceAllAux (placeholder a) v 0 (placeholder n ++ r)
      = placeholder n ++ strings.ReplaceAllAux (placeholder a) v 0 r := by
  have hp : (placeholder a).isPrefixOf (placeholder n ++ r) = false := by
    cases hb : (placeholder a).isPrefixOf (placeholder n ++ r) with
    | false => rfl
    | true => exact absurd (placeholder_prefix_eq a n r ha hn hb).symm hne
  obtain ⟨n0, n1, hn01⟩ : ∃ n0 n1, n = n0 :: n1 := by
    cases n with
    | nil => exact absurd rfl hn.1
    | cons x y => exact ⟨x, y, rfl⟩
  have hn0 : n0 ≠ lbrace := by
    have := (isNameRune_iff n0).1 (hn.2 n0 (by simp [hn01]))
    exact this.1
  have hn0b : (lbrace == n0) = false := by
    simp only [beq_eq_false_iff_ne, ne_eq]
    exact fun e => hn0 e.symm
  have hall : ∀ c ∈ n0 :: (n1 ++ [rbrace, rbrace]), c ≠ lbrace := by
    intro c hc
    simp only [List.mem_cons, List.mem_append, List.mem_singleton, List.not_mem_nil,
      or_false] at hc
    rcases hc with h | h | h | h
    · exact h ▸ hn0
    · exact ((isNameRune_iff c).1 (hn.2 c (by simp [hn01, h]))).1
    · exact h ▸ lbrace_ne_rbrace.symm
    · exact h ▸ lbrace_ne_rbrace.symm
  have hcopy := copy_no_lbrace (lbrace :: (a ++ [rbrace, rbrace])) v
    (n0 :: (n1 ++ [rbrace, rbrace])) r hall
  have hpa : placeholder a = lbrace :: (lbrace :: (a ++ [rbrace, rbrace])) := by
    simp [placeholder]
  have hpn : placeholder n ++ r
      = lbrace :: (lbrace :: ((n0 :: (n1 ++ [rbrace, rbrace])) ++ r)) := by
    simp [placeholder, hn01]
  rw [hpn] at hp ⊢
  rw [hpa] at hp ⊢
  have hp1 : (lbrace :: (lbrace :: (a ++ [rbrace, rbrace]))).isPrefixOf
      (lbrace :: ((n0 :: (n1 ++ [rbrace, rbrace])) ++ r)) = false := by
    simp [List.isPrefixOf, hn0b]
  rw [strings_ReplaceAllAux_cons_copy _ _ _ _ hp,
    strings_ReplaceAllAux_cons_copy _ _ _ _ hp1, hcopy]
  simp [hn01, placeholder]

theorem find_append_single (σ : List Argument) (a : Argument) (n : Str) :
    (σ ++ [a]).find? (fun b => b.Name = n)
      = match σ.find? (fun b => b.Name = n) with
        | some b => some b
        | none => if a.Name = n then some a else none := by
  induction σ with
  | nil => by_cases h : a.Name = n <;> simp [List.find?, h]
  | cons b rest ih =>
    by_cases hb : b.Name = n
    · simp [List.find?, hb]
    · simp [List.find?, hb, ih]

theorem ReplaceAll_fill_step (σ : List Argument) (a : Argument) (segs : List Seg)
    (hwf : ∀ s ∈ segs, s.WF) (hσ : ∀ b ∈ σ, braceFree b.Value) (ha : braceFree a.Name) :
    strings.ReplaceAll (segs.flatMap (Seg.fill (fillWith σ))) (placeholder a.Name) a.Value
      = segs.flatMap (Seg.fill (fillWith (σ ++ [a]))) := by
  have hpa : placeholder a.Name = lbrace :: (lbrace :: (a.Name ++ [rbrace, rbrace])) := by
    simp [placeholder]
  have hRA : ∀ s, strings.ReplaceAll s (placeholder a.Name) a.Value
      = strings.ReplaceAllAux (placeholder a.Name) a.Value 0 s := by
    intro s
    rw [hpa]
    rfl
  rw [hRA]
  induction segs with
  | nil => simp [strings.ReplaceAllAux]
  | cons s rest ih =>
    have ih := ih (fun x hx => hwf x (by simp [hx]))
    have hs := hwf s (by simp)
    rw [List.flatMap_cons, List.flatMap_cons]
    cases s with
    | lit c =>
      have := copy_no_lbrace (lbrace :: (a.Name ++ [rbrace, rbrace])) a.Value [c]
        (rest.flatMap (Seg.fill (fillWith σ))) (by simpa using hs.1)
      rw [← hpa] at this
      simp only [Seg.fill]
      rw [this, ih]
    | ph n d =>
      simp only [Seg.fill, fillWith]
      rw [find_append_single]
      cases hf : σ.find? (fun b => b.Name = n) with
      | some b =>
        have hb : braceFree b.Value := hσ b (List.mem_of_find?_eq_some hf)
        have := copy_no_lbrace (lbrace :: (a.Name ++ [rbrace, rbrace])) a.Value b.Value
          (rest.flatMap (Seg.fill (fillWith σ))) (fun c hc => (hb c hc).1)
        rw [← hpa] at this
        simp only
        rw [this, ih]
      | none =>
        simp only
        by_cases hna : a.Name = n
        · subst hna
          simp only [if_true]
          rw [ReplaceAllAux_placeholder_same, ih]
        · simp only [hna, if_false]
          rw [ReplaceAllAux_placeholder_other a.Name a.Value n _ ha hs.1 (fun e => hna e.symm), ih]

theorem foldl_ReplaceAll_fill (args σ : List Argument) (segs : List Seg)
    (hwf : ∀ s ∈ segs, s.WF) (hσ : ∀ b ∈ σ, braceFree b.Value)
    (hargs : ∀ b ∈ args, braceFree b.Name ∧ braceFree b.Value) :
    args.foldl (fun result arg => strings.ReplaceAll result (placeholder arg.Name) arg.Value)
        (segs.flatMap (Seg.fill (fillWith σ)))
      = segs.flatMap (Seg.fill (fillWith (σ ++ args))) := by
  induction args generalizing σ with
  | nil => simp
  | cons a rest ih =>
    simp only [List.foldl_cons]
    rw [ReplaceAll_fill_step σ a segs hwf hσ (hargs a (by simp)).1]
    rw [ih (σ ++ [a])]
    · simp
    · intro b hb
      rcases List.mem_append.1 hb with h | h
      · exact hσ b h
      · simp only [List.mem_singleton] at h
        exact h ▸ (hargs a (by simp)).2
    · exact fun b hb => hargs b (by simp [hb])

theorem fill_expandName_eq (segs : List Seg) :
    segs.flatMap (Seg.fill expandName) = segs.flatMap (Seg.fill (fillWith [])) := by
  rfl

/-- On a well-formed sequence of segments `BuildCommand` fills each placeholder with
the value of the first argument of its name. -/
theorem BuildCommand_render (segs : List Seg) (args : List Argument)
    (hwf : ∀ s ∈ segs, s.WF)
    (hargs : ∀ b ∈ args, braceFree b.Name ∧ braceFree b.Value) :
    BuildCommand (render segs) args = segs.flatMap (Seg.fill (fillWith args)) := by
  unfold BuildCommand ArgPattern.ReplaceAllString
  rw [ReplaceAllAux_render expandName segs hwf, fill_expandName_eq,
    foldl_ReplaceAll_fill args [] segs hwf (by simp) hargs]
  simp

/-- With a single argument the value may be any text. -/
theorem BuildCommand_render_single (segs : List Seg) (a : Argument)
    (hwf : ∀ s ∈ segs, s.WF) (ha : braceFree a.Name) :
    BuildCommand (render segs) [a] = segs.flatMap (Seg.fill (fillWith [a])) := by
  unfold BuildCommand ArgPattern.ReplaceAllString
  rw [ReplaceAllAux_render expandName segs hwf, fill_expandName_eq]
  simp only [List.foldl_cons, List.foldl_nil]
  rw [ReplaceAll_fill_step [] a segs hwf (by simp) ha]
  rfl

/-! ### Every template with brace-free outside text is a well-formed sequence -/

theorem exists_segs_of_outside_braceFree (T : Str) (h : braceFree (outsideText T)) :
    ∃ segs : List Seg, render segs = T ∧ ∀ s ∈ segs, s.WF := by
  generalize hlen : T.length = k
  induction k using Nat.strong_induction_on generalizing T with
  | _ k ih =>
    cases T with
    | nil => exact ⟨[], rfl, by simp⟩
    | cons c cs =>
      cases hm : matchAt (c :: cs) with
      | none =>
        have hout : outsideText (c :: cs) = c :: outsideText cs := by
          simp [outsideText, ArgPattern.ReplaceAllAux, hm]
        rw [hout] at h
        have hc := h c (by simp)
        obtain ⟨segs, hr, hwf⟩ := ih cs.length (by simp [← hlen]) cs
          (fun x hx => h x (by simp [hx])) rfl
        refine ⟨Seg.lit c :: segs, by simp [render_cons, Seg.render, hr], ?_⟩
        intro s hs
        rcases List.mem_cons.1 hs with h1 | h1
        · subst h1
          exact hc
        · exact hwf s h1
      | some g =>
        obtain ⟨hn, hd, rest, hrest⟩ := matchAt_sound hm
        have hout : outsideText (c :: cs) = outsideText rest := by
          unfold outsideText
          rw [hrest, ReplaceAllAux_match _ g.1 g.2 rest hn hd]
          simp
        rw [hout] at h
        have hl : rest.length < k := by
          rw [← hlen, hrest]
          obtain ⟨tl, htl, -⟩ := phText_eq_cons g.1 g.2
          simp only [htl, List.cons_append, List.length_cons, List.length_append]
          omega
        obtain ⟨segs, hr, hwf⟩ := ih rest.length hl rest h rfl
        refine ⟨Seg.ph g.1 g.2 :: segs, by simp [render_cons, Seg.render, hr, hrest], ?_⟩
        intro s hs
        rcases List.mem_cons.1 hs with h1 | h1
        · subst h1
          exact ⟨hn, hd⟩
        · exact hwf s h1

/-! ### The matches of a template -/

theorem FindAllAux_start_ge (T : Str) (pos k : Nat) :
    ∀ m ∈ FindAllAux pos k T, pos ≤ m.start := by
  induction T generalizing pos k with
  | nil => simp [FindAllAux]
  | cons c cs ih =>
    intro m hm
    cases k with
    | succ k =>
      simp only [FindAllAux] at hm
      have := ih _ _ m hm
      omega
    | zero =>
      simp only [FindAllAux] at hm
      split at hm
      · rcases List.mem_cons.1 hm with h | h
        · subst h
          exact Nat.le_refl _
        · have := ih _ _ m h
          omega
      · have := ih _ _ m hm
        omega

theorem FindAllAux_sorted (T : Str) (pos k : Nat) :
    (FindAllAux pos k T).Pairwise (fun a b => a.start < b.start) := by
  induction T generalizing pos k with
  | nil => simp [FindAllAux]
  | cons c cs ih =>
    cases k with
    | succ k =>
      simp only [FindAllAux]
      exact ih _ _
    | zero =>
      simp only [FindAllAux]
      split
      · refine List.Pairwise.cons ?_ (ih _ _)
        intro m hm
        have := FindAllAux_start_ge cs _ _ m hm
        have hpos : 0 < c.utf8Size := Char.utf8Size_pos c
        show pos < m.start
        omega
      · exact ih _ _

theorem FindAllAux_occurrence (T : Str) (pos k : Nat) :
    ∀ m ∈ FindAllAux pos k T, validName m.name ∧ (∀ x, m.dflt = some x → validDefault x) ∧
      ∃ pre post, T = pre ++ phText m.name m.dflt ++ post ∧ pos + byteLen pre = m.start := by
  induction T generalizing pos k with
  | nil => simp [FindAllAux]
  | cons c cs ih =>
    intro m hm
    have hrec : ∀ p2 k2, m ∈ FindAllAux (pos + c.utf8Size) k2 cs → p2 = pos →
        validName m.name ∧ (∀ x, m.dflt = some x → validDefault x) ∧
        ∃ pre post, c :: cs = pre ++ phText m.name m.dflt ++ post ∧
          pos + byteLen pre = m.start := by
      intro p2 k2 h _
      obtain ⟨h1, h2, pre, post, h3, h4⟩ := ih _ _ m h
      refine ⟨h1, h2, c :: pre, post, by simp [h3], ?_⟩
      simp only [byteLen]
      omega
    cases k with
    | succ k =>
      simp only [FindAllAux] at hm
      exact hrec pos _ hm rfl
    | zero =>
      simp only [FindAllAux] at hm
      split at hm
      · rename_i g hg
        rcases List.mem_cons.1 hm with h | h
        · subst h
          obtain ⟨hn, hd, rest, hrest⟩ := matchAt_sound hg
          exact ⟨hn, hd, [], rest, by simpa using hrest, by simp [byteLen]⟩
        · exact hrec pos _ h rfl
      · exact hrec pos _ hm rfl

theorem find_first_of_sorted (ms : List Submatch) (p : Submatch → Bool) (m : Submatch)
    (hs : ms.Pairwise (fun a b => a.start < b.start)) (hf : ms.find? p = some m) :
    ∀ x ∈ ms, p x = true → m.start ≤ x.start := by
  induction ms with
  | nil => simp at hf
  | cons y rest ih =>
    intro x hx hpx
    rw [List.pairwise_cons] at hs
    by_cases hy : p y = true
    · simp only [List.find?, hy, Option.some.injEq] at hf
      subst hf
      rcases List.mem_cons.1 hx with h | h
      · subst h
        exact Nat.le_refl _
      · exact Nat.le_of_lt (hs.1 x h)
    · have hy2 : p y = false := by simpa using hy
      simp only [List.find?, hy2] at hf
      rcases List.mem_cons.1 hx with h | h
      · subst h
        exact absurd hpx hy
      · exact ih hs.2 hf x h hpx

/-! ### The loop of `ParseArguments` -/

theorem ParseArgumentsLoop_seen (seen : List Str) (m : Submatch) (ms : List Submatch)
    (h : m.name ∈ seen) :
    ParseArgumentsLoop seen (m :: ms) = ParseArgumentsLoop seen ms := by
  simp [ParseArgumentsLoop, h]

theorem ParseArgumentsLoop_new (seen : List Str) (m : Submatch) (ms : List Submatch)
    (h : m.name ∉ seen) :
    ParseArgumentsLoop seen (m :: ms) = argOf m :: ParseArgumentsLoop (m.name :: seen) ms := by
  cases hd : m.dflt <;> simp [ParseArgumentsLoop, h, argOf, hd]

theorem ParseArgumentsLoop_mem (ms : List Submatch) (seen : List Str) :
    ∀ a ∈ ParseArgumentsLoop seen ms, a.Name ∉ seen ∧
      ∃ m, ms.find? (fun m => m.name = a.Name) = some m ∧ a = argOf m := by
  induction ms generalizing seen with
  | nil => simp [ParseArgumentsLoop]
  | cons m rest ih =>
    intro a ha
    by_cases hm : m.name ∈ seen
    · rw [ParseArgumentsLoop_seen seen m rest hm] at ha
      obtain ⟨h1, m2, h2, h3⟩ := ih seen a ha
      refine ⟨h1, m2, ?_, h3⟩
      have hne : ¬ m.name = a.Name := fun e => h1 (e ▸ hm)
      simp [List.find?, hne, h2]
    · rw [ParseArgumentsLoop_new seen m rest hm] at ha
      rcases List.mem_cons.1 ha with h | h
      · subst h
        exact ⟨hm, m, by simp [List.find?, argOf], rfl⟩
      · obtain ⟨h1, m2, h2, h3⟩ := ih (m.name :: seen) a h
        have hne : ¬ m.name = a.Name := fun e => h1 (by simp [e])
        exact ⟨fun hs => h1 (by simp [hs]), m2, by simp [List.find?, hne, h2], h3⟩

theorem ParseArgumentsLoop_nodup (ms : List Submatch) (seen : List Str) :
    ((ParseArgumentsLoop seen ms).map (fun a => a.Name)).Nodup := by
  induction ms generalizing seen with
  | nil => simp [ParseArgumentsLoop]
  | cons m rest ih =>
    by_cases hm : m.name ∈ seen
    · rw [ParseArgumentsLoop_seen seen m rest hm]
      exact ih seen
    · rw [ParseArgumentsLoop_new seen m rest hm, List.map_cons, List.nodup_cons]
      refine ⟨?_, ih _⟩
      intro hmem
      obtain ⟨a, ha, hname⟩ := List.mem_map.1 hmem
      have := (ParseArgumentsLoop_mem rest (m.name :: seen) a ha).1
      apply this
      simp only [argOf] at hname
      simp [hname]

theorem ParseArgumentsLoop_names (ms : List Submatch) (seen : List Str) (n : Str) :
    n ∈ (ParseArgumentsLoop seen ms).map (fun a => a.Name)
      ↔ n ∈ ms.map (fun m => m.name) ∧ n ∉ seen := by
  induction ms generalizing seen with
  | nil => simp [ParseArgumentsLoop]
  | cons m rest ih =>
    by_cases hm : m.name ∈ seen
    · rw [ParseArgumentsLoop_seen seen m rest hm, ih seen]
      simp only [List.map_cons, List.mem_cons]
      constructor
      · rintro ⟨h1, h2⟩
        exact ⟨Or.inr h1, h2⟩
      · rintro ⟨h1 | h1, h2⟩
        · exact absurd (h1 ▸ hm) h2
        · exact ⟨h1, h2⟩
    · rw [ParseArgumentsLoop_new seen m rest hm]
      simp only [List.map_cons, List.mem_cons, ih (m.name :: seen), argOf, not_or]
      constructor
      · rintro (h | ⟨h1, h2, h3⟩)
        · exact ⟨Or.inl h, h ▸ hm⟩
        · exact ⟨Or.inr h1, h3⟩
      · rintro ⟨h1 | h1, h2⟩
        · exact Or.inl h1
        · by_cases hn : n = m.name
          · exact Or.inl hn
          · exact Or.inr ⟨h1, hn, h2⟩

theorem ParseArgumentsLoop_sorted (ms : List Submatch) (seen : List Str)
    (hs : ms.Pairwise (fun a b => a.start < b.start)) :
    (ParseArgumentsLoop seen ms).Pairwise (fun a b => a.Position < b.Position) := by
  induction ms generalizing seen with
  | nil => simp [ParseArgumentsLoop]
  | cons m rest ih =>
    rw [List.pairwise_cons] at hs
    by_cases hm : m.name ∈ seen
    · rw [ParseArgumentsLoop_seen seen m rest hm]
      exact ih seen hs.2
    · rw [ParseArgumentsLoop_new seen m rest hm]
      refine List.Pairwise.cons ?_ (ih _ hs.2)
      intro a ha
      obtain ⟨-, m2, h2, h3⟩ := ParseArgumentsLoop_mem rest _ a ha
      have hmem : m2 ∈ rest := List.mem_of_find?_eq_some h2
      have := hs.1 m2 hmem
      simpa [h3, argOf] using this

theorem ParseArgumentsLoop_find (ms : List Submatch) (seen : List Str) (n : Str)
    (hn : n ∉ seen) :
    (ParseArgumentsLoop seen ms).find? (fun a => a.Name = n)
      = (ms.find? (fun m => m.name = n)).map argOf := by
  induction ms generalizing seen with
  | nil => simp [ParseArgumentsLoop]
  | cons m rest ih =>
    by_cases hm : m.name ∈ seen
    · rw [ParseArgumentsLoop_seen seen m rest hm, ih seen hn]
      have hne : ¬ m.name = n := fun e => hn (e ▸ hm)
      simp [List.find?, hne]
    · rw [ParseArgumentsLoop_new seen m rest hm]
      by_cases hmn : m.name = n
      · simp [List.find?, hmn, argOf]
      · have hn2 : n ∉ m.name :: seen := by
          simp only [List.mem_cons, not_or]
          exact ⟨fun e => hmn e.symm, hn⟩
        simp [List.find?, hmn, argOf, ih (m.name :: seen) hn2]

/-! ### Templates without a placeholder -/

theorem FindAllAux_eq_nil (T : Str) (pos : Nat)
    (h : ∀ pre post, T = pre ++ post → matchAt post = none) :
    FindAllAux pos 0 T = [] := by
  induction T generalizing pos with
  | nil => simp [FindAllAux]
  | cons c cs ih =>
    have h0 := h [] (c :: cs) rfl
    simp only [FindAllAux, h0]
    exact ih _ (fun pre post hp => h (c :: pre) post (by simp [hp]))

theorem ReplaceAllAux_eq_self (e : Str → Option Str → Str) (T : Str)
    (h : ∀ pre post, T = pre ++ post → matchAt post = none) :
    ArgPattern.ReplaceAllAux e 0 T = T := by
  induction T with
  | nil => simp [ArgPattern.ReplaceAllAux]
  | cons c cs ih =>
    have h0 := h [] (c :: cs) rfl
    simp only [ArgPattern.ReplaceAllAux, h0]
    rw [ih (fun pre post hp => h (c :: pre) post (by simp [hp]))]

theorem hasPlaceholder_eq_false_iff (s : Str) :
    hasPlaceholder s = false ↔ ∀ pre post, s = pre ++ post → matchAt post = none := by
  unfold hasPlaceholder
  rw [List.any_eq_false]
  constructor
  · intro h pre post hs
    have hmem : post ∈ s.tails := by
      rw [List.mem_tails]
      exact ⟨pre, hs.symm⟩
    have := h post hmem
    cases hm : matchAt post with
    | none => rfl
    | some g => simp [hm] at this
  · intro h t ht
    rw [List.mem_tails] at ht
    obtain ⟨pre, hpre⟩ := ht
    simp [h pre t hpre.symm]

theorem hasPlaceholder_of_no_lbrace (s : Str) (h : ∀ c ∈ s, c ≠ lbrace) :
    hasPlaceholder s = false := by
  rw [hasPlaceholder_eq_false_iff]
  intro pre post hs
  cases post with
  | nil => simp [matchAt]
  | cons c cs => exact matchAt_of_ne_lbrace c cs (h c (by simp [hs]))

theorem matchAt_head {post : Str} {g : Str × Option Str} (h : matchAt post = some g) :
    ∃ n0 rest, post = lbrace :: lbrace :: n0 :: rest ∧ n0 ≠ lbrace ∧ n0 ≠ rbrace := by
  obtain ⟨hn, -, rest, hrest⟩ := matchAt_sound h
  obtain ⟨n0, n1, hn01⟩ : ∃ n0 n1, g.1 = n0 :: n1 := by
    cases hg : g.1 with
    | nil => exact absurd hg hn.1
    | cons x y => exact ⟨x, y, rfl⟩
  have hn0 := (isNameRune_iff n0).1 (hn.2 n0 (by simp [hn01]))
  cases hd : g.2 with
  | none =>
    exact ⟨n0, n1 ++ [rbrace, rbrace] ++ rest, by simp [hrest, hd, phText, hn01], hn0.1, hn0.2.1⟩
  | some x =>
    exact ⟨n0, n1 ++ bar :: x ++ [rbrace, rbrace] ++ rest,
      by simp [hrest, hd, phText, hn01], hn0.1, hn0.2.1⟩

/-! ### Arguments of a template and its first defaults -/

theorem ParseArguments_braceFree (T : Str) :
    ∀ b ∈ ParseArguments T, braceFree b.Name ∧ braceFree b.Value := by
  intro b hb
  obtain ⟨-, m, hf, hbm⟩ := ParseArgumentsLoop_mem _ [] b hb
  have hmem : m ∈ FindAllAux 0 0 T := List.mem_of_find?_eq_some hf
  obtain ⟨hn, hd, -⟩ := FindAllAux_occurrence T 0 0 m hmem
  subst hbm
  constructor
  · intro c hc
    have := (isNameRune_iff c).1 (hn.2 c hc)
    exact ⟨this.1, this.2.1⟩
  · intro c hc
    cases hdf : m.dflt with
    | none => simp [argOf, hdf] at hc
    | some x =>
      have hcx : c ∈ x := by simpa [argOf, hdf] using hc
      exact (isDefaultRune_iff c).1 ((hd x hdf).2 c hcx)

theorem fillWith_ParseArguments (T : Str) (n : Str)
    (hn : n ∈ (FindAllStringSubmatchIndex T).map (fun m => m.name)) (d : Option Str) :
    fillWith (ParseArguments T) n d = firstDefault T n := by
  unfold fillWith firstDefault ParseArguments
  rw [ParseArgumentsLoop_find _ [] n (by simp)]
  cases hf : (FindAllStringSubmatchIndex T).find? (fun m => m.name = n) with
  | none =>
    exfalso
    obtain ⟨m, hm, hmn⟩ := List.mem_map.1 hn
    have := List.find?_eq_none.1 hf m hm
    simp [hmn] at this
  | some m => simp [argOf]

theorem firstDefault_braceFree (T : Str) (n : Str) : braceFree (firstDefault T n) := by
  unfold firstDefault
  cases hf : (FindAllStringSubmatchIndex T).find? (fun m => m.name = n) with
  | none => simp [braceFree]
  | some m =>
    have hmem : m ∈ FindAllAux 0 0 T := List.mem_of_find?_eq_some hf
    obtain ⟨-, hd, -⟩ := FindAllAux_occurrence T 0 0 m hmem
    cases hdf : m.dflt with
    | none => simp [braceFree, hdf]
    | some x =>
      intro c hc
      have hcx : c ∈ x := by simpa [hdf] using hc
      exact (isDefaultRune_iff c).1 ((hd x hdf).2 c hcx)

theorem BuildCommand_eq_fill_firstDefault (segs : List Seg) (hwf : ∀ s ∈ segs, s.WF) :
    BuildCommand (render segs) (ParseArguments (render segs))
      = segs.flatMap (Seg.fill (fun n _ => firstDefault (render segs) n)) := by
  rw [BuildCommand_render segs _ hwf (ParseArguments_braceFree _)]
  apply List.flatMap_congr
  intro s hs
  cases s with
  | lit c => rfl
  | ph n d =>
    simp only [Seg.fill]
    obtain ⟨m, hm, hmn⟩ := mem_FindAllAux_render segs hwf 0 n d hs
    exact fillWith_ParseArguments _ n (List.mem_map.2 ⟨m, hm, hmn⟩) d

/-! ### Rendering text segments -/

theorem render_nil : render [] = [] := rfl

theorem render_append (a b : List Seg) : render (a ++ b) = render a ++ render b := by
  simp [render]

theorem render_lits (p : Str) : render (p.map Seg.lit) = p := by
  induction p with
  | nil => rfl
  | cons c cs ih => simp [render_cons, Seg.render, ih]

theorem fill_lits (f : Str → Option Str → Str) (p : Str) :
    (p.map Seg.lit).flatMap (Seg.fill f) = p := by
  induction p with
  | nil => rfl
  | cons c cs ih => simp [Seg.fill, ih]

theorem WF_lits (p : Str) (hp : braceFree p) : ∀ s ∈ p.map Seg.lit, s.WF := by
  intro s hs
  obtain ⟨c, hc, rfl⟩ := List.mem_map.1 hs
  exact hp c hc

theorem braceFree_of_validName {x : Str} (hx : validName x) : braceFree x := by
  intro c hc
  have := (isNameRune_iff c).1 (hx.2 c hc)
  exact ⟨this.1, this.2.1⟩

theorem hasPlaceholder_empty_name (p q : Str) (hp : braceFree p) (hq : braceFree q) :
    hasPlaceholder (p ++ [lbrace, lbrace, rbrace, rbrace] ++ q) = false := by
  rw [hasPlaceholder_eq_false_iff]
  intro pre post hs
  cases hm : matchAt post with
  | none => rfl
  | some g =>
    exfalso
    obtain ⟨n0, rest, hpost, hn1, hn2⟩ := matchAt_head hm
    have hlr : lbrace ≠ rbrace := lbrace_ne_rbrace
    subst hpost
    simp only [List.append_assoc, List.cons_append, List.nil_append] at hs
    rcases List.append_eq_append_iff.1 hs with ⟨a, -, ha⟩ | ⟨c, hc, hc2⟩
    · cases a with
      | nil =>
        simp only [List.nil_append, List.cons.injEq, true_and] at ha
        exact hn2 ha.1.symm
      | cons y1 a2 =>
        cases a2 with
        | nil =>
          simp only [List.cons_append, List.nil_append, List.cons.injEq] at ha
          exact hlr ha.2.2.1.symm
        | cons y2 a3 =>
          simp only [List.cons_append, List.cons.injEq] at ha
          have hmem : lbrace ∈ rbrace :: rbrace :: q := by
            rw [ha.2.2]
            simp
          simp only [List.mem_cons] at hmem
          rcases hmem with h | h | h
          · exact hlr h
          · exact hlr h
          · exact (hq lbrace h).1 rfl
    · cases c with
      | nil =>
        simp only [List.nil_append, List.cons.injEq, true_and] at hc2
        exact hn2 hc2.1
      | cons y c2 =>
        simp only [List.cons_append, List.cons.injEq] at hc2
        have : y ∈ p := by simp [hc]
        exact (hp y this).1 hc2.1.symm

theorem hasPlaceholder_unterminated (T : Str)
    (h : ∀ a b c, T ≠ a ++ [lbrace, lbrace] ++ b ++ [rbrace, rbrace] ++ c) :
    hasPlaceholder T = false := by
  rw [hasPlaceholder_eq_false_iff]
  intro pre post hs
  cases hm : matchAt post with
  | none => rfl
  | some g =>
    exfalso
    obtain ⟨-, -, rest, hrest⟩ := matchAt_sound hm
    cases hd : g.2 with
    | none =>
      exact h pre g.1 rest (by simp [hs, hrest, hd, phText])
    | some x =>
      exact h pre (g.1 ++ bar :: x) rest (by simp [hs, hrest, hd, phText])

/-! ### The scan finds every occurrence -/

theorem phText_tail_no_lbrace (n : Str) (d : Option Str) (hn : validName n)
    (hd : ∀ x, d = some x → validDefault x) :
    ∃ tl, phText n d = lbrace :: lbrace :: tl ∧ (∀ c ∈ tl, c ≠ lbrace) ∧ tl ≠ [] := by
  have hnl : ∀ c ∈ n, c ≠ lbrace := fun c hc => ((isNameRune_iff c).1 (hn.2 c hc)).1
  have hrl : rbrace ≠ lbrace := fun e => lbrace_ne_rbrace e.symm
  cases d with
  | none =>
    refine ⟨n ++ [rbrace, rbrace], by simp [phText], ?_, by simp⟩
    intro c hc
    simp only [List.mem_append, List.mem_cons, List.mem_singleton, List.not_mem_nil,
      or_false] at hc
    rcases hc with h | h | h
    · exact hnl c h
    · exact h ▸ hrl
    · exact h ▸ hrl
  | some x =>
    have hxl : ∀ c ∈ x, c ≠ lbrace :=
      fun c hc => ((isDefaultRune_iff c).1 ((hd x rfl).2 c hc)).1
    refine ⟨n ++ bar :: x ++ [rbrace, rbrace], by simp [phText], ?_, by simp⟩
    intro c hc
    simp only [List.mem_append, List.mem_cons, List.mem_singleton, List.not_mem_nil,
      or_false] at hc
    rcases hc with (h | h | h) | h | h
    · exact hnl c h
    · rw [h]
      decide
    · exact hxl c h
    · exact h ▸ hrl
    · exact h ▸ hrl

theorem matchAt_inside (n : Str) (d : Option Str) (hn : validName n)
    (hd : ∀ x, d = some x → validDefault x) (a b rest : Str)
    (hab : phText n d = a ++ b) (ha : a ≠ []) (hb : b ≠ []) :
    matchAt (b ++ rest) = none := by
  obtain ⟨tl, htl, hno, hne⟩ := phText_tail_no_lbrace n d hn hd
  rw [htl] at hab
  cases a with
  | nil => exact absurd rfl ha
  | cons a0 a1 =>
    simp only [List.cons_append, List.cons.injEq] at hab
    obtain ⟨-, hab⟩ := hab
    cases a1 with
    | nil =>
      simp only [List.nil_append] at hab
      subst hab
      cases tl with
      | nil => exact absurd rfl hne
      | cons t0 t1 =>
        have : t0 ≠ lbrace := hno t0 (by simp)
        simp [matchAt, this]
    | cons a2 a3 =>
      simp only [List.cons_append, List.cons.injEq] at hab
      obtain ⟨-, hab⟩ := hab
      cases b with
      | nil => exact absurd rfl hb
      | cons b0 b1 =>
        have : b0 ≠ lbrace := hno b0 (by rw [hab]; simp)
        exact matchAt_of_ne_lbrace b0 _ this

theorem FindAllAux_complete (T : Str) (pos : Nat) (pre post : Str) (g : Str × Option Str)
    (hT : T = pre ++ post) (hm : matchAt post = some g) :
    ∃ m ∈ FindAllAux pos 0 T, m.start = pos + byteLen pre ∧ m.name = g.1 ∧ m.dflt = g.2 := by
  generalize hlen : T.length = k
  induction k using Nat.strong_induction_on generalizing T pos pre with
  | _ k ih =>
    cases T with
    | nil =>
      have : post = [] := by
        have := congrArg List.length hT
        simp at this
        exact List.length_eq_zero.1 (by omega)
      simp [this, matchAt] at hm
    | cons c cs =>
      cases pre with
      | nil =>
        simp only [List.nil_append] at hT
        subst hT
        refine ⟨⟨pos, g.1, g.2⟩, ?_, by simp [byteLen], rfl, rfl⟩
        simp [FindAllAux, hm]
      | cons p0 p1 =>
        simp only [List.cons_append, List.cons.injEq] at hT
        obtain ⟨hc, hcs⟩ := hT
        subst hc
        cases hm0 : matchAt (c :: cs) with
        | none =>
          obtain ⟨m, hmem, h1, h2, h3⟩ := ih cs.length (by simp [← hlen]) cs
            (pos + c.utf8Size) p1 hcs rfl
          refine ⟨m, ?_, ?_, h2, h3⟩
          · simpa [FindAllAux, hm0] using hmem
          · simp only [byteLen]
            omega
        | some g0 =>
          obtain ⟨hn0, hd0, rest0, hrest0⟩ := matchAt_sound hm0
          have hstep := FindAllAux_match pos g0.1 g0.2 rest0 hn0 hd0
          rw [← hrest0] at hstep
          have hsplit : phText g0.1 g0.2 ++ rest0 = (c :: p1) ++ post := by
            rw [← hrest0, hcs]
            rfl
          rcases List.append_eq_append_iff.1 hsplit with ⟨a, ha1, ha2⟩ | ⟨b, hb1, hb2⟩
          · -- the occurrence lies behind the first match
            have hl : rest0.length < k := by
              rw [← hlen, hrest0]
              obtain ⟨tl, htl, -⟩ := phText_eq_cons g0.1 g0.2
              simp only [htl, List.cons_append, List.length_cons, List.length_append]
              omega
            obtain ⟨m, hmem, h1, h2, h3⟩ := ih rest0.length hl rest0
              (pos + byteLen (phText g0.1 g0.2)) a ha2 rfl
            refine ⟨m, ?_, ?_, h2, h3⟩
            · rw [hstep]
              exact List.mem_cons_of_mem _ hmem
            · rw [h1, ha1, byteLen_append]
              omega
          · -- the occurrence would start inside the first match
            cases b with
            | nil =>
              simp only [List.append_nil, List.nil_append] at hb1 hb2
              obtain ⟨m, hmem, h1, h2, h3⟩ := ih rest0.length (by
                  rw [← hlen, hrest0]
                  obtain ⟨tl, htl, -⟩ := phText_eq_cons g0.1 g0.2
                  simp only [htl, List.cons_append, List.length_cons, List.length_append]
                  omega) rest0
                (pos + byteLen (phText g0.1 g0.2)) [] (by simpa using hb2.symm) rfl
              refine ⟨m, ?_, ?_, h2, h3⟩
              · rw [hstep]
                exact List.mem_cons_of_mem _ hmem
              · rw [h1, ← hb1]
                simp [byteLen]
            | cons b0 b1 =>
              exfalso
              have := matchAt_inside g0.1 g0.2 hn0 hd0 (c :: p1) (b0 :: b1) rest0 hb1
                (by simp) (by simp)
              rw [← hb2, hm] at this
              simp at this

theorem mem_FindAll_iff (T : Str) (m : Submatch) :
    m ∈ FindAllStringSubmatchIndex T ↔ OccursAt T m.name m.dflt m.start := by
  constructor
  · intro hm
    obtain ⟨h1, h2, pre, post, h3, h4⟩ := FindAllAux_occurrence T 0 0 m hm
    exact ⟨h1, h2, pre, post, h3, by simpa using h4⟩
  · rintro ⟨h1, h2, pre, post, h3, h4⟩
    have hmatch := matchAt_phText m.name m.dflt post h1 h2
    obtain ⟨m2, hmem, e1, e2, e3⟩ := FindAllAux_complete T 0 pre (phText m.name m.dflt ++ post)
      (m.name, m.dflt) (by simpa using h3) hmatch
    have : m2 = m := by
      cases m2
      cases m
      simp only [Submatch.mk.injEq]
      simp only at e1 e2 e3 h4
      exact ⟨by omega, e2, e3⟩
    exact this ▸ hmem

/-! ### Placeholders of a template with a single placeholder -/

theorem FindAllAux_braceFree (p : Str) (pos : Nat) (rest : Str) (hp : braceFree p) :
    FindAllAux pos 0 (p ++ rest) = FindAllAux (pos + byteLen p) 0 rest := by
  induction p generalizing pos with
  | nil => simp [byteLen]
  | cons c cs ih =>
    have hc := (hp c (by simp)).1
    simp only [List.cons_append, FindAllAux, matchAt_of_ne_lbrace c _ hc, byteLen,
      List.append_eq]
    rw [ih _ (fun y hy => hp y (by simp [hy])), Nat.add_assoc]

theorem FindAllAux_braceFree_nil (s : Str) (pos : Nat) (hs : braceFree s) :
    FindAllAux pos 0 s = [] :=
  FindAllAux_eq_nil s pos
    ((hasPlaceholder_eq_false_iff s).1 (hasPlaceholder_of_no_lbrace s (fun c hc => (hs c hc).1)))

theorem ParseArguments_single (p x s : Str) (hp : braceFree p) (hs : braceFree s)
    (hx : validName x) :
    ParseArguments (p ++ [lbrace, lbrace] ++ x ++ [rbrace, rbrace] ++ s)
      = [{ Name := x, DefaultValue := [], Value := [], Position := byteLen p }] := by
  have hT : p ++ [lbrace, lbrace] ++ x ++ [rbrace, rbrace] ++ s = p ++ (phText x none ++ s) := by
    simp [phText]
  unfold ParseArguments FindAllStringSubmatchIndex
  rw [hT, FindAllAux_braceFree p 0 _ hp, FindAllAux_match _ x none s hx (by simp),
    FindAllAux_braceFree_nil s _ hs]
  simp [ParseArgumentsLoop]

theorem BuildCommand_single (p x s v dv : Str) (pos : Nat) (hp : braceFree p)
    (hs : braceFree s) (hx : validName x) :
    BuildCommand (p ++ [lbrace, lbrace] ++ x ++ [rbrace, rbrace] ++ s)
        [{ Name := x, DefaultValue := dv, Value := v, Position := pos }]
      = p ++ v ++ s := by
  have key : BuildCommand (render (p.map Seg.lit ++ [Seg.ph x none] ++ s.map Seg.lit))
        [{ Name := x, DefaultValue := dv, Value := v, Position := pos }]
      = p ++ v ++ s := by
    rw [BuildCommand_render_single _ _ _ (braceFree_of_validName hx)]
    · simp [List.flatMap_append, fill_lits, Seg.fill, fillWith]
    · intro sg hsg
      simp only [List.mem_append, List.mem_singleton] at hsg
      rcases hsg with (h | h) | h
      · exact WF_lits p hp sg h
      · subst h
        exact ⟨hx, by simp⟩
      · exact WF_lits s hs sg h
  simpa [render_append, render_lits, render_cons, render_nil, Seg.render, phText] using key

theorem ParseArguments_value_eq_default (T : Str) :
    ∀ a ∈ ParseArguments T, a.Value = a.DefaultValue := by
  intro a ha
  obtain ⟨-, m, -, hbm⟩ := ParseArgumentsLoop_mem _ [] a ha
  subst hbm
  rfl

/-! ## The claims on the template engine -/

/-- C2: `ParseArguments T` has exactly one argument per distinct placeholder name
occurring in `T` (no name twice, and a name is listed exactly when a placeholder
of that name occurs in `T`), in order of first occurrence (`Position` strictly
increasing); each argument carries the data of the first occurrence of its name:
`Position` is the byte offset of an occurrence and no occurrence of the name has
a smaller offset, `DefaultValue` is the default of that occurrence (empty when it
has none, whatever later occurrences say) and `Value` equals `DefaultValue`. -/
theorem ParseArguments_first_occurrence (T : Str) :
    ((ParseArguments T).map (fun a => a.Name)).Nodup ∧
    (∀ n, n ∈ (ParseArguments T).map (fun a => a.Name) ↔ ∃ d off, OccursAt T n d off) ∧
    (ParseArguments T).Pairwise (fun a b => a.Position < b.Position) ∧
    ∀ a ∈ ParseArguments T, ∃ d, OccursAt T a.Name d a.Position ∧
      a.DefaultValue = d.getD [] ∧ a.Value = a.DefaultValue ∧
      ∀ d2 off2, OccursAt T a.Name d2 off2 → a.Position ≤ off2 := by
  refine ⟨ParseArgumentsLoop_nodup _ [], ?_, ?_, ?_⟩
  · intro n
    unfold ParseArguments
    rw [ParseArgumentsLoop_names]
    simp only [List.mem_map, List.not_mem_nil, not_false_eq_true, and_true]
    constructor
    · rintro ⟨m, hm, rfl⟩
      exact ⟨m.dflt, m.start, (mem_FindAll_iff T m).1 hm⟩
    · rintro ⟨d, off, hocc⟩
      exact ⟨⟨off, n, d⟩, (mem_FindAll_iff T ⟨off, n, d⟩).2 hocc, rfl⟩
  · exact ParseArgumentsLoop_sorted _ [] (FindAllAux_sorted T 0 0)
  · intro a ha
    obtain ⟨-, m, hf, hbm⟩ := ParseArgumentsLoop_mem _ [] a ha
    have hmem : m ∈ FindAllStringSubmatchIndex T := List.mem_of_find?_eq_some hf
    subst hbm
    refine ⟨m.dflt, (mem_FindAll_iff T m).1 hmem, rfl, rfl, ?_⟩
    intro d2 off2 hocc
    have hmem2 := (mem_FindAll_iff T ⟨off2, m.name, d2⟩).2 hocc
    exact find_first_of_sorted _ _ m (FindAllAux_sorted T 0 0) hf _ hmem2 (by simp [argOf])

/-- C3, as stated, fails: for the template `{{{{a}}x}}` the command built from the
defaults is `{{x}}`, which the pattern matches. -/
theorem BuildCommand_leaves_placeholder :
    BuildCommand sampleNested (ParseArguments sampleNested)
        = [lbrace, lbrace, 'x', rbrace, rbrace] ∧
      hasPlaceholder (BuildCommand sampleNested (ParseArguments sampleNested)) = true := by
  decide

/-- C3, amended: for every template whose text outside the placeholder occurrences
contains no brace, the command built from the defaults contains no substring
that the placeholder pattern matches. -/
theorem BuildCommand_no_placeholder_left (T : Str) (h : braceFree (outsideText T)) :
    hasPlaceholder (BuildCommand T (ParseArguments T)) = false := by
  obtain ⟨segs, hr, hwf⟩ := exists_segs_of_outside_braceFree T h
  subst hr
  rw [BuildCommand_eq_fill_firstDefault segs hwf]
  apply hasPlaceholder_of_no_lbrace
  intro c hc
  obtain ⟨s, hs, hcs⟩ := List.mem_flatMap.1 hc
  cases s with
  | lit x =>
    simp only [Seg.fill, List.mem_singleton] at hcs
    exact hcs ▸ (hwf _ hs).1
  | ph n d =>
    exact (firstDefault_braceFree _ n c hcs).1

/-- C3, amended, on the template `nmap -p {{port|80}} {{ip}} {{port|443}}`. -/
theorem BuildCommand_no_placeholder_left_witness :
    braceFree (outsideText sampleScan) ∧
      hasPlaceholder (BuildCommand sampleScan (ParseArguments sampleScan)) = false :=
  ⟨by decide, BuildCommand_no_placeholder_left sampleScan (by decide)⟩

/-- C4, as stated, fails: for the template `{{{{a}}x}} {{x|v}}` the sequential
replacement yields `v v`, the single-pass substitution `{{x}} v`. -/
theorem BuildCommand_ne_singlePass :
    BuildCommand sampleNestedTwice (ParseArguments sampleNestedTwice) = ['v', ' ', 'v'] ∧
      singlePassDefaults sampleNestedTwice = [lbrace, lbrace, 'x', rbrace, rbrace, ' ', 'v'] ∧
      BuildCommand sampleNestedTwice (ParseArguments sampleNestedTwice)
        ≠ singlePassDefaults sampleNestedTwice := by
  decide

/-- C4, amended: for every template whose text outside the placeholder occurrences
contains no brace, the command built from the defaults equals the single-pass
substitution in which each placeholder occurrence is replaced by the default of
the first occurrence of its name and all other text is copied. -/
theorem BuildCommand_eq_singlePassDefaults (T : Str) (h : braceFree (outsideText T)) :
    BuildCommand T (ParseArguments T) = singlePassDefaults T := by
  obtain ⟨segs, hr, hwf⟩ := exists_segs_of_outside_braceFree T h
  subst hr
  rw [BuildCommand_eq_fill_firstDefault segs hwf]
  unfold singlePassDefaults
  rw [ReplaceAllAux_render _ segs hwf]

/-- C4, amended, on the template `nmap -p {{port|80}} {{ip}} {{port|443}}`. -/
theorem BuildCommand_eq_singlePassDefaults_witness :
    braceFree (outsideText sampleScan) ∧
      BuildCommand sampleScan (ParseArguments sampleScan) = singlePassDefaults sampleScan :=
  ⟨by decide, BuildCommand_eq_singlePassDefaults sampleScan (by decide)⟩

/-- C5: for a valid name `x`, a valid default `d`, any value `v` and brace-free texts
`p`, `q`, `r`, `BuildCommand` applied to `p{{x}}q{{x|d}}r`, or to `p{{x}}q{{x}}r`,
and the argument list `[x with Value v]` returns `p ++ v ++ q ++ v ++ r`: both
occurrences of the duplicated name are replaced by the single value. -/
theorem BuildCommand_duplicate_name (x d v p q r dv : Str) (pos : Nat)
    (hx : validName x) (hd : validDefault d)
    (hp : braceFree p) (hq : braceFree q) (hr : braceFree r) :
    BuildCommand
        (p ++ [lbrace, lbrace] ++ x ++ [rbrace, rbrace] ++ q
          ++ [lbrace, lbrace] ++ x ++ [bar] ++ d ++ [rbrace, rbrace] ++ r)
        [{ Name := x, DefaultValue := dv, Value := v, Position := pos }]
      = p ++ v ++ q ++ v ++ r ∧
    BuildCommand
        (p ++ [lbrace, lbrace] ++ x ++ [rbrace, rbrace] ++ q
          ++ [lbrace, lbrace] ++ x ++ [rbrace, rbrace] ++ r)
        [{ Name := x, DefaultValue := dv, Value := v, Position := pos }]
      = p ++ v ++ q ++ v ++ r := by
  have key : ∀ d2 : Option Str, (∀ y, d2 = some y → validDefault y) →
      BuildCommand
        (render (p.map Seg.lit ++ [Seg.ph x none] ++ q.map Seg.lit ++ [Seg.ph x d2]
          ++ r.map Seg.lit))
        [{ Name := x, DefaultValue := dv, Value := v, Position := pos }]
      = p ++ v ++ q ++ v ++ r := by
    intro d2 hd2
    rw [BuildCommand_render_single _ _ _ (braceFree_of_validName hx)]
    · simp [List.flatMap_append, fill_lits, Seg.fill, fillWith]
    · intro s hs
      simp only [List.mem_append, List.mem_singleton] at hs
      rcases hs with (((h | h) | h) | h) | h
      · exact WF_lits p hp s h
      · subst h
        exact ⟨hx, by simp⟩
      · exact WF_lits q hq s h
      · subst h
        exact ⟨hx, hd2⟩
      · exact WF_lits r hr s h
  constructor
  · have := key (some d) (by
      intro y hy
      simp only [Option.some.injEq] at hy
      exact hy ▸ hd)
    simpa [render_append, render_lits, render_cons, render_nil, Seg.render, phText] using this
  · have := key none (by simp)
    simpa [render_append, render_lits, render_cons, render_nil, Seg.render, phText] using this

/-- C5 on `ping {{ip}} {{ip|1}}` with the value `10.0.0.1`. -/
theorem BuildCommand_duplicate_name_witness :
    BuildCommand ("ping \x7b\x7bip\x7d\x7d \x7b\x7bip|1\x7d\x7d".toList)
        [{ Name := "ip".toList, DefaultValue := [], Value := "10.0.0.1".toList, Position := 5 }]
      = "ping 10.0.0.1 10.0.0.1".toList ∧
    BuildCommand ("ping \x7b\x7bip\x7d\x7d \x7b\x7bip\x7d\x7d".toList)
        [{ Name := "ip".toList, DefaultValue := [], Value := "10.0.0.1".toList, Position := 5 }]
      = "ping 10.0.0.1 10.0.0.1".toList :=
  BuildCommand_duplicate_name "ip".toList "1".toList "10.0.0.1".toList "ping ".toList
    " ".toList [] [] 5 (by decide) (by decide) (by decide) (by decide) (by decide)

/-- C6: `BuildCommand` substitutes an argument whose `Value` is empty and does not
fall back to the default written in the template: for brace-free `p` and `q`, a
valid name `x` and a valid default `d`, the template `p{{x|d}}q` with the argument
list `[x with Value ""]` gives `p ++ q`. -/
theorem BuildCommand_empty_value (x d p q dv : Str) (pos : Nat)
    (hx : validName x) (hd : validDefault d) (hp : braceFree p) (hq : braceFree q) :
    BuildCommand (p ++ [lbrace, lbrace] ++ x ++ [bar] ++ d ++ [rbrace, rbrace] ++ q)
        [{ Name := x, DefaultValue := dv, Value := [], Position := pos }]
      = p ++ q := by
  have key : BuildCommand
        (render (p.map Seg.lit ++ [Seg.ph x (some d)] ++ q.map Seg.lit))
        [{ Name := x, DefaultValue := dv, Value := [], Position := pos }]
      = p ++ q := by
    rw [BuildCommand_render_single _ _ _ (braceFree_of_validName hx)]
    · simp [List.flatMap_append, fill_lits, Seg.fill, fillWith]
    · intro s hs
      simp only [List.mem_append, List.mem_singleton] at hs
      rcases hs with (h | h) | h
      · exact WF_lits p hp s h
      · subst h
        refine ⟨hx, ?_⟩
        intro y hy
        simp only [Option.some.injEq] at hy
        exact hy ▸ hd
      · exact WF_lits q hq s h
  simpa [render_append, render_lits, render_cons, render_nil, Seg.render, phText] using key

/-- C6 on `curl -p {{port|8080}} host` with an empty value for `port`. -/
theorem BuildCommand_empty_value_witness :
    BuildCommand ("curl -p \x7b\x7bport|8080\x7d\x7d host".toList)
        [{ Name := "port".toList, DefaultValue := "8080".toList, Value := [], Position := 8 }]
      = "curl -p  host".toList :=
  BuildCommand_empty_value "port".toList "8080".toList "curl -p ".toList " host".toList
    "8080".toList 8 (by decide) (by decide) (by decide) (by decide)

/-- C7: a template that contains no well-formed placeholder, in particular one in
which no `{{` is followed by a `}}`, or one whose braces enclose an empty name
between brace-free texts, has no arguments, and `BuildCommand` returns it
unchanged. -/
theorem no_placeholder_unchanged (T : Str)
    (h : hasPlaceholder T = false ∨
      (∀ a b c, T ≠ a ++ [lbrace, lbrace] ++ b ++ [rbrace, rbrace] ++ c) ∨
      (∃ p q, braceFree p ∧ braceFree q ∧ T = p ++ [lbrace, lbrace, rbrace, rbrace] ++ q)) :
    ParseArguments T = [] ∧ BuildCommand T (ParseArguments T) = T := by
  have hno : hasPlaceholder T = false := by
    rcases h with h | h | ⟨p, q, hp, hq, hT⟩
    · exact h
    · exact hasPlaceholder_unterminated T h
    · exact hT ▸ hasPlaceholder_empty_name p q hp hq
  rw [hasPlaceholder_eq_false_iff] at hno
  have hargs : ParseArguments T = [] := by
    unfold ParseArguments FindAllStringSubmatchIndex
    rw [FindAllAux_eq_nil T 0 hno]
    rfl
  refine ⟨hargs, ?_⟩
  rw [hargs]
  unfold BuildCommand ArgPattern.ReplaceAllString
  rw [ReplaceAllAux_eq_self _ T hno]
  rfl

/-- C7 on the unterminated template `echo {{ip`. -/
theorem no_placeholder_unchanged_witness :
    hasPlaceholder sampleUnterminated = false ∧ ParseArguments sampleUnterminated = [] ∧
      BuildCommand sampleUnterminated (ParseArguments sampleUnterminated)
        = sampleUnterminated :=
  ⟨by decide, no_placeholder_unchanged sampleUnterminated (Or.inl (by decide))⟩

end model

/-! ## The search filter -/

namespace loader

open model

theorem Contains_iff (s sub : Str) : Contains s sub = true ↔ sub <:+: s := by
  induction s with
  | nil =>
    simp only [Contains, List.isPrefixOf_iff_prefix, List.prefix_nil, List.infix_nil]
  | cons c cs ih =>
    simp only [Contains, Bool.or_eq_true, List.isPrefixOf_iff_prefix, ih, List.infix_cons_iff]

theorem matchesAllTermsLoop_iff (text : Str) (terms : List Str) :
    matchesAllTermsLoop text terms = true ↔ ∀ t ∈ terms, t <:+: text := by
  induction terms with
  | nil => simp [matchesAllTermsLoop]
  | cons t rest ih =>
    by_cases h : Contains text t = true
    · simp [matchesAllTermsLoop, h, ih, (Contains_iff text t).1 h]
    · have h2 : ¬ t <:+: text := fun hi => h ((Contains_iff text t).2 hi)
      simp [matchesAllTermsLoop, h, h2]

theorem SearchLoop_eq (lower : Char → Char) (terms : List Str) (results cheats : List Cheat) :
    SearchLoop lower terms results cheats
      = results ++ cheats.filter (fun r => matchesAllTerms lower r terms) := by
  induction cheats generalizing results with
  | nil => simp [SearchLoop]
  | cons c rest ih =>
    by_cases h : matchesAllTerms lower c terms = true
    · simp [SearchLoop, h, ih]
    · simp [SearchLoop, h, ih]

/-- `Search` is the filter of the input list by the records whose lower-cased text
contains every field that `strings.Fields` returns for the lower-cased query. -/
theorem Search_eq_filter_Fields (lower : Char → Char) (cheats : List Cheat) (q : Str) :
    Search lower cheats q
        = cheats.filter (fun r => decide (∀ t ∈ Fields (ToLower lower q),
            t <:+: ToLower lower (r.Tool ++ [' '] ++ Join r.Tags [' '] ++ [' '] ++ r.Title
              ++ [' '] ++ r.Command ++ [' '] ++ r.Desc))) ∧
      Search lower cheats [] = cheats := by
  refine ⟨?_, by simp [Search]⟩
  by_cases hq : q = []
  · subst hq
    simp [Search, ToLower, Fields, FieldsAux]
  · simp only [Search, hq, if_false, SearchLoop_eq, List.nil_append]
    apply List.filter_congr
    intro r _
    have := matchesAllTermsLoop_iff (buildSearchText lower r) (Fields (ToLower lower q))
    simp only [matchesAllTerms, buildSearchText] at this ⊢
    by_cases hm : matchesAllTermsLoop (ToLower lower (r.Tool ++ [' '] ++ Join r.Tags [' ']
        ++ [' '] ++ r.Title ++ [' '] ++ r.Command ++ [' '] ++ r.Desc))
        (Fields (ToLower lower q)) = true
    · rw [hm]
      exact (decide_eq_true (this.1 hm)).symm
    · have hm2 : matchesAllTermsLoop (ToLower lower (r.Tool ++ [' '] ++ Join r.Tags [' ']
          ++ [' '] ++ r.Title ++ [' '] ++ r.Command ++ [' '] ++ r.Desc))
          (Fields (ToLower lower q)) = false := by simpa using hm
      rw [hm2]
      exact (decide_eq_false (fun h => hm (this.2 h))).symm

/-! ### The terms of a query -/

theorem IsTerm_word (w t : Str) (hw : ∀ c ∈ w, IsSpace c = false) :
    IsTerm w t ↔ w ≠ [] ∧ t = w := by
  constructor
  · rintro ⟨hne, _, pre, post, hq, hpre, hpost⟩
    have hp : pre = [] := by
      rcases List.eq_nil_or_concat pre with h | ⟨L, b, h0⟩
      · exact h
      · exfalso
        have h : pre = L ++ [b] := by rw [h0, List.concat_eq_append]
        have h1 := hpre L b h
        have h2 := hw b (by rw [hq, h]; simp)
        rw [h1] at h2
        cases h2
    have hpo : post = [] := by
      cases post with
      | nil => rfl
      | cons b L =>
        exfalso
        have h1 := hpost b L rfl
        have h2 := hw b (by rw [hq]; simp)
        rw [h1] at h2
        cases h2
    subst hp hpo
    simp only [List.nil_append, List.append_nil] at hq
    subst hq
    exact ⟨hne, rfl⟩
  · rintro ⟨hne, rfl⟩
    exact ⟨hne, hw, [], [], by simp, by simp, by simp⟩

theorem IsTerm_space (w cs t : Str) (c : Char) (hw : ∀ x ∈ w, IsSpace x = false)
    (hc : IsSpace c = true) :
    IsTerm (w ++ c :: cs) t ↔ (w ≠ [] ∧ t = w) ∨ IsTerm cs t := by
  constructor
  · rintro ⟨hne, ht, pre, post, hq, hpre, hpost⟩
    have hct : c ∉ t := by
      intro h
      have := ht c h
      rw [hc] at this
      cases this
    rw [List.append_assoc] at hq
    rcases List.append_eq_append_iff.1 hq with ⟨a1, ha, h1⟩ | ⟨c1, hp, h1⟩
    · -- the term starts at or after the space
      cases a1 with
      | nil =>
        exfalso
        simp only [List.nil_append] at h1
        cases t with
        | nil => exact hne rfl
        | cons t0 ts =>
          simp only [List.cons_append, List.cons.injEq] at h1
          exact hct (by rw [h1.1]; simp)
      | cons a0 as =>
        simp only [List.cons_append, List.cons.injEq] at h1
        right
        refine ⟨hne, ht, as, post, by rw [h1.2, List.append_assoc], ?_, hpost⟩
        intro p1 x hx
        apply hpre (w ++ a0 :: p1) x
        rw [ha, hx]
        simp
    · -- the term starts inside the word
      have hp0 : pre = [] := by
        rcases List.eq_nil_or_concat pre with h | ⟨L, b, h0⟩
        · exact h
        · exfalso
          have h : pre = L ++ [b] := by rw [h0, List.concat_eq_append]
          have h1 := hpre L b h
          have h2 := hw b (by rw [hp, h]; simp)
          rw [h1] at h2
          cases h2
      subst hp0
      simp only [List.nil_append] at hp
      subst hp
      left
      rcases List.append_eq_append_iff.1 h1 with ⟨x, hx, h2⟩ | ⟨y, hy, h2⟩
      · cases x with
        | nil =>
          simp only [List.append_nil] at hx
          exact ⟨by rw [hx]; exact hne, hx.symm⟩
        | cons x0 xs =>
          exfalso
          have h3 := hpost x0 (xs ++ c :: cs) (by rw [h2]; simp)
          have h4 := hw x0 (by rw [hx]; simp)
          rw [h3] at h4
          cases h4
      · cases y with
        | nil =>
          simp only [List.append_nil] at hy
          exact ⟨by rw [← hy]; exact hne, hy⟩
        | cons y0 ys =>
          exfalso
          simp only [List.cons_append, List.cons.injEq] at h2
          exact hct (by rw [hy, h2.1]; simp)
  · rintro (⟨hne, rfl⟩ | ⟨hne, ht, pre, post, hq, hpre, hpost⟩)
    · refine ⟨hne, hw, [], c :: cs, by simp, by simp, ?_⟩
      intro x p1 hx
      simp only [List.cons.injEq] at hx
      rw [← hx.1]
      exact hc
    · refine ⟨hne, ht, w ++ c :: pre, post, by rw [hq]; simp, ?_, hpost⟩
      intro p1 x hx
      rcases List.eq_nil_or_concat pre with h | ⟨L, b, h0⟩
      · subst h
        have : w ++ [c] = p1 ++ [x] := hx
        have h2 := List.append_inj_right' this rfl
        simp only [List.cons.injEq, and_true] at h2
        rw [← h2]
        exact hc
      · have h : pre = L ++ [b] := by rw [h0, List.concat_eq_append]
        subst h
        have : (w ++ c :: L) ++ [b] = p1 ++ [x] := by rw [← hx]; simp
        have h2 := List.append_inj_right' this rfl
        simp only [List.cons.injEq, and_true] at h2
        rw [← h2]
        exact hpre L b rfl

/-- The fields that the loop of `strings.Fields` returns are the terms of the word read so
far followed by the rest of the text. -/
theorem mem_FieldsAux_iff (t : Str) :
    ∀ (s cur : Str), (∀ c ∈ cur, IsSpace c = false) →
      (t ∈ FieldsAux cur s ↔ IsTerm (cur.reverse ++ s) t) := by
  intro s
  induction s with
  | nil =>
    intro cur hcur
    have hw : ∀ c ∈ cur.reverse, IsSpace c = false := fun c h => hcur c (List.mem_reverse.1 h)
    rw [List.append_nil, IsTerm_word _ _ hw]
    by_cases h : cur = []
    · subst h
      simp [FieldsAux]
    · have h2 : cur.reverse ≠ [] := by simpa using h
      simp only [FieldsAux, h, if_false, List.mem_singleton]
      exact ⟨fun e => ⟨h2, e⟩, fun e => e.2⟩
  | cons c cs ih =>
    intro cur hcur
    have hw : ∀ c ∈ cur.reverse, IsSpace c = false := fun c h => hcur c (List.mem_reverse.1 h)
    by_cases hc : IsSpace c = true
    · rw [IsTerm_space _ _ _ _ hw hc]
      have ih0 := ih [] (by simp)
      simp only [List.reverse_nil, List.nil_append] at ih0
      by_cases h : cur = []
      · subst h
        simp only [FieldsAux, hc, if_true, List.reverse_nil, ne_eq, not_true_eq_false,
          false_and, false_or]
        exact ih0
      · have h2 : cur.reverse ≠ [] := by simpa using h
        simp only [FieldsAux, hc, if_true, h, if_false, List.mem_cons]
        constructor
        · rintro (e | e)
          · exact Or.inl ⟨h2, e⟩
          · exact Or.inr (ih0.1 e)
        · rintro (e | e)
          · exact Or.inl e.2
          · exact Or.inr (ih0.2 e)
    · have hc2 : IsSpace c = false := by simpa using hc
      have ih1 := ih (c :: cur) (by
        intro x hx
        rcases List.mem_cons.1 hx with e | e
        · rw [e]; exact hc2
        · exact hcur x e)
      simp only [FieldsAux, hc2, Bool.false_eq_true, if_false]
      rw [ih1]
      simp

/-- `strings.Fields(q)` returns exactly the whitespace-separated terms of `q`. -/
theorem mem_Fields_iff (q t : Str) : t ∈ Fields q ↔ IsTerm q t := by
  have h := mem_FieldsAux_iff t q [] (by simp)
  simpa [Fields] using h

/-- The terms of `"nmap  -sV\tscan "`: the three words, and no part of a word. -/
theorem IsTerm_sample :
    IsTerm "nmap  -sV\tscan ".toList "nmap".toList ∧
      IsTerm "nmap  -sV\tscan ".toList "-sV".toList ∧
      IsTerm "nmap  -sV\tscan ".toList "scan".toList ∧
      ¬ IsTerm "nmap  -sV\tscan ".toList "nma".toList ∧
      ¬ IsTerm "nmap  -sV\tscan ".toList "nmap  -sV\tscan ".toList := by
  simp only [← mem_Fields_iff]
  decide

/-- C1: `Search` returns exactly the records of the input, in their original relative
order, for which every whitespace-separated term of the lower-cased query is a
substring of the lower-cased text `tool + " " + tags joined by " " + " " + title +
" " + command + " " + description`; for the empty query it returns the input
list unchanged. -/
theorem Search_filter (lower : Char → Char) (cheats : List Cheat) (q : Str) :
    (∃ p : Cheat → Bool, Search lower cheats q = cheats.filter p ∧
        ∀ r, p r = true ↔ ∀ t, IsTerm (ToLower lower q) t →
          t <:+: ToLower lower (r.Tool ++ [' '] ++ Join r.Tags [' '] ++ [' '] ++ r.Title
            ++ [' '] ++ r.Command ++ [' '] ++ r.Desc)) ∧
      Search lower cheats [] = cheats := by
  refine ⟨⟨_, (Search_eq_filter_Fields lower cheats q).1, ?_⟩, (Search_eq_filter_Fields lower cheats q).2⟩
  intro r
  rw [decide_eq_true_iff]
  constructor
  · intro h t ht
    exact h t ((mem_Fields_iff _ _).2 ht)
  · intro h t ht
    exact h t ((mem_Fields_iff _ _).1 ht)

/-! ### Terms and field boundaries -/

theorem infix_of_append_sep (t a b : Str) (s : Char) (hs : s ∉ t) (h : t <:+: a ++ s :: b) :
    t <:+: a ∨ t <:+: b := by
  obtain ⟨p, q, hpq⟩ := h
  rw [List.append_assoc] at hpq
  rcases List.append_eq_append_iff.1 hpq with ⟨a1, ha, h1⟩ | ⟨c1, hp, h1⟩
  · rcases List.append_eq_append_iff.1 h1 with ⟨x, hx, h2⟩ | ⟨y, hy, h2⟩
    · left
      exact ⟨p, x, by rw [ha, hx, List.append_assoc]⟩
    · cases y with
      | nil =>
        left
        simp only [List.append_nil] at hy
        exact ⟨p, [], by rw [ha, hy]; simp⟩
      | cons y0 ys =>
        simp only [List.cons_append, List.cons.injEq] at h2
        exfalso
        apply hs
        rw [hy, h2.1]
        simp
  · cases c1 with
    | nil =>
      simp only [List.nil_append] at h1
      cases t with
      | nil => exact Or.inl ⟨[], a, by simp⟩
      | cons t0 ts =>
        simp only [List.cons_append, List.cons.injEq] at h1
        exfalso
        apply hs
        rw [h1.1]
        simp
    | cons c0 cs =>
      simp only [List.cons_append, List.cons.injEq] at h1
      right
      exact ⟨cs, q, by rw [h1.2]; simp⟩

theorem infix_of_Join (t : Str) (s : Char) (hs : s ∉ t) (tags : List Str)
    (h : t <:+: Join tags [s]) : t = [] ∨ ∃ tag ∈ tags, t <:+: tag := by
  induction tags with
  | nil =>
    left
    simpa [Join] using h
  | cons a rest ih =>
    cases rest with
    | nil =>
      right
      exact ⟨a, by simp, by simpa [Join] using h⟩
    | cons b rest2 =>
      have h2 : t <:+: a ++ s :: Join (b :: rest2) [s] := by simpa [Join] using h
      rcases infix_of_append_sep t a _ s hs h2 with h3 | h3
      · exact Or.inr ⟨a, by simp, h3⟩
      · rcases ih h3 with h4 | ⟨tag, hm, h4⟩
        · exact Or.inl h4
        · exact Or.inr ⟨tag, by simp [hm], h4⟩

theorem infix_Join_of_mem (s : Str) (tags : List Str) (tag : Str) (h : tag ∈ tags) :
    tag <:+: Join tags s := by
  induction tags with
  | nil => simp at h
  | cons a rest ih =>
    cases rest with
    | nil =>
      simp only [List.mem_singleton] at h
      subst h
      simp [Join]
    | cons b rest2 =>
      rcases List.mem_cons.1 h with h1 | h1
      · subst h1
        exact ⟨[], s ++ Join (b :: rest2) s, by simp [Join]⟩
      · obtain ⟨p, q, hpq⟩ := ih h1
        exact ⟨a ++ s ++ p, q, by simp [Join, ← hpq]⟩

theorem ToLower_Join (lower : Char → Char) (tags : List Str) (s : Str) :
    ToLower lower (Join tags s) = Join (tags.map (ToLower lower)) (ToLower lower s) := by
  induction tags with
  | nil => rfl
  | cons a rest ih =>
    cases rest with
    | nil => rfl
    | cons b rest2 =>
      simp only [Join, List.map_cons] at ih ⊢
      simp only [ToLower, List.map_append] at ih ⊢
      rw [ih]

/-- C30: a term without white space occurs in the search text of a record exactly
when it occurs in the lower-cased tool name, in some lower-cased tag, in the
lower-cased title, in the lower-cased command or in the lower-cased description;
the lower-cased separator is white space. -/
theorem buildSearchText_no_cross_field (lower : Char → Char) (r : Cheat) (t : Str)
    (hsep : IsSpace (lower ' ') = true) (ht : ∀ c ∈ t, IsSpace c = false) :
    Contains (buildSearchText lower r) t = true ↔
      t <:+: ToLower lower r.Tool ∨ (∃ tag ∈ r.Tags, t <:+: ToLower lower tag) ∨
        t <:+: ToLower lower r.Title ∨ t <:+: ToLower lower r.Command ∨
        t <:+: ToLower lower r.Desc := by
  have hs : lower ' ' ∉ t := fun hmem => by
    have := ht _ hmem
    rw [hsep] at this
    cases this
  have hform : buildSearchText lower r
      = ToLower lower r.Tool ++ lower ' ' :: (Join (r.Tags.map (ToLower lower)) [lower ' ']
          ++ lower ' ' :: (ToLower lower r.Title ++ lower ' ' :: (ToLower lower r.Command
          ++ lower ' ' :: ToLower lower r.Desc))) := by
    have hj := ToLower_Join lower r.Tags [' ']
    simp only [ToLower, List.map_cons, List.map_nil] at hj
    simp only [buildSearchText, ToLower, List.map_append, List.map_cons, List.map_nil, hj,
      List.append_assoc, List.cons_append, List.nil_append]
  rw [Contains_iff, hform]
  constructor
  · intro h
    rcases infix_of_append_sep t _ _ _ hs h with h1 | h1
    · exact Or.inl h1
    rcases infix_of_append_sep t _ _ _ hs h1 with h2 | h2
    · rcases infix_of_Join t _ hs _ h2 with h3 | ⟨tag, hm, h3⟩
      · subst h3
        exact Or.inl List.nil_infix
      · obtain ⟨tag0, hm0, rfl⟩ := List.mem_map.1 hm
        exact Or.inr (Or.inl ⟨tag0, hm0, h3⟩)
    rcases infix_of_append_sep t _ _ _ hs h2 with h3 | h3
    · exact Or.inr (Or.inr (Or.inl h3))
    rcases infix_of_append_sep t _ _ _ hs h3 with h4 | h4
    · exact Or.inr (Or.inr (Or.inr (Or.inl h4)))
    · exact Or.inr (Or.inr (Or.inr (Or.inr h4)))
  · have step : ∀ (x a b : Str) (s : Char), x <:+: b → x <:+: a ++ s :: b := by
      intro x a b s ⟨p, q, hpq⟩
      exact ⟨a ++ s :: p, q, by simp [← hpq]⟩
    have stepl : ∀ (x a b : Str), x <:+: a → x <:+: a ++ b := by
      intro x a b ⟨p, q, hpq⟩
      exact ⟨p, q ++ b, by simp [← hpq]⟩
    rintro (h | ⟨tag, hm, h⟩ | h | h | h)
    · exact stepl _ _ _ h
    · apply step
      apply stepl
      exact List.IsInfix.trans h
        (infix_Join_of_mem _ _ _ (List.mem_map.2 ⟨tag, hm, rfl⟩))
    · exact step _ _ _ _ (step _ _ _ _ (stepl _ _ _ h))
    · exact step _ _ _ _ (step _ _ _ _ (step _ _ _ _ (stepl _ _ _ h)))
    · exact step _ _ _ _ (step _ _ _ _ (step _ _ _ _ (step _ _ _ _ h)))

/-- C30 on the record `nmap -sV {{ip}}` of the tool `nmap` with the tag `scan`: the
term `pscan`, which would span the boundary of tool and tag, does not match. -/
theorem buildSearchText_no_cross_field_witness :
    IsSpace (Char.toLower ' ') = true ∧ (∀ c ∈ "nmap".toList, IsSpace c = false) ∧
    (Contains (buildSearchText Char.toLower ui.sampleCheat) "nmap".toList = true ↔
      "nmap".toList <:+: ToLower Char.toLower ui.sampleCheat.Tool ∨
      (∃ tag ∈ ui.sampleCheat.Tags, "nmap".toList <:+: ToLower Char.toLower tag) ∨
      "nmap".toList <:+: ToLower Char.toLower ui.sampleCheat.Title ∨
      "nmap".toList <:+: ToLower Char.toLower ui.sampleCheat.Command ∨
      "nmap".toList <:+: ToLower Char.toLower ui.sampleCheat.Desc) ∧
    Contains (buildSearchText Char.toLower ui.sampleCheat) "nmap".toList = true ∧
    Contains (buildSearchText Char.toLower ui.sampleCheat) "pscan".toList = false :=
  ⟨by decide, by decide,
    buildSearchText_no_cross_field Char.toLower ui.sampleCheat "nmap".toList (by decide)
      (by decide), by decide, by decide⟩

end loader

/-! ## The variable store -/

namespace state

open model

/-! ### Maps as association lists -/

theorem lookup_replace_same (l : List (Str × Str)) (k v : Str) :
    (l.map (fun p => if p.1 = k then (k, v) else p)).lookup k
      = (l.lookup k).map (fun _ => v) := by
  induction l with
  | nil => rfl
  | cons p rest ih =>
    cases p with
    | mk a b =>
      simp only [List.map_cons]
      by_cases hp : a = k
      · have hk : (k == a) = true := by simp [hp]
        rw [if_pos (show (a, b).1 = k from hp)]
        simp only [List.lookup, beq_self_eq_true, hk, Option.map_some']
      · have hk : (k == a) = false := by
          simp only [beq_eq_false_iff_ne, ne_eq]
          exact fun e => hp e.symm
        rw [if_neg (show ¬ (a, b).1 = k from hp)]
        simp only [List.lookup, hk, ih]

theorem lookup_replace_other (l : List (Str × Str)) (k v k2 : Str) (hne : k2 ≠ k) :
    (l.map (fun p => if p.1 = k then (k, v) else p)).lookup k2 = l.lookup k2 := by
  have hk2 : (k2 == k) = false := by simpa using hne
  induction l with
  | nil => rfl
  | cons p rest ih =>
    cases p with
    | mk a b =>
      simp only [List.map_cons]
      by_cases hp : a = k
      · have hk3 : (k2 == a) = false := by rw [hp]; exact hk2
        rw [if_pos (show (a, b).1 = k from hp)]
        simp only [List.lookup, hk2, hk3, ih]
      · rw [if_neg (show ¬ (a, b).1 = k from hp)]
        simp only [List.lookup, ih]

theorem lookup_append_single (l : List (Str × Str)) (k v k2 : Str) :
    (l ++ [(k, v)]).lookup k2
      = match l.lookup k2 with
        | some x => some x
        | none => if k2 = k then some v else none := by
  induction l with
  | nil =>
    by_cases h : k2 = k
    · simp [List.lookup, h]
    · have hk : (k2 == k) = false := by simpa using h
      simp [List.lookup, h, hk]
  | cons p rest ih =>
    cases p with
    | mk a b =>
      simp only [List.cons_append, List.lookup]
      cases (k2 == a) with
      | true => rfl
      | false => exact ih

theorem lookup_mapSet_same (l : List (Str × Str)) (k v : Str) :
    (mapSet l k v).lookup k = some v := by
  unfold mapSet
  split
  · rename_i h
    rw [lookup_replace_same]
    cases hl : l.lookup k with
    | none => simp [hl] at h
    | some x => rfl
  · rename_i h
    rw [lookup_append_single]
    cases hl : l.lookup k with
    | none => simp
    | some x => simp [hl] at h

theorem lookup_mapSet_other (l : List (Str × Str)) (k v k2 : Str) (hne : k2 ≠ k) :
    (mapSet l k v).lookup k2 = l.lookup k2 := by
  unfold mapSet
  split
  · exact lookup_replace_other l k v k2 hne
  · rw [lookup_append_single]
    cases l.lookup k2 with
    | none => simp [hne]
    | some x => rfl

theorem lookup_mapDelete_same (l : List (Str × Str)) (k : Str) :
    (mapDelete l k).lookup k = none := by
  unfold mapDelete
  induction l with
  | nil => rfl
  | cons p rest ih =>
    cases p with
    | mk a b =>
      by_cases hp : a = k
      · subst hp
        simpa [List.filter] using ih
      · have hk : (k == a) = false := by
          simp only [beq_eq_false_iff_ne, ne_eq]
          exact fun e => hp e.symm
        have hf : ((a, b).1 != k) = true := by simpa using hp
        simp only [List.filter, hf, List.lookup, hk]
        exact ih

theorem lookup_mapDelete_other (l : List (Str × Str)) (k k2 : Str) (hne : k2 ≠ k) :
    (mapDelete l k).lookup k2 = l.lookup k2 := by
  have hk2 : (k2 == k) = false := by simpa using hne
  unfold mapDelete
  induction l with
  | nil => rfl
  | cons p rest ih =>
    cases p with
    | mk a b =>
      by_cases hp : a = k
      · subst hp
        have hf : ((a, b).1 != a) = false := by simp
        simp only [List.filter, hf, List.lookup, hk2]
        exact ih
      · have hf : ((a, b).1 != k) = true := by simpa using hp
        simp only [List.filter, hf, List.lookup]
        cases (k2 == a) with
        | true => rfl
        | false => exact ih


/-! ### Set, Get and Unset -/

theorem Get_of_lookup (g : Global) (l : List (Str × Str)) (k : Str) (hl : g.vars = some l) :
    g.Get k = match l.lookup k with
      | some v => (v, true)
      | none => ([], false) := by
  unfold Global.Get mapGet
  rw [hl]

theorem Get_eq_of_lookup_eq (g1 g2 : Global) (l1 l2 : List (Str × Str)) (k : Str)
    (h1 : g1.vars = some l1) (h2 : g2.vars = some l2) (h : l1.lookup k = l2.lookup k) :
    g1.Get k = g2.Get k := by
  rw [Get_of_lookup g1 l1 k h1, Get_of_lookup g2 l2 k h2, h]

/-- On a store whose map is not nil, `Set` never panics, and afterwards `Get` of the
name returns the value while every other name reads as before. -/
theorem Set_then_Get (marshal : List (Str × Str) → Except Str Str) (g : Global) (d : Disk)
    (n v : Str) (l : List (Str × Str)) (hl : g.vars = some l) :
    ∃ g1 d1 err, g.Set marshal d n v = some (g1, d1, err) ∧
      g1.vars = some (mapSet l n v) ∧ g1.filePath = g.filePath ∧
      g1.Get n = (v, true) ∧ ∀ k, k ≠ n → g1.Get k = g.Get k := by
  refine ⟨{ g with vars := some (mapSet l n v) },
    (Global.SaveToFile marshal { g with vars := some (mapSet l n v) } d).1,
    (Global.SaveToFile marshal { g with vars := some (mapSet l n v) } d).2, ?_, rfl, rfl, ?_, ?_⟩
  · simp only [Global.Set, hl]
  · rw [Get_of_lookup _ (mapSet l n v) n rfl, lookup_mapSet_same]
  · intro k hk
    exact Get_eq_of_lookup_eq _ g _ l k rfl hl (lookup_mapSet_other l n v k hk)

theorem Set_nil_map (marshal : List (Str × Str) → Except Str Str) (g : Global) (d : Disk)
    (n v : Str) (h : g.vars = none) : g.Set marshal d n v = none := by
  simp [Global.Set, h]

/-! ### Substitution of stored variables -/

theorem phText_eq_placeholder (n : Str) (d : Option Str) :
    phText n d = placeholder (innerText n d) := by
  cases d <;> simp [phText, placeholder, innerText]

theorem innerText_ne_nil (n : Str) (d : Option Str) (hn : validName n) : innerText n d ≠ [] := by
  cases d with
  | none => exact hn.1
  | some x => simp [innerText]

theorem innerText_braceFree (n : Str) (d : Option Str) (hn : validName n)
    (hd : ∀ x, d = some x → validDefault x) : braceFree (innerText n d) := by
  have h1 := braceFree_of_validName hn
  cases d with
  | none => exact h1
  | some x =>
    intro c hc
    simp only [innerText, List.mem_append, List.mem_cons] at hc
    rcases hc with h | h | h
    · exact h1 c h
    · subst h
      decide
    · exact (isDefaultRune_iff c).1 ((hd x rfl).2 c h)

theorem placeholder_prefix_inner (a i r : Str) (ha : braceFree a) (hi : braceFree i)
    (h : (placeholder a).isPrefixOf (placeholder i ++ r) = true) : a = i := by
  rw [List.isPrefixOf_iff_prefix] at h
  obtain ⟨z, hz⟩ := h
  simp only [placeholder, List.cons_append, List.nil_append, List.append_assoc,
    List.cons.injEq, true_and] at hz
  have h1 : ∀ c ∈ a, (fun c => c != rbrace) c = true := by
    intro c hc
    simpa using (ha c hc).2
  have h2 : ∀ c ∈ i, (fun c => c != rbrace) c = true := by
    intro c hc
    simpa using (hi c hc).2
  have h3 : (fun c => c != rbrace) rbrace = false := by simp
  have := congrArg (List.takeWhile (fun c => c != rbrace)) hz
  rwa [takeWhile_stop a rbrace _ h1 h3, takeWhile_stop i rbrace _ h2 h3] at this

/-- The runes of a placeholder behind its first brace, for a non-empty brace-free text
between the braces: a brace, then runes none of which opens a placeholder. -/
theorem placeholder_inner_shape (i : Str) (hi : braceFree i) (hi0 : i ≠ []) :
    ∃ i0 tl, placeholder i = lbrace :: lbrace :: i0 :: tl ∧ i0 ≠ lbrace ∧
      ∀ c ∈ tl, c ≠ lbrace := by
  cases i with
  | nil => exact absurd rfl hi0
  | cons x y =>
    refine ⟨x, y ++ [rbrace, rbrace], by simp [placeholder], (hi x (by simp)).1, ?_⟩
    intro c hc
    simp only [List.mem_append, List.mem_cons, List.mem_singleton, List.not_mem_nil,
      or_false] at hc
    rcases hc with h | h | h
    · exact (hi c (by simp [h])).1
    · exact h ▸ lbrace_ne_rbrace.symm
    · exact h ▸ lbrace_ne_rbrace.symm

theorem ReplaceAllAux_placeholder_inner (a v i r : Str) (ha : braceFree a) (hi : braceFree i)
    (hi0 : i ≠ []) (hne : i ≠ a) :
    strings.ReplaceAllAux (placeholder a) v 0 (placeholder i ++ r)
      = placeholder i ++ strings.ReplaceAllAux (placeholder a) v 0 r := by
  have hp : (placeholder a).isPrefixOf (placeholder i ++ r) = false := by
    cases hb : (placeholder a).isPrefixOf (placeholder i ++ r) with
    | false => rfl
    | true => exact absurd (placeholder_prefix_inner a i r ha hi hb).symm hne
  obtain ⟨i0, tl, hsh, hi0l, htl⟩ := placeholder_inner_shape i hi hi0
  have hpa : placeholder a = lbrace :: (lbrace :: (a ++ [rbrace, rbrace])) := by
    simp [placeholder]
  generalize placeholder i = I at hp hsh ⊢
  generalize placeholder a = P at hp hpa ⊢
  subst hsh hpa
  have hi0b : (lbrace == i0) = false := by
    simp only [beq_eq_false_iff_ne, ne_eq]
    exact fun e => hi0l e.symm
  have hall : ∀ c ∈ i0 :: tl, c ≠ lbrace := by
    intro c hc
    rcases List.mem_cons.1 hc with h | h
    · exact h ▸ hi0l
    · exact htl c h
  have hcopy := copy_no_lbrace (lbrace :: (a ++ [rbrace, rbrace])) v (i0 :: tl) r hall
  have hp1 : (lbrace :: (lbrace :: (a ++ [rbrace, rbrace]))).isPrefixOf
      (lbrace :: (i0 :: (tl ++ r))) = false := by
    simp [List.isPrefixOf, hi0b]
  simp only [List.cons_append] at hp hcopy ⊢
  rw [strings_ReplaceAllAux_cons_copy _ _ _ _ hp,
    strings_ReplaceAllAux_cons_copy _ _ _ _ hp1, hcopy]

theorem Contains_cons_copy (sub : Str) (c : Char) (cs : Str)
    (h : sub.isPrefixOf (c :: cs) = false) : strings.Contains (c :: cs) sub = strings.Contains cs sub := by
  simp [Contains, h]

theorem Contains_no_lbrace (o xs r : Str) (h : ∀ c ∈ xs, c ≠ lbrace) :
    strings.Contains (xs ++ r) (lbrace :: o) = strings.Contains r (lbrace :: o) := by
  induction xs with
  | nil => rfl
  | cons c cs ih =>
    have hc : c ≠ lbrace := h c (by simp)
    have hc2 : (lbrace == c) = false := by
      simp only [beq_eq_false_iff_ne, ne_eq]
      exact fun e => hc e.symm
    have hp : (lbrace :: o).isPrefixOf (c :: (cs ++ r)) = false := by
      simp [List.isPrefixOf, hc2]
    rw [List.cons_append, Contains_cons_copy _ _ _ hp]
    exact ih (fun y hy => h y (by simp [hy]))

theorem Contains_placeholder_same (a r : Str) :
    strings.Contains (placeholder a ++ r) (placeholder a) = true := by
  rw [loader.Contains_iff]
  exact ⟨[], r, by simp⟩

theorem Contains_placeholder_inner (a i r : Str) (ha : braceFree a) (hi : braceFree i)
    (hi0 : i ≠ []) (hne : i ≠ a) :
    strings.Contains (placeholder i ++ r) (placeholder a) = strings.Contains r (placeholder a) := by
  have hp : (placeholder a).isPrefixOf (placeholder i ++ r) = false := by
    cases hb : (placeholder a).isPrefixOf (placeholder i ++ r) with
    | false => rfl
    | true => exact absurd (placeholder_prefix_inner a i r ha hi hb).symm hne
  obtain ⟨i0, tl, hsh, hi0l, htl⟩ := placeholder_inner_shape i hi hi0
  have hpa : placeholder a = lbrace :: (lbrace :: (a ++ [rbrace, rbrace])) := by
    simp [placeholder]
  generalize placeholder i = I at hp hsh ⊢
  generalize placeholder a = P at hp hpa ⊢
  subst hsh hpa
  have hi0b : (lbrace == i0) = false := by
    simp only [beq_eq_false_iff_ne, ne_eq]
    exact fun e => hi0l e.symm
  have hall : ∀ c ∈ i0 :: tl, c ≠ lbrace := by
    intro c hc
    rcases List.mem_cons.1 hc with h | h
    · exact h ▸ hi0l
    · exact htl c h
  have hcopy := Contains_no_lbrace (lbrace :: (a ++ [rbrace, rbrace])) (i0 :: tl) r hall
  have hp1 : (lbrace :: (lbrace :: (a ++ [rbrace, rbrace]))).isPrefixOf
      (lbrace :: (i0 :: (tl ++ r))) = false := by
    simp [List.isPrefixOf, hi0b]
  simp only [List.cons_append] at hp hcopy ⊢
  rw [Contains_cons_copy _ _ _ hp, Contains_cons_copy _ _ _ hp1, hcopy]

theorem fillStore_nil (segs : List Seg) : segs.flatMap (Seg.fill (fillStore [])) = render segs := by
  rfl

theorem fillStore_of_lookup_none (σ : List (Str × Str)) (n : Str) (d : Option Str)
    (h : σ.lookup (innerText n d) = none) : fillStore σ n d = placeholder (innerText n d) := by
  simp only [fillStore, h]
  exact phText_eq_placeholder n d

theorem fillStore_of_lookup_some (σ : List (Str × Str)) (n : Str) (d : Option Str) (v : Str)
    (h : σ.lookup (innerText n d) = some v) : fillStore σ n d = v := by
  simp only [fillStore, h]

theorem value_braceFree_of_lookup (σ : List (Str × Str)) (hσ : ∀ p ∈ σ, braceFree p.2)
    (k v : Str) (h : σ.lookup k = some v) : braceFree v := by
  induction σ with
  | nil => simp [List.lookup] at h
  | cons p rest ih =>
    cases p with
    | mk a b =>
      by_cases hk : k = a
      · have : (k == a) = true := by simpa using hk
        simp only [List.lookup, this] at h
        injection h with h
        subst h
        exact hσ _ (List.mem_cons_self _ _)
      · have : (k == a) = false := by simpa using hk
        simp only [List.lookup, this] at h
        exact ih (fun p hp => hσ p (by simp [hp])) h

/-- One pass of the loop of `ApplyToCommand` over a command whose placeholders are
filled by the entries `σ`: the literal replacement fills the placeholders of the new
entry that are still there. -/
theorem ReplaceAll_fillStore_step (σ : List (Str × Str)) (a v : Str) (segs : List Seg)
    (hwf : ∀ s ∈ segs, s.WF) (hσ : ∀ p ∈ σ, braceFree p.2) (ha : braceFree a) :
    strings.ReplaceAll (segs.flatMap (Seg.fill (fillStore σ))) (placeholder a) v
      = segs.flatMap (Seg.fill (fillStore (σ ++ [(a, v)]))) := by
  have hpa : placeholder a = lbrace :: (lbrace :: (a ++ [rbrace, rbrace])) := by
    simp [placeholder]
  have hRA : ∀ s, strings.ReplaceAll s (placeholder a) v
      = strings.ReplaceAllAux (placeholder a) v 0 s := by
    intro s
    rw [hpa]
    rfl
  rw [hRA]
  induction segs with
  | nil => simp [strings.ReplaceAllAux]
  | cons s rest ih =>
    have ih := ih (fun x hx => hwf x (by simp [hx]))
    have hs := hwf s (by simp)
    rw [List.flatMap_cons, List.flatMap_cons]
    cases s with
    | lit c =>
      have := copy_no_lbrace (lbrace :: (a ++ [rbrace, rbrace])) v [c]
        (rest.flatMap (Seg.fill (fillStore σ))) (by simpa using hs.1)
      rw [← hpa] at this
      simp only [Seg.fill]
      rw [this, ih]
    | ph n d =>
      simp only [Seg.fill]
      have hlk := lookup_append_single σ a v (innerText n d)
      cases hf : σ.lookup (innerText n d) with
      | some b =>
        rw [hf] at hlk
        have hb : braceFree b := value_braceFree_of_lookup σ hσ _ _ hf
        have := copy_no_lbrace (lbrace :: (a ++ [rbrace, rbrace])) v b
          (rest.flatMap (Seg.fill (fillStore σ))) (fun c hc => (hb c hc).1)
        rw [← hpa] at this
        rw [fillStore_of_lookup_some σ n d b hf, fillStore_of_lookup_some _ n d b hlk, this, ih]
      | none =>
        rw [hf] at hlk
        rw [fillStore_of_lookup_none σ n d hf]
        by_cases hna : innerText n d = a
        · simp only [hna, if_true] at hlk
          rw [fillStore_of_lookup_some _ n d v (by rw [hna]; exact hlk), hna,
            ReplaceAllAux_placeholder_same, ih]
        · simp only [hna, if_false] at hlk
          rw [fillStore_of_lookup_none _ n d hlk,
            ReplaceAllAux_placeholder_inner a v _ _ ha (innerText_braceFree n d hs.1 hs.2)
              (innerText_ne_nil n d hs.1) hna, ih]

/-- The placeholder of a brace-free name occurs in a command whose placeholders are
filled by the entries `σ` exactly when the command has a placeholder with that text
between its braces and `σ` has no entry of that name. -/
theorem Contains_fillStore (σ : List (Str × Str)) (a : Str) (segs : List Seg)
    (hwf : ∀ s ∈ segs, s.WF) (hσ : ∀ p ∈ σ, braceFree p.2) (ha : braceFree a) :
    strings.Contains (segs.flatMap (Seg.fill (fillStore σ))) (placeholder a) = true
      ↔ (∃ n d, Seg.ph n d ∈ segs ∧ innerText n d = a) ∧ σ.lookup a = none := by
  have hpa : placeholder a = lbrace :: (lbrace :: (a ++ [rbrace, rbrace])) := by
    simp [placeholder]
  induction segs with
  | nil =>
    simp [Contains, hpa, List.isPrefixOf]
  | cons s rest ih =>
    have ih := ih (fun x hx => hwf x (by simp [hx]))
    have hs := hwf s (by simp)
    rw [List.flatMap_cons]
    cases s with
    | lit c =>
      have := Contains_no_lbrace (lbrace :: (a ++ [rbrace, rbrace])) [c]
        (rest.flatMap (Seg.fill (fillStore σ))) (by simpa using hs.1)
      rw [← hpa] at this
      simp only [Seg.fill]
      rw [this]
      refine ih.trans ?_
      simp
    | ph n d =>
      simp only [Seg.fill]
      cases hf : σ.lookup (innerText n d) with
      | some b =>
        have hb : braceFree b := value_braceFree_of_lookup σ hσ _ _ hf
        have := Contains_no_lbrace (lbrace :: (a ++ [rbrace, rbrace])) b
          (rest.flatMap (Seg.fill (fillStore σ))) (fun c hc => (hb c hc).1)
        rw [← hpa] at this
        rw [fillStore_of_lookup_some σ n d b hf, this]
        refine ih.trans ?_
        constructor
        · rintro ⟨⟨m, e, hm, he⟩, hl⟩
          exact ⟨⟨m, e, by simp [hm], he⟩, hl⟩
        · rintro ⟨⟨m, e, hm, he⟩, hl⟩
          refine ⟨⟨m, e, ?_, he⟩, hl⟩
          rcases List.mem_cons.1 hm with h | h
          · cases h
            rw [he, hl] at hf
            cases hf
          · exact h
      | none =>
        rw [fillStore_of_lookup_none σ n d hf]
        by_cases hna : innerText n d = a
        · rw [hna, Contains_placeholder_same]
          simp only [true_iff]
          exact ⟨⟨n, d, by simp, hna⟩, hna ▸ hf⟩
        · rw [Contains_placeholder_inner a _ _ ha (innerText_braceFree n d hs.1 hs.2)
            (innerText_ne_nil n d hs.1) hna]
          refine ih.trans ?_
          constructor
          · rintro ⟨⟨m, e, hm, he⟩, hl⟩
            exact ⟨⟨m, e, by simp [hm], he⟩, hl⟩
          · rintro ⟨⟨m, e, hm, he⟩, hl⟩
            refine ⟨⟨m, e, ?_, he⟩, hl⟩
            rcases List.mem_cons.1 hm with h | h
            · cases h
              exact absurd he hna
            · exact h

theorem fillStore_append_of_not_contained (σ : List (Str × Str)) (a v : Str) (segs : List Seg)
    (h : ¬ ((∃ n d, Seg.ph n d ∈ segs ∧ innerText n d = a) ∧ σ.lookup a = none)) :
    segs.flatMap (Seg.fill (fillStore (σ ++ [(a, v)]))) = segs.flatMap (Seg.fill (fillStore σ)) := by
  induction segs with
  | nil => rfl
  | cons s rest ih =>
    have ih := ih (fun ⟨⟨n, d, hm, he⟩, hl⟩ => h ⟨⟨n, d, by simp [hm], he⟩, hl⟩)
    rw [List.flatMap_cons, List.flatMap_cons, ih]
    congr 1
    cases s with
    | lit c => rfl
    | ph n d =>
      simp only [Seg.fill, fillStore]
      rw [lookup_append_single]
      cases hf : σ.lookup (innerText n d) with
      | some b => rfl
      | none =>
        have hna : ¬ innerText n d = a := fun e => h ⟨⟨n, d, by simp, e⟩, e ▸ hf⟩
        simp only [hna, if_false]

/-- The loop of `ApplyToCommand`, started on a command whose placeholders are filled by
the entries `σ` seen so far: the entries still to come fill the placeholders that are
left, and a name is recorded when it is new and the command has its placeholder. -/
theorem ApplyToCommandLoop_fill (segs : List Seg) (hwf : ∀ s ∈ segs, s.WF)
    (rest σ : List (Str × Str)) (applied : List Str) (hσ : ∀ p ∈ σ, braceFree p.2)
    (hrest : ∀ p ∈ rest, braceFree p.1 ∧ braceFree p.2) :
    (ApplyToCommandLoop rest (segs.flatMap (Seg.fill (fillStore σ))) applied).1
        = segs.flatMap (Seg.fill (fillStore (σ ++ rest))) ∧
      ∀ n, n ∈ (ApplyToCommandLoop rest (segs.flatMap (Seg.fill (fillStore σ))) applied).2
        ↔ n ∈ applied ∨ (n ∈ rest.map Prod.fst ∧ σ.lookup n = none ∧
            ∃ m d, Seg.ph m d ∈ segs ∧ innerText m d = n) := by
  induction rest generalizing σ applied with
  | nil => simp [ApplyToCommandLoop]
  | cons e rest ih =>
    cases e with
    | mk a v =>
      have hav := hrest (a, v) (by simp)
      have hσ2 : ∀ p ∈ σ ++ [(a, v)], braceFree p.2 := by
        intro p hp
        rcases List.mem_append.1 hp with h | h
        · exact hσ p h
        · simp only [List.mem_singleton] at h
          exact h ▸ hav.2
      have hrest2 : ∀ p ∈ rest, braceFree p.1 ∧ braceFree p.2 := fun p hp => hrest p (by simp [hp])
      have hlk : ∀ n, (σ ++ [(a, v)]).lookup n = none ↔ σ.lookup n = none ∧ n ≠ a := by
        intro n
        rw [lookup_append_single]
        cases σ.lookup n with
        | some x => simp
        | none =>
          by_cases hn : n = a
          · simp [hn]
          · simp [hn]
      have hpl : [lbrace, lbrace] ++ a ++ [rbrace, rbrace] = placeholder a := by
        simp [placeholder]
      have hC := Contains_fillStore σ a segs hwf hσ hav.1
      by_cases hc : strings.Contains (segs.flatMap (Seg.fill (fillStore σ))) (placeholder a) = true
      · have hocc := hC.1 hc
        have hstep : ApplyToCommandLoop ((a, v) :: rest)
            (segs.flatMap (Seg.fill (fillStore σ))) applied
            = ApplyToCommandLoop rest (segs.flatMap (Seg.fill (fillStore (σ ++ [(a, v)]))))
                (applied ++ [a]) := by
          simp only [ApplyToCommandLoop, hpl, hc, if_true]
          rw [ReplaceAll_fillStore_step σ a v segs hwf hσ hav.1]
        rw [hstep]
        obtain ⟨h1, h2⟩ := ih (σ ++ [(a, v)]) (applied ++ [a]) hσ2 hrest2
        refine ⟨by rw [h1]; simp, fun n => (h2 n).trans ?_⟩
        rw [hlk]
        simp only [List.mem_append, List.mem_singleton, List.map_cons, List.mem_cons,
          List.not_mem_nil, or_false]
        constructor
        · rintro ((h | h) | ⟨h, ⟨hl, _⟩, ho⟩)
          · exact Or.inl h
          · exact Or.inr ⟨Or.inl h, h ▸ hocc.2, h ▸ hocc.1⟩
          · exact Or.inr ⟨Or.inr h, hl, ho⟩
        · rintro (h | ⟨h | h, hl, ho⟩)
          · exact Or.inl (Or.inl h)
          · exact Or.inl (Or.inr h)
          · by_cases hn : n = a
            · exact Or.inl (Or.inr hn)
            · exact Or.inr ⟨h, ⟨hl, hn⟩, ho⟩
      · have hnocc := fun h => hc (hC.2 h)
        have hstep : ApplyToCommandLoop ((a, v) :: rest)
            (segs.flatMap (Seg.fill (fillStore σ))) applied
            = ApplyToCommandLoop rest (segs.flatMap (Seg.fill (fillStore (σ ++ [(a, v)]))))
                applied := by
          simp only [ApplyToCommandLoop, hpl, hc, if_false, Bool.false_eq_true]
          rw [fillStore_append_of_not_contained σ a v segs hnocc]
        rw [hstep]
        obtain ⟨h1, h2⟩ := ih (σ ++ [(a, v)]) applied hσ2 hrest2
        refine ⟨by rw [h1]; simp, fun n => (h2 n).trans ?_⟩
        rw [hlk]
        simp only [List.map_cons, List.mem_cons]
        constructor
        · rintro (h | ⟨h, ⟨hl, _⟩, ho⟩)
          · exact Or.inl h
          · exact Or.inr ⟨Or.inr h, hl, ho⟩
        · rintro (h | ⟨h | h, hl, ho⟩)
          · exact Or.inl h
          · exact absurd ⟨h ▸ ho, h ▸ hl⟩ hnocc
          · by_cases hn : n = a
            · exact absurd ⟨hn ▸ ho, hn ▸ hl⟩ hnocc
            · exact Or.inr ⟨h, ⟨hl, hn⟩, ho⟩

theorem ApplyToCommand_empty (g : Global) (c : Str) (h : g.All = []) :
    g.ApplyToCommand c = (c, []) := by
  simp [Global.ApplyToCommand, h, ApplyToCommandLoop]

/-- On a command of well-formed segments and a store of brace-free names and values,
`ApplyToCommand` records the stored names whose placeholder occurs in the command and
fills every placeholder whose text between the braces is a stored name. -/
theorem ApplyToCommand_render (g : Global) (segs : List Seg) (hwf : ∀ s ∈ segs, s.WF)
    (hstore : ∀ p ∈ g.All, braceFree p.1 ∧ braceFree p.2) :
    (∀ n, n ∈ (g.ApplyToCommand (render segs)).2
        ↔ n ∈ g.All.map Prod.fst ∧ placeholder n <:+: render segs) ∧
      (g.ApplyToCommand (render segs)).1 = segs.flatMap (Seg.fill (fillStore g.All)) := by
  have hloop := ApplyToCommandLoop_fill segs hwf g.All [] [] (by simp) hstore
  rw [fillStore_nil] at hloop
  obtain ⟨h1, h2⟩ := hloop
  refine ⟨fun n => (h2 n).trans ?_, by simpa [Global.ApplyToCommand] using h1⟩
  simp only [List.not_mem_nil, false_or, List.lookup, true_and]
  constructor
  · rintro ⟨hn, ho⟩
    obtain ⟨p, hp, hpn⟩ := List.mem_map.1 hn
    have hbf : braceFree n := hpn ▸ (hstore p hp).1
    have := (Contains_fillStore [] n segs hwf (by simp) hbf).2 ⟨ho, rfl⟩
    rw [fillStore_nil] at this
    exact ⟨hn, (loader.Contains_iff _ _).1 this⟩
  · rintro ⟨hn, hi⟩
    obtain ⟨p, hp, hpn⟩ := List.mem_map.1 hn
    have hbf : braceFree n := hpn ▸ (hstore p hp).1
    have := (Contains_fillStore [] n segs hwf (by simp) hbf).1
      (by rw [fillStore_nil]; exact (loader.Contains_iff _ _).2 hi)
    exact ⟨hn, this.1⟩

/-! ## The claims on the variable store -/

/-- C11 fails on a store that `NewGlobal` creates from a variables file holding the
JSON value `null`: the load succeeds and leaves the map nil, and `Set` on that
store panics instead of storing the value. -/
theorem Set_panics_after_null_file :
    NewGlobal (.ok "variables.json".toList) sampleUnmarshal nullDisk
        = .ok { vars := none, filePath := "variables.json".toList } ∧
      Global.Set sampleMarshal { vars := none, filePath := "variables.json".toList } nullDisk
        "ip".toList "10.0.0.1".toList = none :=
  ⟨rfl, rfl⟩

/-- C12: `Unset n` reports `existed = true` exactly when `n` was stored before the
call; afterwards `Get n` returns `("", false)` and every other name reads as
before; when `n` was absent it returns `(false, nil)` and leaves the store and the
disk as they were. -/
theorem Unset_spec (marshal : List (Str × Str) → Except Str Str) (g : Global) (d : Disk)
    (n : Str) :
    ((g.Unset marshal d n).2.2.1 = true ↔ (g.Get n).2 = true) ∧
    (g.Unset marshal d n).1.Get n = ([], false) ∧
    (∀ k, k ≠ n → (g.Unset marshal d n).1.Get k = g.Get k) ∧
    ((g.Get n).2 = false → g.Unset marshal d n = (g, d, false, none)) := by
  cases hv : g.vars with
  | none =>
    simp [Global.Unset, Global.Get, mapGet, hv]
  | some l =>
    cases hk : l.lookup n with
    | none =>
      simp [Global.Unset, Global.Get, mapGet, hv, hk]
    | some x =>
      have hU : g.Unset marshal d n
          = ({ g with vars := some (mapDelete l n) },
              (Global.SaveToFile marshal { g with vars := some (mapDelete l n) } d).1, true,
              (Global.SaveToFile marshal { g with vars := some (mapDelete l n) } d).2) := by
        simp [Global.Unset, mapGet, hv, hk]
      rw [hU]
      refine ⟨?_, ?_, ?_, ?_⟩
      · simp [Global.Get, mapGet, hv, hk]
      · rw [Get_of_lookup _ (mapDelete l n) n rfl, lookup_mapDelete_same]
      · intro k hkn
        exact Get_eq_of_lookup_eq _ g _ l k rfl hv (lookup_mapDelete_other l n k hkn)
      · intro h
        simp [Global.Get, mapGet, hv, hk] at h

/-- C12 on the sample stores: removing the stored name `ip` reports that it existed
and leaves it unset; on the empty store the call changes nothing. -/
theorem Unset_spec_witness :
    (sampleStore.Get "ip".toList).2 = true ∧
    (sampleStore.Unset sampleMarshal emptyDisk "ip".toList).2.2.1 = true ∧
    (sampleStore.Unset sampleMarshal emptyDisk "ip".toList).1.Get "ip".toList = ([], false) ∧
    (freshStore.Get "ip".toList).2 = false ∧
    freshStore.Unset sampleMarshal emptyDisk "ip".toList = (freshStore, emptyDisk, false, none) :=
  ⟨rfl, (Unset_spec sampleMarshal sampleStore emptyDisk "ip".toList).1.2 rfl,
    (Unset_spec sampleMarshal sampleStore emptyDisk "ip".toList).2.1, rfl,
    (Unset_spec sampleMarshal freshStore emptyDisk "ip".toList).2.2.2 rfl⟩

/-- C13: when persistence fails during `Set n v` on a store with persistence enabled
(the marshal step, the write of the temporary file or the rename returns an
error), `Set` returns a non-nil error, the in-memory map holds `n -> v`, so that
`Get n` returns `(v, true)`, and the variables file is left as it was. -/
theorem Set_persistence_failure (marshal : List (Str × Str) → Except Str Str) (g : Global)
    (d : Disk) (n v : Str) (l : List (Str × Str)) (hl : g.vars = some l)
    (hp : g.filePath ≠ [])
    (hfail : (∃ e, marshal (mapSet l n v) = .error e) ∨ d.writeErr ≠ none ∨ d.renameErr ≠ none) :
    ∃ g1 d1 e, g.Set marshal d n v = some (g1, d1, some e) ∧ g1.Get n = (v, true) ∧
      d1.file = d.file := by
  have hget : ({ g with vars := some (mapSet l n v) } : Global).Get n = (v, true) := by
    rw [Get_of_lookup _ (mapSet l n v) n rfl, lookup_mapSet_same]
  simp only [Global.Set, hl, Global.SaveToFile, hp, if_false]
  cases hm : marshal (mapSet l n v) with
  | error e => exact ⟨_, _, _, rfl, hget, rfl⟩
  | ok data =>
    cases hw : d.writeErr with
    | some e => exact ⟨_, _, _, rfl, hget, rfl⟩
    | none =>
      cases hr : d.renameErr with
      | some e => exact ⟨_, _, _, rfl, hget, rfl⟩
      | none =>
        exfalso
        rcases hfail with ⟨e, he⟩ | h | h
        · rw [hm] at he
          cases he
        · exact h hw
        · exact h hr

/-- C13 on a disk without space: `set ip=10.0.0.1` on a fresh store. -/
theorem Set_persistence_failure_witness :
    freshStore.vars = some [] ∧ freshStore.filePath ≠ [] ∧
      ((∃ e, sampleMarshal (mapSet [] "ip".toList "10.0.0.1".toList) = .error e) ∨
        fullDisk.writeErr ≠ none ∨ fullDisk.renameErr ≠ none) ∧
      ∃ g1 d1 e, freshStore.Set sampleMarshal fullDisk "ip".toList "10.0.0.1".toList
          = some (g1, d1, some e) ∧
        g1.Get "ip".toList = ("10.0.0.1".toList, true) ∧ d1.file = fullDisk.file :=
  ⟨rfl, by decide, Or.inr (Or.inl (by decide)),
    Set_persistence_failure sampleMarshal freshStore fullDisk "ip".toList "10.0.0.1".toList []
      rfl (by decide) (Or.inr (Or.inl (by decide)))⟩

/-- C15, as stated, fails on a variables file that holds the JSON value `null`: the
content is not an object of strings, yet the decoder accepts it and `NewGlobal`
returns a store and no error. -/
theorem NewGlobal_accepts_null :
    nullDisk.file = some "null".toList ∧
    sampleUnmarshal "null".toList = .ok none ∧
    (∃ g, NewGlobal (.ok "variables.json".toList) sampleUnmarshal nullDisk = .ok g) ∧
    ¬ ∃ msg, NewGlobal (.ok "variables.json".toList) sampleUnmarshal nullDisk = .error msg := by
  refine ⟨rfl, rfl, ⟨_, rfl⟩, ?_⟩
  rintro ⟨msg, h⟩
  have h2 : (Except.ok { vars := none, filePath := "variables.json".toList } :
      Except Str Global) = .error msg := h
  cases h2

/-- C15, amended: over a variables file with a path, `NewGlobal` succeeds with an empty
map when the file does not exist, succeeds with an empty map when the file exists
with zero bytes, and returns an error and no store when the file exists, is read,
and its content is rejected by the JSON decoder. -/
theorem NewGlobal_load (unmarshal : Str → Except Str (Option (List (Str × Str))))
    (p : Str) (d : Disk) (hp : p ≠ []) :
    (d.file = none → NewGlobal (.ok p) unmarshal d = .ok { vars := some [], filePath := p }) ∧
    (d.file = some [] → d.readErr = none →
      NewGlobal (.ok p) unmarshal d = .ok { vars := some [], filePath := p }) ∧
    (∀ data e, d.file = some data → d.readErr = none → data ≠ [] →
      unmarshal data = .error e → ∃ msg, NewGlobal (.ok p) unmarshal d = .error msg) := by
  refine ⟨?_, ?_, ?_⟩
  · intro hf
    simp [NewGlobal, Global.LoadFromFile, hp, hf]
  · intro hf hr
    simp [NewGlobal, Global.LoadFromFile, hp, hf, hr]
  · intro data e hf hr hne hu
    have hlen : ¬ data.length = 0 := fun h => hne (List.length_eq_zero.1 h)
    refine ⟨"failed to load variables: ".toList ++ ("failed to parse variables.json: ".toList ++ e),
      ?_⟩
    simp only [NewGlobal, Global.LoadFromFile, hp, hf, hr, hlen, hu, if_false]

/-- C15, amended, on a disk whose variables file is not JSON. -/
theorem NewGlobal_load_witness :
    "variables.json".toList ≠ [] ∧
    (corruptDisk.file = none → NewGlobal (.ok "variables.json".toList) sampleUnmarshal corruptDisk
      = .ok { vars := some [], filePath := "variables.json".toList }) ∧
    (corruptDisk.file = some [] → corruptDisk.readErr = none →
      NewGlobal (.ok "variables.json".toList) sampleUnmarshal corruptDisk
        = .ok { vars := some [], filePath := "variables.json".toList }) ∧
    (∀ data e, corruptDisk.file = some data → corruptDisk.readErr = none → data ≠ [] →
      sampleUnmarshal data = .error e →
      ∃ msg, NewGlobal (.ok "variables.json".toList) sampleUnmarshal corruptDisk = .error msg) :=
  ⟨by decide, NewGlobal_load sampleUnmarshal "variables.json".toList corruptDisk (by decide)⟩

theorem SaveToFile_success (marshal : List (Str × Str) → Except Str Str) (g : Global)
    (d d1 : Disk) (hp : g.filePath ≠ []) (h : g.SaveToFile marshal d = (d1, none)) :
    ∃ data, marshal g.All = .ok data ∧ d1 = { d with file := some data, tmp := none } := by
  simp only [Global.SaveToFile, hp, if_false] at h
  have key : ∀ l : List (Str × Str),
      (match marshal l with
        | .error e => (d, some ("failed to marshal variables: ".toList ++ e))
        | .ok data =>
          match d.writeErr with
          | some e => (d, some ("failed to write variables file: ".toList ++ e))
          | none =>
            match d.renameErr with
            | some e => ({ d with tmp := none },
                some ("failed to rename variables file: ".toList ++ e))
            | none => ({ d with file := some data, tmp := none }, none)) = (d1, none) →
      ∃ data, marshal l = .ok data ∧ d1 = { d with file := some data, tmp := none } := by
    intro l h
    cases hm : marshal l with
    | error e => simp [hm] at h
    | ok data =>
      simp only [hm] at h
      cases hw : d.writeErr with
      | some e => simp [hw] at h
      | none =>
        simp only [hw] at h
        cases hr : d.renameErr with
        | some e => simp [hr] at h
        | none =>
          simp only [hr, Prod.mk.injEq, and_true] at h
          exact ⟨data, rfl, h.symm⟩
  cases hv : g.vars with
  | none =>
    simp only [hv] at h
    simpa [Global.All, hv] using key [] h
  | some l =>
    simp only [hv] at h
    simpa [Global.All, hv] using key l h

theorem NewGlobal_of_file (unmarshal : Str → Except Str (Option (List (Str × Str))))
    (p data : Str) (d : Disk) (l : List (Str × Str)) (hp : p ≠ []) (hf : d.file = some data)
    (hr : d.readErr = none) (hne : data ≠ []) (hu : unmarshal data = .ok (some l)) :
    NewGlobal (.ok p) unmarshal d = .ok { vars := some l, filePath := p } := by
  have hlen : ¬ data.length = 0 := fun h => hne (List.length_eq_zero.1 h)
  simp only [NewGlobal, Global.LoadFromFile, hp, hf, hr, hlen, hu, if_false]

/-- C16: after a successful `Set` or a successful removing `Unset` on a store with
persistence enabled, a store freshly constructed by `NewGlobal` over the written
file agrees with the in-memory map on `Get` for every name, provided the JSON
decoder reads back what the JSON encoder wrote for that map (the file is
non-empty and decodes to a map with the same entries). -/
theorem save_load_round_trip (marshal : List (Str × Str) → Except Str Str)
    (unmarshal : Str → Except Str (Option (List (Str × Str))))
    (g g1 : Global) (d d1 : Disk) (hp : g.filePath ≠ [])
    (hop : (∃ n v, g.Set marshal d n v = some (g1, d1, none)) ∨
      (∃ n, g.Unset marshal d n = (g1, d1, true, none)))
    (hread : d.readErr = none)
    (hjson : ∀ data, marshal g1.All = .ok data →
      data ≠ [] ∧ ∃ l, unmarshal data = .ok (some l) ∧ ∀ k, l.lookup k = g1.All.lookup k) :
    ∃ g2, NewGlobal (.ok g.filePath) unmarshal d1 = .ok g2 ∧ ∀ k, g2.Get k = g1.Get k := by
  have key : ∃ l1, g1.vars = some l1 ∧ g1.filePath = g.filePath ∧
      g1.SaveToFile marshal d = (d1, none) := by
    rcases hop with ⟨n, v, h⟩ | ⟨n, h⟩
    · cases hv : g.vars with
      | none => simp [Global.Set, hv] at h
      | some l =>
        simp only [Global.Set, hv, Option.some.injEq, Prod.mk.injEq] at h
        obtain ⟨h1, h2, h3⟩ := h
        subst h1
        exact ⟨_, rfl, rfl, Prod.ext h2 h3⟩
    · cases hv : g.vars with
      | none => simp [Global.Unset, mapGet, hv] at h
      | some l =>
        cases hk : l.lookup n with
        | none => simp [Global.Unset, mapGet, hv, hk] at h
        | some x =>
          simp only [Global.Unset, mapGet, hv, hk, Option.map_some', Prod.mk.injEq,
            true_and] at h
          obtain ⟨h1, h2, h3⟩ := h
          subst h1
          exact ⟨_, rfl, rfl, Prod.ext h2 h3⟩
  obtain ⟨l1, hl1, hpath, hsave⟩ := key
  obtain ⟨data, hdata, hd1⟩ := SaveToFile_success marshal g1 d d1 (hpath ▸ hp) hsave
  obtain ⟨hne, l, hl, hagree⟩ := hjson data hdata
  refine ⟨{ vars := some l, filePath := g.filePath }, ?_, ?_⟩
  · apply NewGlobal_of_file unmarshal g.filePath data d1 l hp _ _ hne hl
    · rw [hd1]
    · rw [hd1]
      exact hread
  · intro k
    have hall : g1.All = l1 := by simp [Global.All, hl1]
    apply Get_eq_of_lookup_eq _ g1 l l1 k rfl hl1
    rw [hagree k, hall]

/-- C16 on `set ip=10.0.0.1` in a fresh store over an empty disk. -/
theorem save_load_round_trip_witness :
    freshStore.filePath ≠ [] ∧
    ((∃ n v, freshStore.Set sampleMarshal emptyDisk n v
        = some (sampleStore, { emptyDisk with file := some sampleJson }, none)) ∨
      (∃ n, freshStore.Unset sampleMarshal emptyDisk n
        = (sampleStore, { emptyDisk with file := some sampleJson }, true, none))) ∧
    emptyDisk.readErr = none ∧
    (∀ data, sampleMarshal sampleStore.All = .ok data →
      data ≠ [] ∧ ∃ l, sampleUnmarshal data = .ok (some l) ∧
        ∀ k, l.lookup k = sampleStore.All.lookup k) ∧
    ∃ g2, NewGlobal (.ok freshStore.filePath) sampleUnmarshal
        { emptyDisk with file := some sampleJson } = .ok g2 ∧
      ∀ k, g2.Get k = sampleStore.Get k :=
  have hop : (∃ n v, freshStore.Set sampleMarshal emptyDisk n v
        = some (sampleStore, { emptyDisk with file := some sampleJson }, none)) ∨
      (∃ n, freshStore.Unset sampleMarshal emptyDisk n
        = (sampleStore, { emptyDisk with file := some sampleJson }, true, none)) :=
    Or.inl ⟨"ip".toList, "10.0.0.1".toList, by decide⟩
  have hjson : ∀ data, sampleMarshal sampleStore.All = .ok data →
      data ≠ [] ∧ ∃ l, sampleUnmarshal data = .ok (some l) ∧
        ∀ k, l.lookup k = sampleStore.All.lookup k := by
    intro data h
    have h2 : (Except.ok sampleJson : Except Str Str) = .ok data := h
    injection h2 with h3
    subst h3
    exact ⟨by decide, [("ip".toList, "10.0.0.1".toList)], rfl, fun _ => rfl⟩
  ⟨by decide, hop, rfl, hjson,
    save_load_round_trip sampleMarshal sampleUnmarshal freshStore sampleStore emptyDisk
      { emptyDisk with file := some sampleJson } (by decide) hop rfl hjson⟩

/-- C14, as stated, fails in three ways. A stored value that holds a placeholder makes
a later entry apply: with `a = {{b}}` and `b = x`, visited in this order, the command
`{{a}}` resolves to `x` and `b` is recorded, though `{{b}}` does not occur in the
command. A command with nested braces does the same: with an empty value under `a`
and an entry `xy`, the command `{{x{{a}}y}}` resolves to the value of `xy`. And a
stored name that holds braces is missed: the placeholder of `a}}{{a` occurs in
`{{a}}{{a}}`, but once `a` is replaced it is gone, and the name is not recorded. -/
theorem ApplyToCommand_applied_not_occurring :
    (chainStore.ApplyToCommand chainCommand = ("x".toList, ["a".toList, "b".toList]) ∧
      ¬ placeholder "b".toList <:+: chainCommand) ∧
    (nestedStore.ApplyToCommand nestedCommand = ("Z".toList, ["a".toList, "xy".toList]) ∧
      ¬ placeholder "xy".toList <:+: nestedCommand) ∧
    (overlapStore.ApplyToCommand overlapCommand = ("11".toList, ["a".toList]) ∧
      "a\x7d\x7d\x7b\x7ba".toList ∈ overlapStore.All.map Prod.fst ∧
      placeholder "a\x7d\x7d\x7b\x7ba".toList <:+: overlapCommand) := by
  refine ⟨⟨by decide, ?_⟩, ⟨by decide, ?_⟩, ⟨by decide, by decide, ?_⟩⟩
  · rw [← loader.Contains_iff]
    decide
  · rw [← loader.Contains_iff]
    decide
  · rw [← loader.Contains_iff]
    decide

/-- C14, amended: with an empty store `ApplyToCommand(c)` returns `(c, [])`. When the
stored names and values hold no brace and the command holds braces only in
placeholders the pattern matches, the applied list holds exactly the stored names `n`
for which `{{n}}` occurs literally in `c`, and the resolved string is `c` with every
placeholder whose text between the braces is a stored name replaced by the stored
value, all other text copied. -/
theorem ApplyToCommand_spec (g : Global) (c : Str) :
    (g.All = [] → g.ApplyToCommand c = (c, [])) ∧
    ((∀ p ∈ g.All, braceFree p.1 ∧ braceFree p.2) → braceFree (outsideText c) →
      (∀ n, n ∈ (g.ApplyToCommand c).2 ↔ n ∈ g.All.map Prod.fst ∧ placeholder n <:+: c) ∧
      (g.ApplyToCommand c).1 = substituteStored g.All c) := by
  refine ⟨ApplyToCommand_empty g c, fun hstore hc => ?_⟩
  obtain ⟨segs, hr, hwf⟩ := exists_segs_of_outside_braceFree c hc
  subst hr
  obtain ⟨h1, h2⟩ := ApplyToCommand_render g segs hwf hstore
  refine ⟨h1, ?_⟩
  rw [h2]
  unfold substituteStored
  rw [ReplaceAllAux_render _ segs hwf]

/-- C14, amended, on the command `nmap {{ip}}`: with `ip = 10.0.0.1` stored it resolves
to `nmap 10.0.0.1` with `ip` applied, and with an empty store it is returned as it
is. -/
theorem ApplyToCommand_spec_witness :
    sampleStore.ApplyToCommand ipCommand = ("nmap 10.0.0.1".toList, ["ip".toList]) ∧
    substituteStored sampleStore.All ipCommand = "nmap 10.0.0.1".toList ∧
    freshStore.ApplyToCommand ipCommand = (ipCommand, []) ∧
    ((∀ n, n ∈ (sampleStore.ApplyToCommand ipCommand).2
        ↔ n ∈ sampleStore.All.map Prod.fst ∧ placeholder n <:+: ipCommand) ∧
      (sampleStore.ApplyToCommand ipCommand).1 = substituteStored sampleStore.All ipCommand) :=
  ⟨by decide, by decide, (ApplyToCommand_spec freshStore ipCommand).1 rfl,
    (ApplyToCommand_spec sampleStore ipCommand).2 (by decide) (by decide)⟩

/-! ### Independence of the order of the entries -/

theorem lookup_eq_some_iff_mem (l : List (Str × Str)) (hnd : (l.map Prod.fst).Nodup) (k v : Str) :
    l.lookup k = some v ↔ (k, v) ∈ l := by
  induction l with
  | nil => simp [List.lookup]
  | cons p rest ih =>
    cases p with
    | mk a b =>
      simp only [List.map_cons, List.nodup_cons] at hnd
      by_cases hk : k = a
      · have hb : (k == a) = true := by simpa using hk
        simp only [List.lookup, hb, Option.some.injEq, List.mem_cons, Prod.mk.injEq]
        constructor
        · intro h
          exact Or.inl ⟨hk, h.symm⟩
        · rintro (⟨_, h⟩ | h)
          · exact h.symm
          · exfalso
            apply hnd.1
            rw [← hk]
            exact List.mem_map.2 ⟨(k, v), h, rfl⟩
      · have hb : (k == a) = false := by simpa using hk
        simp only [List.lookup, hb, List.mem_cons, Prod.mk.injEq, hk, false_and, false_or]
        exact ih hnd.2

theorem lookup_perm (l1 l2 : List (Str × Str)) (hp : l1.Perm l2)
    (hnd : (l1.map Prod.fst).Nodup) (k : Str) : l1.lookup k = l2.lookup k := by
  have hnd2 : (l2.map Prod.fst).Nodup := (hp.map Prod.fst).nodup_iff.1 hnd
  cases h1 : l1.lookup k with
  | some v =>
    have := (lookup_eq_some_iff_mem l1 hnd k v).1 h1
    exact ((lookup_eq_some_iff_mem l2 hnd2 k v).2 (hp.mem_iff.1 this)).symm
  | none =>
    cases h2 : l2.lookup k with
    | none => rfl
    | some v =>
      have := (lookup_eq_some_iff_mem l2 hnd2 k v).1 h2
      have h3 := (lookup_eq_some_iff_mem l1 hnd k v).2 (hp.mem_iff.2 this)
      rw [h1] at h3
      cases h3

/-- C29, as stated, fails: on the command `{{x{{a}}y}}` the store with an empty value
under `a` and the value `Z` under `xy`, whose names and values hold no brace,
resolves to `Z` with both names applied when `a` is visited first, and leaves
`{{xy}}` with only `a` applied when `xy` is visited first. -/
theorem ApplyToCommand_depends_on_order :
    nestedStore.All.Perm nestedStoreRev.All ∧
    (∀ p ∈ nestedStore.All, braceFree p.1 ∧ braceFree p.2) ∧
    nestedStore.ApplyToCommand nestedCommand = ("Z".toList, ["a".toList, "xy".toList]) ∧
    nestedStoreRev.ApplyToCommand nestedCommand
      = ("\x7b\x7bxy\x7d\x7d".toList, ["a".toList]) := by
  refine ⟨?_, by decide, by decide, by decide⟩
  exact List.Perm.swap _ _ _

/-- C29, amended: for every command in which braces occur only inside placeholders the
pattern matches, and every store whose names and values contain no brace, the
resolved string and the set of applied names are the same for every order in
which the stored variables are visited. -/
theorem ApplyToCommand_order_independent (g1 g2 : Global) (c : Str)
    (hperm : g1.All.Perm g2.All) (hnd : (g1.All.map Prod.fst).Nodup)
    (hstore : ∀ p ∈ g1.All, braceFree p.1 ∧ braceFree p.2)
    (hc : braceFree (outsideText c)) :
    (g1.ApplyToCommand c).1 = (g2.ApplyToCommand c).1 ∧
      ∀ n, n ∈ (g1.ApplyToCommand c).2 ↔ n ∈ (g2.ApplyToCommand c).2 := by
  obtain ⟨segs, hr, hwf⟩ := exists_segs_of_outside_braceFree c hc
  subst hr
  have hstore2 : ∀ p ∈ g2.All, braceFree p.1 ∧ braceFree p.2 :=
    fun p hp => hstore p (hperm.mem_iff.2 hp)
  obtain ⟨a1, b1⟩ := ApplyToCommand_render g1 segs hwf hstore
  obtain ⟨a2, b2⟩ := ApplyToCommand_render g2 segs hwf hstore2
  constructor
  · rw [b1, b2]
    have : fillStore g1.All = fillStore g2.All := by
      funext n d
      simp only [fillStore, lookup_perm g1.All g2.All hperm hnd]
    rw [this]
  · intro n
    rw [a1, a2]
    have : n ∈ g1.All.map Prod.fst ↔ n ∈ g2.All.map Prod.fst := (hperm.map Prod.fst).mem_iff
    rw [this]

/-- C29, amended, on the command `nmap {{ip}}` and a store of two entries visited in
either order. -/
theorem ApplyToCommand_order_independent_witness :
    twoStore.All.Perm twoStoreRev.All ∧ (twoStore.All.map Prod.fst).Nodup ∧
    (∀ p ∈ twoStore.All, braceFree p.1 ∧ braceFree p.2) ∧ braceFree (outsideText ipCommand) ∧
    twoStore.ApplyToCommand ipCommand = ("nmap 10.0.0.1".toList, ["ip".toList]) ∧
    ((twoStore.ApplyToCommand ipCommand).1 = (twoStoreRev.ApplyToCommand ipCommand).1 ∧
      ∀ n, n ∈ (twoStore.ApplyToCommand ipCommand).2
        ↔ n ∈ (twoStoreRev.ApplyToCommand ipCommand).2) :=
  ⟨List.Perm.swap _ _ _, by decide, by decide, by decide, by decide,
    ApplyToCommand_order_independent twoStore twoStoreRev ipCommand (List.Perm.swap _ _ _)
      (by decide) (by decide) (by decide)⟩

end state

/-! ## The navigation state machine -/

namespace ui

open model state appState

/-! ### Directives -/

theorem handleSetCommand_handled (ext : Ext) (m : App) (d : Disk) (q : Str)
    (r : (Bool × App) × Disk) (h : handleSetCommand ext m d q = some r) : r.1.1 = true := by
  unfold handleSetCommand at h
  simp only at h
  split at h
  · split at h
    · split at h
      · simp at h
      · simp only [Option.some.injEq] at h
        subst h
        rfl
    · simp only [Option.some.injEq] at h
      subst h
      rfl
  · simp only [Option.some.injEq] at h
    subst h
    rfl

theorem handleUnsetCommand_handled (ext : Ext) (m : App) (d : Disk) (q : Str) :
    (handleUnsetCommand ext m d q).1.1 = true := by
  unfold handleUnsetCommand
  simp only
  split <;> rfl

theorem handleSpecialCommand_not_handled (ext : Ext) (m : App) (d : Disk) (q : Str)
    (h : (handleSpecialCommand ext m d q).map (fun r => r.1.1) = some false)
    (m2 : App) (d2 : Disk) :
    handleSpecialCommand ext m2 d2 q = some ((false, m2), d2) := by
  have g1 : ¬ loader.ToLower ext.toLower (TrimSpace q) = "variables".toList := by
    intro e
    simp [handleSpecialCommand, e] at h
  have g2 : ¬ loader.ToLower ext.toLower (TrimSpace q) = "help".toList := by
    intro e
    simp [handleSpecialCommand, g1, e] at h
  have g3 : ¬ loader.ToLower ext.toLower (TrimSpace q) = "tools".toList := by
    intro e
    simp only [handleSpecialCommand, g1, g2, e, if_true, if_false, Option.map_map] at h
    generalize initToolsTable ext _ = X at h
    cases X <;> simp at h
  have g4 : ¬ HasPrefix (loader.ToLower ext.toLower (TrimSpace q)) "set ".toList = true := by
    intro e
    simp only [handleSpecialCommand, g1, g2, g3, e, if_true, if_false] at h
    cases hs : handleSetCommand ext m d (TrimSpace q) with
    | none => simp [hs] at h
    | some r =>
      have := handleSetCommand_handled ext m d _ r hs
      simp [hs, this] at h
  have g5 : ¬ HasPrefix (loader.ToLower ext.toLower (TrimSpace q)) "unset ".toList = true := by
    intro e
    simp only [handleSpecialCommand, g1, g2, g3, g4, e, if_true, if_false, Option.map_some',
      Bool.false_eq_true, handleUnsetCommand_handled] at h
    simp at h
  simp only [handleSpecialCommand, g1, g2, g3, g4, g5, if_false, Bool.false_eq_true]

/-! ### Pressing Enter -/

theorem Update_search_enter (ext : Ext) (m : App) (d : Disk) (h : m.state = stateSearch) :
    Update ext m d (Msg.KeyMsg keyEnter)
      = handleEnter ext { m with statusMsg := [], statusIsError := false } d := by
  have k1 : ¬ (keyEnter = keyCtrlC ∨ keyEnter = keyEsc) := by decide
  have k2 : ¬ keyEnter = keyHelp := by decide
  simp only [Update, resize, h, updateSearch, k1, k2, if_false, if_true]

theorem Update_args_enter (ext : Ext) (m : App) (d : Disk) (h : m.state = stateArgs) :
    Update ext m d (Msg.KeyMsg keyEnter) = (submitArgs m).map (fun r => (r, d)) := by
  have k1 : ¬ keyEnter = keyCtrlC := by decide
  have k2 : ¬ keyEnter = keyEsc := by decide
  simp only [Update, resize, h, updateArgs, k1, k2, if_false, if_true]

theorem index_eq_some {α : Type} (l : List α) (i : Int) (x : α) (h : index l i = some x) :
    0 ≤ i ∧ i < l.length := by
  unfold index at h
  split at h
  · simp at h
  · rename_i hi
    have hlt : i.toNat < l.length := by
      by_contra hc
      rw [List.getElem?_eq_none (Nat.le_of_not_lt hc)] at h
      simp at h
    omega

theorem index_of_bounds {α : Type} (l : List α) (i : Int) (h0 : 0 ≤ i) (h1 : i < l.length) :
    ∃ x, index l i = some x := by
  unfold index
  have hlt : i.toNat < l.length := by omega
  have hn : ¬ i < 0 := by omega
  simp only [hn, if_false]
  exact ⟨l[i.toNat], List.getElem?_eq_getElem hlt⟩

theorem handleEnter_select (ext : Ext) (m : App) (d : Disk) (cheat : Cheat)
    (hq : handleSpecialCommand ext m d (TrimSpace m.searchInput.value) = some ((false, m), d))
    (hidx : index m.filtered m.cursor = some cheat) :
    handleEnter ext m d
      = if ((ParseArguments cheat.Command).map (prefill m.globals)).length = 0 then
          some ((
            { m with
              selectedCheat := some cheat,
              args := (ParseArguments cheat.Command).map (prefill m.globals),
              FinalCommand := BuildCommand cheat.Command
                ((ParseArguments cheat.Command).map (prefill m.globals)) },
            Cmd.Quit), d)
        else
          (enterArgsState ext
            { m with
              selectedCheat := some cheat,
              args := (ParseArguments cheat.Command).map (prefill m.globals) }).map
            (fun r => (r, d)) := by
  obtain ⟨h0, h1⟩ := index_eq_some _ _ _ hidx
  have hg : ¬ (m.filtered.length = 0 ∨ m.cursor < 0 ∨ m.cursor ≥ m.filtered.length) := by
    omega
  unfold handleEnter
  simp only [hq, hg, hidx, if_false, Bool.false_eq_true]

theorem enterArgsLoop_length (ext : Ext) (args : List Argument) (i f : Int) :
    (enterArgsLoop ext i f args).1.length = args.length := by
  induction args generalizing i f with
  | nil => simp [enterArgsLoop]
  | cons a rest ih =>
    simp only [enterArgsLoop]
    split <;> simp [ih]

theorem enterArgsState_nonempty (ext : Ext) (m : App) (h : m.args ≠ []) :
    ∃ inputs c, enterArgsState ext m
        = some ({ m with state := stateArgs, argInputs := inputs, argCursor := c }, Cmd.nil) ∧
      inputs.length = m.args.length := by
  have hlen := enterArgsLoop_length ext m.args 0 (-1)
  unfold enterArgsState
  simp only
  split
  · cases hr : (enterArgsLoop ext 0 (-1) m.args).1 with
    | nil =>
      rw [hr] at hlen
      have : m.args = [] := List.length_eq_zero.1 hlen.symm
      exact absurd this h
    | cons ti rest =>
      refine ⟨ti.Focus :: rest, 0, rfl, ?_⟩
      rw [← hlen, hr]
      simp
  · exact ⟨_, _, rfl, hlen⟩

/-! ### Submitting the arguments -/

theorem submitArgsLoop_eq (args : List Argument) (inputs : List TextInput)
    (h : inputs.length = args.length) :
    submitArgsLoop args inputs
      = some (List.zipWith (fun a ti => { a with Value := ti.value }) args inputs) := by
  induction args generalizing inputs with
  | nil => simp [submitArgsLoop]
  | cons a rest ih =>
    cases inputs with
    | nil => simp at h
    | cons ti tis =>
      simp only [List.length_cons, Nat.add_right_cancel_iff] at h
      simp [submitArgsLoop, ih tis h]

theorem HasEmptyArgs_iff (args : List Argument) :
    HasEmptyArgs args = true ↔ ∃ a ∈ args, a.Value = [] := by
  induction args with
  | nil => simp [HasEmptyArgs]
  | cons a rest ih =>
    by_cases ha : a.Value = []
    · simp [HasEmptyArgs, ha]
    · simp [HasEmptyArgs, ha, ih]

theorem HasEmptyArgs_zipWith (args : List Argument) (inputs : List TextInput)
    (h : inputs.length = args.length) :
    HasEmptyArgs (List.zipWith (fun a ti => { a with Value := ti.value }) args inputs) = true
      ↔ ∃ ti ∈ inputs, ti.value = [] := by
  induction args generalizing inputs with
  | nil =>
    have : inputs = [] := List.length_eq_zero.1 h
    simp [this, HasEmptyArgs]
  | cons a rest ih =>
    cases inputs with
    | nil => simp at h
    | cons ti tis =>
      simp only [List.length_cons, Nat.add_right_cancel_iff] at h
      by_cases ht : ti.value = []
      · simp [HasEmptyArgs, ht]
      · simp [HasEmptyArgs, ht, ih tis h]

theorem prefill_eq (g : Global) (a : Argument) (h : a.Value = a.DefaultValue) :
    prefill g a = if (g.Get a.Name).2 then { a with Value := (g.Get a.Name).1 } else a := by
  unfold prefill
  split
  · rfl
  · split
    · cases a
      simp only at h
      simp [h]
    · rfl

/-! ## The claims on the session -/

/-- C8: end to end. For a record whose template is `p{{x}}s` with brace-free `p` and
`s` and a valid name `x`, a store without an entry for `x` and a non-directive
query, pressing Enter on that record in the search view leads to the argument
view with exactly one placeholder, named `x`, whose value is empty, and one input;
then, whatever non-empty text `v` that input holds, pressing Enter finishes the
session with `FinalCommand = p ++ v ++ s`. -/
theorem end_to_end_single_placeholder (ext : Ext) (m : App) (d : Disk) (cheat : Cheat)
    (p x s v : Str)
    (hstate : m.state = stateSearch) (hq : nonDirective ext m d)
    (hidx : index m.filtered m.cursor = some cheat)
    (hcmd : cheat.Command = p ++ [lbrace, lbrace] ++ x ++ [rbrace, rbrace] ++ s)
    (hp : braceFree p) (hs : braceFree s) (hx : validName x)
    (hstore : (m.globals.Get x).2 = false) (hv : v ≠ []) :
    ∃ m1, Update ext m d (Msg.KeyMsg keyEnter) = some ((m1, Cmd.nil), d) ∧
      m1.state = stateArgs ∧
      m1.args = [{ Name := x, DefaultValue := [], Value := [], Position := byteLen p }] ∧
      m1.argInputs.length = 1 ∧
      ∀ ti : TextInput, ti.value = v →
        ∃ m2, Update ext { m1 with argInputs := [ti] } d (Msg.KeyMsg keyEnter)
            = some ((m2, Cmd.Quit), d) ∧
          m2.FinalCommand = p ++ v ++ s := by
  have hnot := handleSpecialCommand_not_handled ext m d _ hq
    { m with statusMsg := [], statusIsError := false } d
  have hpa := ParseArguments_single p x s hp hs hx
  have hargs : (ParseArguments cheat.Command).map (prefill m.globals)
      = [{ Name := x, DefaultValue := [], Value := [], Position := byteLen p }] := by
    rw [hcmd, hpa]
    simp [prefill, hstore]
  rw [Update_search_enter ext m d hstate,
    handleEnter_select ext { m with statusMsg := [], statusIsError := false } d cheat hnot hidx]
  simp only [hargs, List.length_singleton, one_ne_zero, if_false]
  obtain ⟨inputs, c, hent, hlen⟩ := enterArgsState_nonempty ext
    { m with
      statusMsg := [], statusIsError := false, selectedCheat := some cheat,
      args := [{ Name := x, DefaultValue := [], Value := [], Position := byteLen p }] }
    (by simp)
  rw [hent]
  refine ⟨_, rfl, rfl, rfl, by simpa using hlen, ?_⟩
  intro ti hti
  rw [Update_args_enter _ _ _ rfl]
  have hbuild := BuildCommand_single p x s v [] (byteLen p) hp hs hx
  simp only [submitArgs, submitArgsLoop, HasEmptyArgs, hti, hv, if_false, Bool.not_false,
    if_true, Option.map_some']
  refine ⟨_, rfl, ?_⟩
  show BuildCommand cheat.Command _ = p ++ v ++ s
  rw [hcmd]
  exact hbuild

/-- C8 on the record `nmap -sV {{ip}}` and the value `10.10.10.10`: the final command
is `nmap -sV 10.10.10.10`. -/
theorem end_to_end_single_placeholder_witness :
    sampleApp.state = stateSearch ∧ nonDirective sampleExt sampleApp sampleDisk ∧
      index sampleApp.filtered sampleApp.cursor = some sampleCheat ∧
      (sampleApp.globals.Get "ip".toList).2 = false ∧
      ∃ m1, Update sampleExt sampleApp sampleDisk (Msg.KeyMsg keyEnter)
          = some ((m1, Cmd.nil), sampleDisk) ∧
        m1.state = stateArgs ∧
        m1.args = [{ Name := "ip".toList, DefaultValue := [], Value := [],
                     Position := byteLen "nmap -sV ".toList }] ∧
        m1.argInputs.length = 1 ∧
        ∀ ti : TextInput, ti.value = "10.10.10.10".toList →
          ∃ m2, Update sampleExt { m1 with argInputs := [ti] } sampleDisk (Msg.KeyMsg keyEnter)
              = some ((m2, Cmd.Quit), sampleDisk) ∧
            m2.FinalCommand = "nmap -sV ".toList ++ "10.10.10.10".toList ++ [] :=
  ⟨rfl, by decide, by decide, by decide,
    end_to_end_single_placeholder sampleExt sampleApp sampleDisk sampleCheat
      "nmap -sV ".toList "ip".toList [] "10.10.10.10".toList rfl (by decide) (by decide)
      (by decide) (by decide) (by decide) (by decide) (by decide) (by decide)⟩

/-- C9: in the search view, pressing Enter with a non-directive query and a valid
selection records the selected record and sets the argument list to
`ParseArguments` of its template, each `Value` replaced by the stored variable of
the same name when the store has one and left at its default otherwise; when that
list is empty the session finishes (quit command) with `FinalCommand` the built
command and the view unchanged; otherwise the view becomes the argument view, no
quit is issued and `FinalCommand` is unchanged. The disk is not touched. -/
theorem handleEnter_selection (ext : Ext) (m : App) (d : Disk)
    (hstate : m.state = stateSearch) (hq : nonDirective ext m d)
    (h0 : 0 ≤ m.cursor) (h1 : m.cursor < m.filtered.length) :
    ∃ cheat m1 cmd, index m.filtered m.cursor = some cheat ∧
      Update ext m d (Msg.KeyMsg keyEnter) = some ((m1, cmd), d) ∧
      m1.selectedCheat = some cheat ∧
      m1.args = (ParseArguments cheat.Command).map
        (fun a => if (m.globals.Get a.Name).2 then { a with Value := (m.globals.Get a.Name).1 }
          else a) ∧
      (m1.args = [] →
        cmd = Cmd.Quit ∧ m1.FinalCommand = BuildCommand cheat.Command [] ∧
        m1.state = stateSearch) ∧
      (m1.args ≠ [] →
        cmd = Cmd.nil ∧ m1.state = stateArgs ∧ m1.FinalCommand = m.FinalCommand) := by
  obtain ⟨cheat, hidx⟩ := index_of_bounds m.filtered m.cursor h0 h1
  have hnot := handleSpecialCommand_not_handled ext m d _ hq
    { m with statusMsg := [], statusIsError := false } d
  have hargs : (ParseArguments cheat.Command).map (prefill m.globals)
      = (ParseArguments cheat.Command).map
        (fun a => if (m.globals.Get a.Name).2 then { a with Value := (m.globals.Get a.Name).1 }
          else a) := by
    apply List.map_congr_left
    intro a ha
    exact prefill_eq m.globals a (ParseArguments_value_eq_default _ a ha)
  rw [Update_search_enter ext m d hstate,
    handleEnter_select ext { m with statusMsg := [], statusIsError := false } d cheat hnot hidx]
  simp only [hargs]
  by_cases hlen : ((ParseArguments cheat.Command).map
        (fun a => if (m.globals.Get a.Name).2 then { a with Value := (m.globals.Get a.Name).1 }
          else a)).length = 0
  · have hnil := List.length_eq_zero.1 hlen
    simp only [hlen, if_true]
    refine ⟨cheat, _, _, hidx, rfl, rfl, rfl, ?_, ?_⟩
    · intro _
      refine ⟨rfl, ?_, hstate⟩
      show BuildCommand cheat.Command _ = BuildCommand cheat.Command []
      rw [hnil]
    · intro hne
      exact absurd hnil hne
  · simp only [hlen, if_false]
    have hne : ({ m with
        statusMsg := [], statusIsError := false, selectedCheat := some cheat,
        args := (ParseArguments cheat.Command).map
          (fun a => if (m.globals.Get a.Name).2 then
            { a with Value := (m.globals.Get a.Name).1 } else a) } : App).args ≠ [] := by
      intro e
      exact hlen (by simpa using congrArg List.length e)
    obtain ⟨inputs, c, hent, -⟩ := enterArgsState_nonempty ext _ hne
    rw [hent]
    refine ⟨cheat, _, _, hidx, rfl, rfl, rfl, ?_, ?_⟩
    · intro hnil
      exact absurd hnil hne
    · intro _
      exact ⟨rfl, rfl, rfl⟩

/-- C9 on the sample session: the first record of the list is selected. -/
theorem handleEnter_selection_witness :
    sampleApp.state = stateSearch ∧ nonDirective sampleExt sampleApp sampleDisk ∧
      0 ≤ sampleApp.cursor ∧ sampleApp.cursor < sampleApp.filtered.length ∧
      ∃ cheat m1 cmd, index sampleApp.filtered sampleApp.cursor = some cheat ∧
        Update sampleExt sampleApp sampleDisk (Msg.KeyMsg keyEnter)
          = some ((m1, cmd), sampleDisk) ∧
        m1.selectedCheat = some cheat ∧
        m1.args = (ParseArguments cheat.Command).map
          (fun a => if (sampleApp.globals.Get a.Name).2 then
            { a with Value := (sampleApp.globals.Get a.Name).1 } else a) ∧
        (m1.args = [] →
          cmd = Cmd.Quit ∧ m1.FinalCommand = BuildCommand cheat.Command [] ∧
          m1.state = stateSearch) ∧
        (m1.args ≠ [] →
          cmd = Cmd.nil ∧ m1.state = stateArgs ∧ m1.FinalCommand = sampleApp.FinalCommand) :=
  ⟨rfl, by decide, by decide, by decide,
    handleEnter_selection sampleExt sampleApp sampleDisk rfl (by decide) (by decide) (by decide)⟩

/-- C10: in the argument view, with one input per placeholder and a selected record,
pressing Enter copies the text of each input into its placeholder and finishes
the session (returns the quit command) if and only if every input text is
non-empty; when it finishes, `FinalCommand` is `BuildCommand` of the selected
template and these arguments; when some input is empty the view stays the
argument view, `FinalCommand` is unchanged, the command is `nil` (no quit) and
the status message and its error flag are unchanged. -/
theorem submitArgs_finishes_iff (ext : Ext) (m : App) (d : Disk) (cheat : Cheat)
    (hstate : m.state = stateArgs) (hlen : m.argInputs.length = m.args.length)
    (hsel : m.selectedCheat = some cheat) :
    ∃ m1 cmd, Update ext m d (Msg.KeyMsg keyEnter) = some ((m1, cmd), d) ∧
      m1.args = List.zipWith (fun a ti => { a with Value := ti.value }) m.args m.argInputs ∧
      (cmd = Cmd.Quit ↔ ∀ ti ∈ m.argInputs, ti.value ≠ []) ∧
      ((∀ ti ∈ m.argInputs, ti.value ≠ []) →
        m1.FinalCommand = BuildCommand cheat.Command m1.args) ∧
      ((∃ ti ∈ m.argInputs, ti.value = []) →
        cmd = Cmd.nil ∧ m1.state = stateArgs ∧ m1.FinalCommand = m.FinalCommand ∧
        m1.statusMsg = m.statusMsg ∧ m1.statusIsError = m.statusIsError ∧
        m1.Cancelled = m.Cancelled) := by
  rw [Update_args_enter ext m d hstate]
  unfold submitArgs
  simp only [submitArgsLoop_eq m.args m.argInputs hlen, hsel]
  have hiff := HasEmptyArgs_zipWith m.args m.argInputs hlen
  by_cases hall : ∀ ti ∈ m.argInputs, ti.value ≠ []
  · have hne : HasEmptyArgs (List.zipWith (fun a ti => { a with Value := ti.value })
        m.args m.argInputs) = false := by
      cases hb : HasEmptyArgs (List.zipWith (fun a ti => { a with Value := ti.value })
        m.args m.argInputs) with
      | false => rfl
      | true =>
        obtain ⟨ti, hti, hv⟩ := hiff.1 hb
        exact absurd hv (hall ti hti)
    simp only [hne, Bool.not_false, if_true, Option.map_some']
    refine ⟨_, _, rfl, rfl, ?_, ?_, ?_⟩
    · exact ⟨fun _ => hall, fun _ => rfl⟩
    · intro _
      rfl
    · rintro ⟨ti, hti, hv⟩
      exact absurd hv (hall ti hti)
  · have hex : ∃ ti ∈ m.argInputs, ti.value = [] := by
      by_contra hc
      apply hall
      intro ti hti hv
      exact hc ⟨ti, hti, hv⟩
    have he : HasEmptyArgs (List.zipWith (fun a ti => { a with Value := ti.value })
        m.args m.argInputs) = true := hiff.2 hex
    simp only [he, Bool.not_true, Bool.false_eq_true, if_false, Option.map_some']
    refine ⟨_, _, rfl, rfl, ?_, ?_, ?_⟩
    · exact ⟨fun h => Cmd.noConfusion h, fun h => absurd h hall⟩
    · intro h
      exact absurd h hall
    · intro _
      exact ⟨rfl, hstate, rfl, rfl, rfl, rfl⟩

/-- C10 on the sample session with `10.10.10.10` typed into the input of `ip`. -/
theorem submitArgs_finishes_iff_witness :
    sampleArgsApp.state = stateArgs ∧
      sampleArgsApp.argInputs.length = sampleArgsApp.args.length ∧
      sampleArgsApp.selectedCheat = some sampleCheat ∧
      ∃ m1 cmd, Update sampleExt sampleArgsApp sampleDisk (Msg.KeyMsg keyEnter)
          = some ((m1, cmd), sampleDisk) ∧
        m1.args = List.zipWith (fun a ti => { a with Value := ti.value })
          sampleArgsApp.args sampleArgsApp.argInputs ∧
        (cmd = Cmd.Quit ↔ ∀ ti ∈ sampleArgsApp.argInputs, ti.value ≠ []) ∧
        ((∀ ti ∈ sampleArgsApp.argInputs, ti.value ≠ []) →
          m1.FinalCommand = BuildCommand sampleCheat.Command m1.args) ∧
        ((∃ ti ∈ sampleArgsApp.argInputs, ti.value = []) →
          cmd = Cmd.nil ∧ m1.state = stateArgs ∧ m1.FinalCommand = sampleArgsApp.FinalCommand ∧
          m1.statusMsg = sampleArgsApp.statusMsg ∧
          m1.statusIsError = sampleArgsApp.statusIsError ∧
          m1.Cancelled = sampleArgsApp.Cancelled) :=
  ⟨rfl, rfl, rfl,
    submitArgs_finishes_iff sampleExt sampleArgsApp sampleDisk sampleCheat rfl rfl rfl⟩

/-! ### Keys in the five views -/

theorem Update_key (ext : Ext) (m : App) (d : Disk) (key : Str) :
    Update ext m d (Msg.KeyMsg key)
      = match m.state with
        | stateSearch => updateSearch ext m d (Msg.KeyMsg key)
        | stateArgs => (updateArgs ext m (Msg.KeyMsg key)).map (fun r => (r, d))
        | stateShowVars => some (updateShowVars ext m (Msg.KeyMsg key), d)
        | stateShowTools => (updateShowTools ext m (Msg.KeyMsg key)).map (fun r => (r, d))
        | stateHelp => some (updateHelp m (Msg.KeyMsg key), d) := by
  rfl

/-- In the search view and in the argument view `ctrl+c` cancels the session. -/
theorem ctrl_c_cancels_search_and_args (ext : Ext) (m : App) (d : Disk)
    (h : m.state = stateSearch ∨ m.state = stateArgs) :
    ∃ m1, Update ext m d (Msg.KeyMsg keyCtrlC) = some ((m1, Cmd.Quit), d) ∧
      m1.Cancelled = true := by
  rw [Update_key]
  rcases h with h | h
  · simp only [h, updateSearch, true_or, if_true]
    exact ⟨_, rfl, rfl⟩
  · simp only [h, updateArgs, if_true, Option.map_some']
    exact ⟨_, rfl, rfl⟩

/-- In the help view `ctrl+c` is ignored. -/
theorem ctrl_c_ignored_in_help (ext : Ext) (m : App) (d : Disk) (h : m.state = stateHelp) :
    Update ext m d (Msg.KeyMsg keyCtrlC) = some ((m, Cmd.nil), d) := by
  have k : ¬ (keyCtrlC = keyEsc ∨ keyCtrlC = keyQuit ∨ keyCtrlC = keyEnter ∨ keyCtrlC = keyHelp) := by
    decide
  rw [Update_key]
  simp only [h, updateHelp, k, if_false]

/-- In the variables view and in the tools view `ctrl+c` is handed to the table and
the cancellation flag is left as it was. -/
theorem ctrl_c_to_table (ext : Ext) (m : App) (d : Disk)
    (h : m.state = stateShowVars ∨ m.state = stateShowTools) :
    ∃ m1 cmd, Update ext m d (Msg.KeyMsg keyCtrlC) = some ((m1, cmd), d) ∧
      m1.Cancelled = m.Cancelled ∧ m1.state = m.state := by
  rw [Update_key]
  rcases h with h | h
  · have k : ¬ (keyCtrlC = keyEsc ∨ keyCtrlC = keyQuit ∨ keyCtrlC = keyEnter) := by decide
    simp only [h, updateShowVars, k, if_false]
    refine ⟨_, _, rfl, ?_, ?_⟩
    · split <;> rfl
    · split
      · simp [initVarsTable, h]
      · exact h
  · have k1 : ¬ (keyCtrlC = keyEsc ∨ keyCtrlC = keyQuit) := by decide
    have k2 : ¬ keyCtrlC = keyEnter := by decide
    have k3 : ¬ (keyCtrlC = keyLeft ∨ keyCtrlC = "h".toList) := by decide
    have k4 : ¬ (keyCtrlC = keyRight ∨ keyCtrlC = "l".toList) := by decide
    simp only [h, updateShowTools, k1, k2, k3, k4, if_false, Option.map_some']
    exact ⟨_, _, rfl, rfl, rfl⟩

/-- C18 fails in the help view: `ctrl+c` leaves the session as it is, with
`Cancelled = false` and no quit command. -/
theorem ctrl_c_in_help_does_not_cancel :
    helpApp.state = stateHelp ∧ helpApp.Cancelled = false ∧
      Update sampleExt helpApp sampleDisk (Msg.KeyMsg keyCtrlC)
        = some ((helpApp, Cmd.nil), sampleDisk) :=
  ⟨rfl, rfl, ctrl_c_ignored_in_help sampleExt helpApp sampleDisk rfl⟩

/-- C17 fails: when `NewGlobal` fails, `New` continues with the zero-value store,
whose map is nil, and the directive `set ip=10.0.0.1` entered in that session
panics in `Global.Set` (assignment to an entry of a nil map). -/
theorem fallback_store_set_panics :
    fallbackApp.globals = zeroGlobal ∧ fallbackSetApp.state = stateSearch ∧
      Update sampleExt fallbackSetApp sampleDisk (Msg.KeyMsg keyEnter) = none ∧
      zeroGlobal.Set sampleExt.marshalIndent sampleDisk "ip".toList "10.0.0.1".toList = none := by
  refine ⟨rfl, rfl, ?_, rfl⟩
  decide

/-- C19, as stated, fails: after `esc` in the argument view of the sample session the
view is the search view but the placeholder list and its inputs are still there. -/
theorem esc_keeps_placeholders :
    sampleArgsApp.state = stateArgs ∧
      ∃ m1, Update sampleExt sampleArgsApp sampleDisk (Msg.KeyMsg keyEsc)
          = some ((m1, Cmd.nil), sampleDisk) ∧
        m1.state = stateSearch ∧ m1.args ≠ [] ∧ m1.argInputs ≠ [] :=
  ⟨rfl, { sampleArgsApp with state := stateSearch, searchInput := sampleArgsApp.searchInput.Focus },
    by decide, rfl, by decide, by decide⟩

/-- C19, amended: in the argument view, pressing `esc` returns to the search view with
the search input focused and issues no command; the placeholder list, its input
fields and every other part of the session are left as they were. -/
theorem esc_returns_to_search (ext : Ext) (m : App) (d : Disk) (h : m.state = stateArgs) :
    Update ext m d (Msg.KeyMsg keyEsc)
      = some (({ m with state := stateSearch, searchInput := m.searchInput.Focus }, Cmd.nil), d) := by
  have k : ¬ keyEsc = keyCtrlC := by decide
  rw [Update_key]
  simp only [h, updateArgs, k, if_false, if_true, Option.map_some']

/-- C19, amended, on the sample session in the argument view. -/
theorem esc_returns_to_search_witness :
    sampleArgsApp.state = stateArgs ∧
      Update sampleExt sampleArgsApp sampleDisk (Msg.KeyMsg keyEsc)
        = some (({ sampleArgsApp with
                    state := stateSearch, searchInput := sampleArgsApp.searchInput.Focus },
                 Cmd.nil), sampleDisk) :=
  ⟨rfl, esc_returns_to_search sampleExt sampleArgsApp sampleDisk rfl⟩

/-- C20: `moveCursorUp` from `cursor = 0` yields `cursor = -1`, the unselected
position, and from `cursor = -1` leaves it at `-1`; `moveCursorDown` from
`cursor = -1` on a non-empty filtered list yields `cursor = 0` with `offset = 0`.
The same holds for the keys `up` and `down` pressed in the search view. -/
theorem cursor_unselected_position (ext : Ext) (m : App) (d : Disk) :
    (m.cursor = 0 → (moveCursorUp m).cursor = -1) ∧
    (m.cursor = -1 → (moveCursorUp m).cursor = -1) ∧
    (m.cursor = -1 → m.filtered ≠ [] →
      (moveCursorDown ext m).cursor = 0 ∧ (moveCursorDown ext m).offset = 0) ∧
    (m.state = stateSearch → m.cursor = 0 →
      ∃ m1 cmd, Update ext m d (Msg.KeyMsg keyUp) = some ((m1, cmd), d) ∧ m1.cursor = -1) ∧
    (m.state = stateSearch → m.cursor = -1 → m.filtered ≠ [] →
      ∃ m1 cmd, Update ext m d (Msg.KeyMsg keyDown) = some ((m1, cmd), d) ∧
        m1.cursor = 0 ∧ m1.offset = 0) := by
  have hup0 : ∀ m : App, m.cursor = 0 → (moveCursorUp m).cursor = -1 := by
    intro m h
    simp [moveCursorUp, h]
  have hdown : ∀ m : App, m.cursor = -1 → m.filtered ≠ [] →
      (moveCursorDown ext m).cursor = 0 ∧ (moveCursorDown ext m).offset = 0 := by
    intro m h hne
    have hlen : m.filtered.length > 0 := List.length_pos.2 hne
    simp [moveCursorDown, h, hlen]
  refine ⟨hup0 m, ?_, hdown m, ?_, ?_⟩
  · intro h
    simp [moveCursorUp, h]
  · intro hs hc
    have k1 : ¬ (keyUp = keyCtrlC ∨ keyUp = keyEsc) := by decide
    have k2 : ¬ keyUp = keyHelp := by decide
    have k3 : ¬ keyUp = keyEnter := by decide
    rw [Update_key]
    simp only [hs, updateSearch, k1, k2, k3, if_false, true_or, if_true, searchInputUpdate]
    exact ⟨_, _, rfl, hup0 _ hc⟩
  · intro hs hc hne
    have k1 : ¬ (keyDown = keyCtrlC ∨ keyDown = keyEsc) := by decide
    have k2 : ¬ keyDown = keyHelp := by decide
    have k3 : ¬ keyDown = keyEnter := by decide
    have k4 : ¬ (keyDown = keyUp ∨ keyDown = keyCtrlP) := by decide
    rw [Update_key]
    simp only [hs, updateSearch, k1, k2, k3, k4, if_false, true_or, if_true, searchInputUpdate]
    exact ⟨_, _, rfl, hdown _ hc hne⟩

/-- C20 on the sample session: `up` from the first record unselects, and `down` from
the unselected position selects the first record. -/
theorem cursor_unselected_position_witness :
    sampleApp.cursor = 0 ∧ (moveCursorUp sampleApp).cursor = -1 ∧
    unselectedApp.cursor = -1 ∧ unselectedApp.filtered ≠ [] ∧
    (moveCursorUp unselectedApp).cursor = -1 ∧
    (moveCursorDown sampleExt unselectedApp).cursor = 0 ∧
    (moveCursorDown sampleExt unselectedApp).offset = 0 :=
  ⟨rfl, (cursor_unselected_position sampleExt sampleApp sampleDisk).1 rfl, rfl, by decide,
    (cursor_unselected_position sampleExt unselectedApp sampleDisk).2.1 rfl,
    (cursor_unselected_position sampleExt unselectedApp sampleDisk).2.2.1 rfl (by decide)⟩

/-! ### Focus movement in the argument view -/

theorem index_of_lt {α : Type} (l : List α) (i : Int) (h0 : 0 ≤ i) (h1 : i < l.length) :
    ∃ x, index l i = some x := by
  have hlt : i.toNat < l.length := by omega
  refine ⟨l[i.toNat], ?_⟩
  have hneg : ¬ i < 0 := by omega
  simp [index, hneg, hlt]

theorem assign_of_lt {α : Type} (l : List α) (i : Int) (x : α) (h0 : 0 ≤ i)
    (h1 : i < l.length) : assign l i x = some (l.set i.toNat x) := by
  have h : ¬ (i < 0 ∨ i ≥ l.length) := by omega
  simp [assign, h]

/-- With one input per argument and the focus on an argument, `nextArg` moves the
focus to `(c + 1) mod n` and keeps the arguments and the number of inputs. -/
theorem nextArg_step (m : App) (hin : m.argInputs.length = m.args.length)
    (hc0 : 0 ≤ m.argCursor) (hc1 : m.argCursor < m.args.length) :
    ∃ m1, nextArg m = some m1 ∧ m1.argCursor = (m.argCursor + 1) % (m.args.length : Int) ∧
      m1.args = m.args ∧ m1.argInputs.length = m.argInputs.length ∧
      m1.state = m.state ∧ m1.selectedCheat = m.selectedCheat := by
  have hn : (0 : Int) < m.args.length := by omega
  obtain ⟨ti, hti⟩ := index_of_lt m.argInputs m.argCursor hc0 (by omega)
  have ha := assign_of_lt m.argInputs m.argCursor ti.Blur hc0 (by omega)
  have hne : ¬ m.args.length = 0 := by omega
  have hmod : Int.tmod (m.argCursor + 1) m.args.length = (m.argCursor + 1) % (m.args.length : Int) :=
    Int.tmod_eq_emod (by omega) (by omega)
  have hc2 : 0 ≤ (m.argCursor + 1) % (m.args.length : Int) := Int.emod_nonneg _ (by omega)
  have hc3 : (m.argCursor + 1) % (m.args.length : Int) < m.args.length := Int.emod_lt_of_pos _ hn
  have hlen1 : (m.argInputs.set m.argCursor.toNat ti.Blur).length = m.args.length := by
    simp [hin]
  obtain ⟨ti2, hti2⟩ := index_of_lt (m.argInputs.set m.argCursor.toNat ti.Blur)
    ((m.argCursor + 1) % (m.args.length : Int)) hc2 (by omega)
  have ha2 := assign_of_lt (m.argInputs.set m.argCursor.toNat ti.Blur)
    ((m.argCursor + 1) % (m.args.length : Int)) ti2.Focus hc2 (by omega)
  refine ⟨{ m with
      argInputs := (m.argInputs.set m.argCursor.toNat ti.Blur).set
        ((m.argCursor + 1) % (m.args.length : Int)).toNat ti2.Focus,
      argCursor := (m.argCursor + 1) % (m.args.length : Int) }, ?_, rfl, rfl, ?_, rfl, rfl⟩
  · simp only [nextArg, hti, ha, hne, if_false, hmod, hti2, ha2]
  · simp

/-- With one input per argument and the focus on an argument, `prevArg` moves the
focus to `(c - 1 + n) mod n` and keeps the arguments and the number of inputs. -/
theorem prevArg_step (m : App) (hin : m.argInputs.length = m.args.length)
    (hc0 : 0 ≤ m.argCursor) (hc1 : m.argCursor < m.args.length) :
    ∃ m1, prevArg m = some m1 ∧
      m1.argCursor = (m.argCursor - 1 + m.args.length) % (m.args.length : Int) ∧
      m1.args = m.args ∧ m1.argInputs.length = m.argInputs.length ∧
      m1.state = m.state ∧ m1.selectedCheat = m.selectedCheat := by
  have hn : (0 : Int) < m.args.length := by omega
  obtain ⟨ti, hti⟩ := index_of_lt m.argInputs m.argCursor hc0 (by omega)
  have ha := assign_of_lt m.argInputs m.argCursor ti.Blur hc0 (by omega)
  have hlen1 : (m.argInputs.set m.argCursor.toNat ti.Blur).length = m.args.length := by
    simp [hin]
  by_cases hz : m.argCursor - 1 < 0
  · have hc : m.argCursor = 0 := by omega
    have hval : (m.argCursor - 1 + m.args.length) % (m.args.length : Int)
        = (m.args.length : Int) - 1 := by
      rw [hc]
      have : (0 - 1 + (m.args.length : Int)) = (m.args.length : Int) - 1 := by ring
      rw [this]
      exact Int.emod_eq_of_lt (by omega) (by omega)
    obtain ⟨ti2, hti2⟩ := index_of_lt (m.argInputs.set m.argCursor.toNat ti.Blur)
      ((m.args.length : Int) - 1) (by omega) (by omega)
    have ha2 := assign_of_lt (m.argInputs.set m.argCursor.toNat ti.Blur)
      ((m.args.length : Int) - 1) ti2.Focus (by omega) (by omega)
    refine ⟨{ m with
        argInputs := (m.argInputs.set m.argCursor.toNat ti.Blur).set
          ((m.args.length : Int) - 1).toNat ti2.Focus,
        argCursor := (m.args.length : Int) - 1 }, ?_, ?_, rfl, ?_, rfl, rfl⟩
    · simp only [prevArg, hti, ha, hz, if_true, hti2, ha2]
    · exact hval.symm
    · simp
  · have hval : (m.argCursor - 1 + m.args.length) % (m.args.length : Int) = m.argCursor - 1 := by
      rw [Int.add_emod_self]
      exact Int.emod_eq_of_lt (by omega) (by omega)
    obtain ⟨ti2, hti2⟩ := index_of_lt (m.argInputs.set m.argCursor.toNat ti.Blur)
      (m.argCursor - 1) (by omega) (by omega)
    have ha2 := assign_of_lt (m.argInputs.set m.argCursor.toNat ti.Blur)
      (m.argCursor - 1) ti2.Focus (by omega) (by omega)
    refine ⟨{ m with
        argInputs := (m.argInputs.set m.argCursor.toNat ti.Blur).set
          (m.argCursor - 1).toNat ti2.Focus,
        argCursor := m.argCursor - 1 }, ?_, ?_, rfl, ?_, rfl, rfl⟩
    · simp only [prevArg, hti, ha, hz, if_false, hti2, ha2]
    · exact hval.symm
    · simp

/-- After `k` applications of `nextArg` the focus is on `(c + k) mod n`. -/
theorem repeatStep_nextArg (k : Nat) (m : App) (hin : m.argInputs.length = m.args.length)
    (hc0 : 0 ≤ m.argCursor) (hc1 : m.argCursor < m.args.length) :
    ∃ mk, repeatStep nextArg k m = some mk ∧
      mk.argCursor = (m.argCursor + k) % (m.args.length : Int) ∧ mk.args = m.args := by
  induction k generalizing m with
  | zero =>
    refine ⟨m, rfl, ?_, rfl⟩
    simp only [Nat.cast_zero, add_zero]
    exact (Int.emod_eq_of_lt hc0 hc1).symm
  | succ k ih =>
    have hn : (0 : Int) < m.args.length := by omega
    obtain ⟨m1, h1, hcur, hargs, hlen, _, _⟩ := nextArg_step m hin hc0 hc1
    have hin1 : m1.argInputs.length = m1.args.length := by rw [hlen, hargs, hin]
    have hc01 : 0 ≤ m1.argCursor := by
      rw [hcur]
      exact Int.emod_nonneg _ (by omega)
    have hc11 : m1.argCursor < m1.args.length := by
      rw [hcur, hargs]
      exact Int.emod_lt_of_pos _ hn
    obtain ⟨mk, h2, hk, hka⟩ := ih m1 hin1 hc01 hc11
    refine ⟨mk, ?_, ?_, hka.trans hargs⟩
    · simp only [repeatStep, h1, h2]
    · rw [hk, hcur, hargs]
      have : (m.argCursor + ((k + 1 : Nat) : Int)) = (m.argCursor + 1) + (k : Int) := by
        push_cast
        ring
      rw [this, Int.emod_add_emod]

theorem emod_succ_pred (c n : Int) (h0 : 0 ≤ c) (h1 : c < n) :
    ((c + 1) % n - 1 + n) % n = c := by
  by_cases h : c + 1 < n
  · rw [Int.emod_eq_of_lt (by omega) h]
    have : c + 1 - 1 + n = c + n := by ring
    rw [this, Int.add_emod_self]
    exact Int.emod_eq_of_lt h0 h1
  · have hc : c + 1 = n := by omega
    rw [hc, Int.emod_self]
    have : (0 : Int) - 1 + n = n - 1 := by ring
    rw [this]
    rw [Int.emod_eq_of_lt (by omega) (by omega)]
    omega

theorem emod_pred_succ (c n : Int) (h0 : 0 ≤ c) (h1 : c < n) :
    ((c - 1 + n) % n + 1) % n = c := by
  by_cases h : c = 0
  · subst h
    have e1 : (0 : Int) - 1 + n = n - 1 := by ring
    have e2 : (n - 1) % n = n - 1 := Int.emod_eq_of_lt (by omega) (by omega)
    have e3 : n - 1 + 1 = n := by ring
    rw [e1, e2, e3, Int.emod_self]
  · have e2 : (c - 1) % n = c - 1 := Int.emod_eq_of_lt (by omega) (by omega)
    have e3 : c - 1 + 1 = c := by ring
    rw [Int.add_emod_self, e2, e3]
    exact Int.emod_eq_of_lt h0 h1

/-- C22: in the argument view, with one input per argument and the focus `c` on one of
the `n` arguments, `nextArg` sets `argCursor` to `(c + 1) mod n` and `prevArg` sets
it to `(c - 1 + n) mod n`; `prevArg` after `nextArg` and `nextArg` after `prevArg`
restore `c`, and `n` applications of `nextArg` return to `c`. -/
theorem arg_focus_cyclic (m : App) (hin : m.argInputs.length = m.args.length)
    (hc0 : 0 ≤ m.argCursor) (hc1 : m.argCursor < m.args.length) :
    (∃ m1, nextArg m = some m1 ∧
      m1.argCursor = (m.argCursor + 1) % (m.args.length : Int) ∧
      ∃ m2, prevArg m1 = some m2 ∧ m2.argCursor = m.argCursor) ∧
    (∃ m1, prevArg m = some m1 ∧
      m1.argCursor = (m.argCursor - 1 + m.args.length) % (m.args.length : Int) ∧
      ∃ m2, nextArg m1 = some m2 ∧ m2.argCursor = m.argCursor) ∧
    (∃ mk, repeatStep nextArg m.args.length m = some mk ∧ mk.argCursor = m.argCursor) := by
  have hn : (0 : Int) < m.args.length := by omega
  refine ⟨?_, ?_, ?_⟩
  · obtain ⟨m1, h1, hcur, hargs, hlen, _, _⟩ := nextArg_step m hin hc0 hc1
    have hc01 : 0 ≤ m1.argCursor := hcur ▸ Int.emod_nonneg _ (by omega)
    have hc11 : m1.argCursor < m1.args.length := by
      rw [hcur, hargs]
      exact Int.emod_lt_of_pos _ hn
    obtain ⟨m2, h2, hcur2, _⟩ := prevArg_step m1 (by rw [hlen, hargs, hin]) hc01 hc11
    refine ⟨m1, h1, hcur, m2, h2, ?_⟩
    rw [hcur2, hcur, hargs]
    exact emod_succ_pred _ _ hc0 hc1
  · obtain ⟨m1, h1, hcur, hargs, hlen, _, _⟩ := prevArg_step m hin hc0 hc1
    have hc01 : 0 ≤ m1.argCursor := hcur ▸ Int.emod_nonneg _ (by omega)
    have hc11 : m1.argCursor < m1.args.length := by
      rw [hcur, hargs]
      exact Int.emod_lt_of_pos _ hn
    obtain ⟨m2, h2, hcur2, _⟩ := nextArg_step m1 (by rw [hlen, hargs, hin]) hc01 hc11
    refine ⟨m1, h1, hcur, m2, h2, ?_⟩
    rw [hcur2, hcur, hargs]
    exact emod_pred_succ _ _ hc0 hc1
  · obtain ⟨mk, h1, hcur, _⟩ := repeatStep_nextArg m.args.length m hin hc0 hc1
    refine ⟨mk, h1, ?_⟩
    rw [hcur, Int.add_emod_self]
    exact Int.emod_eq_of_lt hc0 hc1

/-- C22 on a session with the two arguments `ip` and `port` and the focus on the
second: `nextArg` wraps to the first, `prevArg` moves to the first. -/
theorem arg_focus_cyclic_witness :
    twoArgsApp.argInputs.length = twoArgsApp.args.length ∧ twoArgsApp.argCursor = 1 ∧
    twoArgsApp.args.length = 2 ∧ (nextArg twoArgsApp).map (fun m => m.argCursor) = some 0 ∧
    ((∃ m1, nextArg twoArgsApp = some m1 ∧
      m1.argCursor = (twoArgsApp.argCursor + 1) % (twoArgsApp.args.length : Int) ∧
      ∃ m2, prevArg m1 = some m2 ∧ m2.argCursor = twoArgsApp.argCursor) ∧
    (∃ m1, prevArg twoArgsApp = some m1 ∧
      m1.argCursor
        = (twoArgsApp.argCursor - 1 + twoArgsApp.args.length) % (twoArgsApp.args.length : Int) ∧
      ∃ m2, nextArg m1 = some m2 ∧ m2.argCursor = twoArgsApp.argCursor) ∧
    (∃ mk, repeatStep nextArg twoArgsApp.args.length twoArgsApp = some mk ∧
      mk.argCursor = twoArgsApp.argCursor)) :=
  ⟨rfl, rfl, rfl, by decide, arg_focus_cyclic twoArgsApp rfl (by decide) (by decide)⟩

/-! ### The visible window of the search list -/

theorem maxVisibleItems_ge (ext : Ext) (m : App) : 3 ≤ maxVisibleItems ext m := by
  unfold maxVisibleItems minVisibleItems
  simp only
  split_ifs <;> omega

/-- `moveCursorDown` keeps the visible-window invariant, the height of the window
being independent of the offset. -/
theorem windowInv_moveCursorDown (ext : Ext) (m : App)
    (hV : ∀ (a : App) (o : Int), maxVisibleItems ext { a with offset := o } = maxVisibleItems ext a)
    (h : windowInv ext m) : windowInv ext (moveCursorDown ext m) := by
  obtain ⟨ho, hc⟩ := h
  unfold moveCursorDown
  by_cases h1 : m.cursor < 0
  · simp only [h1, if_true]
    by_cases h2 : m.filtered.length > 0
    · simp only [h2, if_true]
      have hv := maxVisibleItems_ge ext { m with cursor := 0, offset := 0 }
      refine ⟨le_refl _, Or.inr ⟨le_refl _, ?_, le_refl _, ?_⟩⟩
      · simp only
        omega
      · simp only
        omega
    · simp only [h2, if_false]
      exact ⟨ho, hc⟩
  · simp only [h1, if_false]
    have hc2 : 0 ≤ m.cursor ∧ m.cursor < m.filtered.length ∧ m.offset ≤ m.cursor ∧
        m.cursor < m.offset + maxVisibleItems ext m := by
      rcases hc with h | h
      · omega
      · exact h
    by_cases h2 : m.cursor < (m.filtered.length : Int) - 1
    · simp only [h2, if_true]
      have hv := maxVisibleItems_ge ext { m with cursor := m.cursor + 1 }
      by_cases h3 : m.cursor + 1 ≥ m.offset + maxVisibleItems ext { m with cursor := m.cursor + 1 }
      · simp only [h3, if_true]
        have hv2 := hV { m with cursor := m.cursor + 1 }
          (m.cursor + 1 - maxVisibleItems ext { m with cursor := m.cursor + 1 } + 1)
        simp only at hv2
        refine ⟨?_, Or.inr ⟨?_, ?_, ?_, ?_⟩⟩
        · simp only
          omega
        · simp only
          omega
        · simp only
          omega
        · simp only
          omega
        · simp only
          rw [hv2]
          omega
      · simp only [h3, if_false]
        refine ⟨ho, Or.inr ⟨?_, ?_, ?_, ?_⟩⟩
        · simp only
          omega
        · simp only
          omega
        · simp only
          omega
        · simp only
          omega
    · simp only [h2, if_false]
      exact ⟨ho, hc⟩

/-- `pageUp` keeps the visible-window invariant. -/
theorem windowInv_pageUp (ext : Ext) (m : App) (h : windowInv ext m) :
    windowInv ext (pageUp ext m) := by
  obtain ⟨ho, hc⟩ := h
  unfold pageUp
  by_cases h1 : m.cursor < 0
  · simp only [h1, if_true]
    exact ⟨ho, hc⟩
  · simp only [h1, if_false]
    have hc2 : 0 ≤ m.cursor ∧ m.cursor < m.filtered.length ∧ m.offset ≤ m.cursor ∧
        m.cursor < m.offset + maxVisibleItems ext m := by
      rcases hc with h | h
      · omega
      · exact h
    have hv0 := maxVisibleItems_ge ext m
    by_cases h2 : m.cursor - maxVisibleItems ext m < 0
    · simp only [h2, if_true]
      exact ⟨le_refl _, Or.inl rfl⟩
    · simp only [h2, if_false]
      have hv := maxVisibleItems_ge ext
        { m with cursor := m.cursor - maxVisibleItems ext m,
                 offset := m.cursor - maxVisibleItems ext m }
      refine ⟨?_, Or.inr ⟨?_, ?_, ?_, ?_⟩⟩
      · simp only
        omega
      · simp only
        omega
      · simp only
        omega
      · simp only
        omega
      · simp only
        omega

/-- `pageDown` keeps the visible-window invariant, the height of the window being
independent of the offset. -/
theorem windowInv_pageDown (ext : Ext) (m : App)
    (hV : ∀ (a : App) (o : Int), maxVisibleItems ext { a with offset := o } = maxVisibleItems ext a)
    (h : windowInv ext m) : windowInv ext (pageDown ext m) := by
  obtain ⟨ho, hc⟩ := h
  unfold pageDown
  by_cases h1 : m.cursor < 0
  · simp only [h1, if_true]
    by_cases h2 : m.filtered.length > 0
    · simp only [h2, if_true]
      have hv := maxVisibleItems_ge ext { m with cursor := 0, offset := 0 }
      refine ⟨le_refl _, Or.inr ⟨le_refl _, ?_, le_refl _, ?_⟩⟩
      · simp only
        omega
      · simp only
        omega
    · simp only [h2, if_false]
      exact ⟨ho, hc⟩
  · simp only [h1, if_false]
    have hc2 : 0 ≤ m.cursor ∧ m.cursor < m.filtered.length ∧ m.offset ≤ m.cursor ∧
        m.cursor < m.offset + maxVisibleItems ext m := by
      rcases hc with h | h
      · omega
      · exact h
    have hv0 := maxVisibleItems_ge ext m
    generalize hm2 : (if (m.cursor + maxVisibleItems ext m) ≥ (m.filtered.length : Int) then
        ({ m with cursor := (m.filtered.length : Int) - 1 } : App)
      else { m with cursor := m.cursor + maxVisibleItems ext m }) = m2
    have hm2c : m.cursor ≤ m2.cursor ∧ m2.cursor < m.filtered.length ∧ m2.offset = m.offset ∧
        m2.filtered = m.filtered := by
      rw [← hm2]
      split_ifs <;> refine ⟨?_, ?_, rfl, rfl⟩ <;> simp only <;> omega
    have hgoal : windowInv ext
        (if m2.cursor ≥ m2.offset + maxVisibleItems ext m2 then
          { m2 with offset := m2.cursor - maxVisibleItems ext m2 + 1 }
        else m2) := by
      have hv := maxVisibleItems_ge ext m2
      by_cases h3 : m2.cursor ≥ m2.offset + maxVisibleItems ext m2
      · simp only [h3, if_true]
        have hv2 := hV m2 (m2.cursor - maxVisibleItems ext m2 + 1)
        refine ⟨?_, Or.inr ⟨?_, ?_, ?_, ?_⟩⟩
        · simp only
          omega
        · simp only
          omega
        · simp only
          rw [hm2c.2.2.2]
          omega
        · simp only
          omega
        · simp only
          rw [hv2]
          omega
      · simp only [h3, if_false]
        refine ⟨by omega, Or.inr ⟨by omega, ?_, by omega, by omega⟩⟩
        rw [hm2c.2.2.2]
        omega
    simpa [hm2] using hgoal

/-- `moveCursorUp` keeps the visible-window invariant when the height of the window
is the same for every position of the cursor. -/
theorem windowInv_moveCursorUp (ext : Ext) (m : App)
    (hV : ∀ (a : App) (c o : Int),
      maxVisibleItems ext { a with cursor := c, offset := o } = maxVisibleItems ext a)
    (h : windowInv ext m) : windowInv ext (moveCursorUp m) := by
  obtain ⟨ho, hc⟩ := h
  unfold moveCursorUp
  by_cases h1 : m.cursor > 0
  · simp only [h1, if_true]
    have hc2 : 0 ≤ m.cursor ∧ m.cursor < m.filtered.length ∧ m.offset ≤ m.cursor ∧
        m.cursor < m.offset + maxVisibleItems ext m := by
      rcases hc with h | h
      · omega
      · exact h
    have hv0 := maxVisibleItems_ge ext m
    by_cases h2 : m.cursor - 1 < m.offset
    · simp only [h2, if_true]
      have hv2 := hV m (m.cursor - 1) (m.cursor - 1)
      refine ⟨?_, Or.inr ⟨?_, ?_, ?_, ?_⟩⟩
      · simp only
        omega
      · simp only
        omega
      · simp only
        omega
      · simp only
        omega
      · simp only
        simp only at hv2
        rw [hv2]
        omega
    · simp only [h2, if_false]
      have hv2 := hV m (m.cursor - 1) m.offset
      refine ⟨ho, Or.inr ⟨?_, ?_, ?_, ?_⟩⟩
      · simp only
        omega
      · simp only
        omega
      · simp only
        omega
      · simp only
        simp only at hv2
        rw [hv2]
        omega
  · simp only [h1, if_false]
    by_cases h2 : m.cursor = 0
    · simp only [h2, if_true]
      exact ⟨ho, Or.inl rfl⟩
    · simp only [h2, if_false]
      exact ⟨ho, hc⟩

/-- C21 fails for `moveCursorUp`: in a terminal of 22 rows over six records, `pgdown`
twice puts the cursor on the last record, at the bottom of a window of five rows
that starts at offset 1; the invariant holds. The record above has a description,
its info box is two rows higher and the window has three rows: after `up` the
cursor is on row 4 of a window that shows the rows 1 to 3. -/
theorem moveCursorUp_leaves_window :
    ∃ m d, run wrapExt toBottom
        (New sampleUnmarshal sixCheats (.ok "variables.json".toList) emptyDisk, emptyDisk)
        = some (m, d) ∧
      windowInv wrapExt m ∧ m.cursor = 5 ∧ m.offset = 1 ∧ maxVisibleItems wrapExt m = 5 ∧
      (moveCursorUp m).cursor = 4 ∧ (moveCursorUp m).offset = 1 ∧
      maxVisibleItems wrapExt (moveCursorUp m) = 3 ∧ ¬ windowInv wrapExt (moveCursorUp m) :=
  ⟨_, _, rfl, by decide, by decide, by decide, by decide, by decide, by decide, by decide,
    by decide⟩

/-! ### Trimming and lower-casing -/

theorem dropWhile_append_stop (p : Char → Bool) (l : Str) (a : Char) (ha : p a = false) :
    (l ++ [a]).dropWhile p = l.dropWhile p ++ [a] := by
  induction l with
  | nil => simp [List.dropWhile, ha]
  | cons x xs ih =>
    by_cases hx : p x = true
    · simp [List.dropWhile, hx, ih]
    · simp [List.dropWhile, hx]

theorem dropWhile_of_head (p : Char → Bool) (a : Char) (t : Str) (ha : p a = false) :
    (a :: t).dropWhile p = a :: t := by
  simp [List.dropWhile, ha]

theorem TrimSpace_idem (s : Str) : TrimSpace (TrimSpace s) = TrimSpace s := by
  unfold TrimSpace
  generalize hA : s.dropWhile IsSpace = A
  have hhead : A = [] ∨ ∃ a t, A = a :: t ∧ IsSpace a = false := by
    cases hcase : A with
    | nil => exact Or.inl rfl
    | cons a t =>
      right
      refine ⟨a, t, rfl, ?_⟩
      have := List.head_dropWhile_not IsSpace s (by rw [hA, hcase]; simp)
      simp only [hA, hcase, List.head_cons] at this
      simpa using this
  rcases hhead with h | ⟨a, t, h, ha⟩
  · subst h
    simp
  · subst h
    have h1 : ((a :: t).reverse.dropWhile IsSpace).reverse
        = a :: (t.reverse.dropWhile IsSpace).reverse := by
      rw [List.reverse_cons, dropWhile_append_stop _ _ _ ha]
      simp
    rw [h1, dropWhile_of_head _ _ _ ha, ← h1, List.reverse_reverse]
    rw [List.dropWhile_idempotent]

theorem TrimSpace_ToLower (lower : Char → Char) (hsp : ∀ c, IsSpace (lower c) = IsSpace c)
    (s : Str) : TrimSpace (loader.ToLower lower s) = loader.ToLower lower (TrimSpace s) := by
  have hcomp : (IsSpace ∘ lower) = IsSpace := funext hsp
  unfold TrimSpace loader.ToLower
  rw [List.dropWhile_map, hcomp, ← List.map_reverse, List.dropWhile_map, hcomp,
    ← List.map_reverse]

theorem IsSpace_toLower (c : Char) : IsSpace (Char.toLower c) = IsSpace c := by
  unfold Char.toLower
  simp only
  by_cases h : c.toNat ≥ 65 ∧ c.toNat ≤ 90
  · rw [if_pos h]
    have hc : IsSpace c = false := by
      unfold IsSpace
      simp only
      generalize c.toNat = n at h
      obtain ⟨h1, h2⟩ := h
      interval_cases n <;> rfl
    have hl : IsSpace (Char.ofNat (c.toNat + 32)) = false := by
      generalize c.toNat = n at h
      obtain ⟨h1, h2⟩ := h
      interval_cases n <;> rfl
    rw [hc, hl]
  · rw [if_neg h]

/-! ### Directives and ordinary queries -/

theorem not_handled_cases (ext : Ext) (m : App) (d : Disk) (q : Str)
    (h : (handleSpecialCommand ext m d q).map (fun r => r.1.1) = some false) :
    ¬ loader.ToLower ext.toLower (TrimSpace q) = "variables".toList ∧
    ¬ loader.ToLower ext.toLower (TrimSpace q) = "help".toList ∧
    ¬ loader.ToLower ext.toLower (TrimSpace q) = "tools".toList ∧
    ¬ HasPrefix (loader.ToLower ext.toLower (TrimSpace q)) "set ".toList = true ∧
    ¬ HasPrefix (loader.ToLower ext.toLower (TrimSpace q)) "unset ".toList = true := by
  have g1 : ¬ loader.ToLower ext.toLower (TrimSpace q) = "variables".toList := by
    intro e
    simp [handleSpecialCommand, e] at h
  have g2 : ¬ loader.ToLower ext.toLower (TrimSpace q) = "help".toList := by
    intro e
    simp [handleSpecialCommand, g1, e] at h
  have g3 : ¬ loader.ToLower ext.toLower (TrimSpace q) = "tools".toList := by
    intro e
    simp only [handleSpecialCommand, g1, g2, e, if_true, if_false, Option.map_map] at h
    generalize initToolsTable ext _ = X at h
    cases X <;> simp at h
  have g4 : ¬ HasPrefix (loader.ToLower ext.toLower (TrimSpace q)) "set ".toList = true := by
    intro e
    simp only [handleSpecialCommand, g1, g2, g3, e, if_true, if_false] at h
    cases hs : handleSetCommand ext m d (TrimSpace q) with
    | none => simp [hs] at h
    | some r =>
      have := handleSetCommand_handled ext m d _ r hs
      simp [hs, this] at h
  have g5 : ¬ HasPrefix (loader.ToLower ext.toLower (TrimSpace q)) "unset ".toList = true := by
    intro e
    simp only [handleSpecialCommand, g1, g2, g3, g4, e, if_true, if_false, Option.map_some',
      Bool.false_eq_true, handleUnsetCommand_handled] at h
    simp at h
  exact ⟨g1, g2, g3, g4, g5⟩

theorem updateFilter_ordinary (ext : Ext) (m : App)
    (h : isSpecialCommand ext m.searchInput.value = false) :
    updateFilter ext m
      = { m with filtered := loader.Search ext.toLower m.cheats m.searchInput.value,
                 cursor := -1, offset := 0 } := by
  simp [updateFilter, h]

/-- C24, as stated, fails on the bare keyword `set`: Enter does not dispatch it as a
directive, yet `isSpecialCommand` returns true for it and `updateFilter` leaves the
list as it is, here the whole catalog, where the search for `set` finds nothing. -/
theorem bare_set_not_filtered :
    handleSpecialCommand sampleExt bareSetApp sampleDisk (TrimSpace bareSetApp.searchInput.value)
      = some ((false, bareSetApp), sampleDisk) ∧
    isSpecialCommand sampleExt bareSetApp.searchInput.value = true ∧
    updateFilter sampleExt bareSetApp = bareSetApp ∧
    bareSetApp.filtered = [sampleCheat] ∧
    loader.Search sampleExt.toLower bareSetApp.cheats bareSetApp.searchInput.value = [] := by
  decide

/-- C24, amended: a query that Enter does not dispatch as a directive is special for
`isSpecialCommand` exactly when, trimmed and lower-cased, it is the bare keyword
`set` or `unset`; for every query that is not special, partial keywords included,
`updateFilter` sets `filtered` to `Search(cheats, query)` and clears the selection.
Lower-casing is taken to map white space to white space and nothing else to it. -/
theorem not_dispatched_query (ext : Ext) (m : App) (d : Disk)
    (hsp : ∀ c, IsSpace (ext.toLower c) = IsSpace c)
    (hnh : (handleSpecialCommand ext m d (TrimSpace m.searchInput.value)).map (fun r => r.1.1)
      = some false) :
    (isSpecialCommand ext m.searchInput.value = true ↔
      (loader.ToLower ext.toLower (TrimSpace m.searchInput.value) = cmdSet ∨
        loader.ToLower ext.toLower (TrimSpace m.searchInput.value) = cmdUnset)) ∧
    (isSpecialCommand ext m.searchInput.value = false →
      updateFilter ext m
        = { m with filtered := loader.Search ext.toLower m.cheats m.searchInput.value,
                   cursor := -1, offset := 0 }) := by
  refine ⟨?_, updateFilter_ordinary ext m⟩
  obtain ⟨g1, g2, g3, g4, g5⟩ := not_handled_cases ext m d _ hnh
  rw [TrimSpace_idem] at g1 g2 g3 g4 g5
  have g4b : ¬ HasPrefix (loader.ToLower ext.toLower (TrimSpace m.searchInput.value))
      (cmdSet ++ [' ']) = true := g4
  have g5b : ¬ HasPrefix (loader.ToLower ext.toLower (TrimSpace m.searchInput.value))
      (cmdUnset ++ [' ']) = true := g5
  simp only [isSpecialCommand, TrimSpace_ToLower ext.toLower hsp, Bool.or_eq_true,
    decide_eq_true_eq, g1, g2, g3, g4b, g5b, or_false, Bool.false_eq_true]

/-- C24, amended, on the partial keyword `se` typed over the sample catalog. -/
theorem not_dispatched_query_witness :
    (∀ c, IsSpace (sampleExt.toLower c) = IsSpace c) ∧
    (handleSpecialCommand sampleExt partialSetApp sampleDisk
        (TrimSpace partialSetApp.searchInput.value)).map (fun r => r.1.1) = some false ∧
    isSpecialCommand sampleExt partialSetApp.searchInput.value = false ∧
    ((isSpecialCommand sampleExt partialSetApp.searchInput.value = true ↔
      (loader.ToLower sampleExt.toLower (TrimSpace partialSetApp.searchInput.value) = cmdSet ∨
        loader.ToLower sampleExt.toLower (TrimSpace partialSetApp.searchInput.value)
          = cmdUnset)) ∧
    (isSpecialCommand sampleExt partialSetApp.searchInput.value = false →
      updateFilter sampleExt partialSetApp
        = { partialSetApp with
            filtered := loader.Search sampleExt.toLower partialSetApp.cheats
              partialSetApp.searchInput.value,
            cursor := -1, offset := 0 })) :=
  ⟨IsSpace_toLower, by decide, by decide,
    not_dispatched_query sampleExt partialSetApp sampleDisk IsSpace_toLower (by decide)⟩

/-! ### The directive `set` -/

theorem Get_of_Set (marshal : List (Str × Str) → Except Str Str) (g g1 : Global) (d d1 : Disk)
    (n v : Str) (err : Error) (h : g.Set marshal d n v = some (g1, d1, err)) :
    g1.Get n = (v, true) := by
  cases hv : g.vars with
  | none => simp [Global.Set, hv] at h
  | some l =>
    obtain ⟨g2, d2, err2, h2, _, _, hget, _⟩ := Set_then_Get marshal g d n v l hv
    rw [h2] at h
    simp only [Option.some.injEq, Prod.mk.injEq] at h
    rw [← h.1]
    exact hget

theorem SplitN2_of_sep (p0 p1 : Str) (sep : Char) (h : sep ∉ p0) :
    SplitN2 (p0 ++ sep :: p1) sep = [p0, p1] := by
  have hmem : sep ∈ p0 ++ sep :: p1 := by simp
  have hall : ∀ c ∈ p0, (fun c => c != sep) c = true := by
    intro c hc
    simp only [bne_iff_ne, ne_eq]
    exact fun e => h (e ▸ hc)
  have hsep : (fun c => c != sep) sep = false := by simp
  simp only [SplitN2, hmem, if_true]
  rw [takeWhile_stop p0 sep p1 hall hsep, dropWhile_stop p0 sep p1 hall hsep]
  rfl

theorem SplitN2_of_no_sep (s : Str) (sep : Char) (h : sep ∉ s) : SplitN2 s sep = [s] := by
  simp [SplitN2, h]

/-- A trimmed query that starts with the keyword `set` in any case and a space is
dispatched to `handleSetCommand` with the text behind the keyword. -/
theorem handleSpecialCommand_set (ext : Ext) (m : App) (d : Disk) (query kw rest : Str)
    (hq : TrimSpace query = kw ++ rest) (hkw : loader.ToLower ext.toLower kw = "set ".toList) :
    handleSpecialCommand ext m d (TrimSpace query) = handleSetCommand ext m d (kw ++ rest) ∧
      sliceFrom (kw ++ rest) 4 = rest := by
  have hlow : loader.ToLower ext.toLower (kw ++ rest)
      = "set ".toList ++ loader.ToLower ext.toLower rest := by
    rw [← hkw]
    simp [loader.ToLower]
  have hlen : kw.length = 4 := by
    have := congrArg List.length hkw
    simpa [loader.ToLower] using this
  have g1 : ¬ "set ".toList ++ loader.ToLower ext.toLower rest = "variables".toList := by
    intro e
    have := congrArg List.head? e
    simp at this
  have g2 : ¬ "set ".toList ++ loader.ToLower ext.toLower rest = "help".toList := by
    intro e
    have := congrArg List.head? e
    simp at this
  have g3 : ¬ "set ".toList ++ loader.ToLower ext.toLower rest = "tools".toList := by
    intro e
    have := congrArg List.head? e
    simp at this
  have g4 : HasPrefix ("set ".toList ++ loader.ToLower ext.toLower rest) "set ".toList = true := by
    unfold HasPrefix
    rw [List.isPrefixOf_iff_prefix]
    exact List.prefix_append _ _
  refine ⟨?_, ?_⟩
  · have hidem : TrimSpace (kw ++ rest) = kw ++ rest := by
      rw [← hq, TrimSpace_idem]
    simp only [handleSpecialCommand, hq, hidem, hlow, g1, g2, g3, g4, if_false, if_true]
  · unfold sliceFrom
    rw [← hlen]
    exact List.drop_left _ _

theorem initVarsTable_state (ext : Ext) (m : App) : (initVarsTable ext m).state = m.state := rfl

theorem handleSetCommand_state (ext : Ext) (m : App) (d : Disk) (q : Str)
    (r : (Bool × App) × Disk) (h : handleSetCommand ext m d q = some r) :
    r.1.2.state = m.state := by
  unfold handleSetCommand at h
  simp only at h
  split at h
  · split at h
    · split at h
      · simp at h
      · simp only [Option.some.injEq] at h
        subst h
        simp only
        split
        · rfl
        · split <;> rfl
    · simp only [Option.some.injEq] at h
      subst h
      rfl
  · simp only [Option.some.injEq] at h
    subst h
    rfl

/-- The directive `set` entered in the search view, the trimmed query being the
keyword `set` in any case, a space, and the text `rest`. When `rest` is
`<p0>=<p1>` with a non-empty trimmed name and value and the store returns from the
write, Enter stores the value under the name, clears the query and stays in the
search view; the status message is the confirmation when the write succeeded and
an error when persistence failed. When `rest` has no `=`, or the trimmed name or
value is empty, Enter leaves store and disk as they are and sets the usage error.
In every case the view remains the search view. -/
theorem set_directive (ext : Ext) (m : App) (d : Disk) (kw rest : Str)
    (hs : m.state = stateSearch) (hq : TrimSpace m.searchInput.value = kw ++ rest)
    (hkw : loader.ToLower ext.toLower kw = "set ".toList) (_hascii : byteLen kw = 4)
    (hclear : ext.tiSetValue m.searchInput.CharLimit [] = []) :
    (∀ p0 p1 g d1 err, rest = p0 ++ '=' :: p1 → '=' ∉ p0 →
      TrimSpace p0 ≠ [] → TrimSpace p1 ≠ [] →
      m.globals.Set ext.marshalIndent d (TrimSpace p0) (TrimSpace p1) = some (g, d1, err) →
      ∃ m1, Update ext m d (Msg.KeyMsg keyEnter) = some ((m1, Cmd.nil), d1) ∧
        m1.state = stateSearch ∧ m1.globals = g ∧
        g.Get (TrimSpace p0) = (TrimSpace p1, true) ∧ m1.searchInput.value = [] ∧
        (err = none → m1.statusIsError = false ∧
          m1.statusMsg = "✓ Set ".toList ++ TrimSpace p0 ++ " = ".toList ++ TrimSpace p1) ∧
        (∀ e, err = some e → m1.statusIsError = true ∧
          m1.statusMsg = "✗ Failed to save variable: ".toList ++ e)) ∧
    (('=' ∉ rest ∨ ∃ p0 p1, rest = p0 ++ '=' :: p1 ∧ '=' ∉ p0 ∧
        (TrimSpace p0 = [] ∨ TrimSpace p1 = [])) →
      Update ext m d (Msg.KeyMsg keyEnter)
        = some (({ m with statusMsg := "✗ Usage: set name=value".toList,
                          statusIsError := true }, Cmd.nil), d)) ∧
    (∀ m1 c d1, Update ext m d (Msg.KeyMsg keyEnter) = some ((m1, c), d1) →
      m1.state = stateSearch ∧ c = Cmd.nil) := by
  have hdisp := handleSpecialCommand_set ext
    { m with statusMsg := [], statusIsError := false } d m.searchInput.value kw rest hq hkw
  obtain ⟨hd1, hd2⟩ := hdisp
  have hU : Update ext m d (Msg.KeyMsg keyEnter)
      = (handleSetCommand ext { m with statusMsg := [], statusIsError := false } d
          (kw ++ rest)).map (fun r => ((r.1.2, Cmd.nil), r.2)) := by
    rw [Update_search_enter ext m d hs]
    unfold handleEnter
    simp only
    rw [hd1]
    cases hh : handleSetCommand ext { m with statusMsg := [], statusIsError := false } d
        (kw ++ rest) with
    | none => rfl
    | some r =>
      have := handleSetCommand_handled ext _ d _ r hh
      obtain ⟨⟨b, m1⟩, d1⟩ := r
      simp only at this
      subst this
      simp
  refine ⟨?_, ?_, ?_⟩
  · intro p0 p1 g d1 err hrest hp0 hn hv hset
    have hget := Get_of_Set ext.marshalIndent m.globals g d d1 _ _ err hset
    have hsplit : SplitN2 rest '=' = [p0, p1] := by
      rw [hrest]
      exact SplitN2_of_sep p0 p1 '=' hp0
    have hnv : TrimSpace p0 ≠ [] ∧ TrimSpace p1 ≠ [] := ⟨hn, hv⟩
    have hss : ¬ (stateSearch = stateShowVars) := by decide
    cases err with
    | none =>
      refine ⟨{ m with globals := g,
                       statusMsg := "✓ Set ".toList ++ TrimSpace p0 ++ " = ".toList ++ TrimSpace p1,
                       statusIsError := false,
                       searchInput := m.searchInput.SetValue ext [], filtered := m.cheats },
        ?_, hs, rfl, hget, hclear, fun _ => ⟨rfl, rfl⟩, fun e he => by cases he⟩
      rw [hU]
      simp only [handleSetCommand, hd2, hsplit, if_pos hnv, hset, hs, hss, if_false,
        Option.map_some']
    | some e =>
      refine ⟨{ m with globals := g,
                       statusMsg := "✗ Failed to save variable: ".toList ++ e,
                       statusIsError := true,
                       searchInput := m.searchInput.SetValue ext [], filtered := m.cheats },
        ?_, hs, rfl, hget, hclear, (fun h => Option.noConfusion h), fun e2 he => ?_⟩
      · rw [hU]
        simp only [handleSetCommand, hd2, hsplit, if_pos hnv, hset, Option.map_some']
      · injection he with he
        subst he
        exact ⟨rfl, rfl⟩
  · intro hbad
    rw [hU]
    rcases hbad with h | ⟨p0, p1, hrest, hp0, hempty⟩
    · simp only [handleSetCommand, hd2, SplitN2_of_no_sep rest '=' h, Option.map_some']
    · have hsplit : SplitN2 rest '=' = [p0, p1] := by
        rw [hrest]
        exact SplitN2_of_sep p0 p1 '=' hp0
      have hnv : ¬ (TrimSpace p0 ≠ [] ∧ TrimSpace p1 ≠ []) := by
        rintro ⟨h1, h2⟩
        rcases hempty with h | h
        · exact h1 h
        · exact h2 h
      simp only [handleSetCommand, hd2, hsplit, if_neg hnv, Option.map_some']
  · intro m1 c d1 h
    rw [hU] at h
    cases hh : handleSetCommand ext { m with statusMsg := [], statusIsError := false } d
        (kw ++ rest) with
    | none => simp [hh] at h
    | some r =>
      have hst := handleSetCommand_state ext _ d _ r hh
      simp only [hh, Option.map_some', Option.some.injEq, Prod.mk.injEq] at h
      obtain ⟨⟨h1, h2⟩, _⟩ := h
      exact ⟨by rw [← h1, hst]; exact hs, h2.symm⟩

/-- The query `SET ip = 10.0.0.1` typed with surrounding blanks over the sample
session: Enter stores `ip = 10.0.0.1`, confirms and clears the query. -/
theorem set_directive_witness :
    setApp.state = stateSearch ∧
    TrimSpace setApp.searchInput.value = "SET ".toList ++ "ip = 10.0.0.1".toList ∧
    loader.ToLower sampleExt.toLower "SET ".toList = "set ".toList ∧
    byteLen "SET ".toList = 4 ∧
    sampleExt.tiSetValue setApp.searchInput.CharLimit [] = [] ∧
    setApp.globals.Set sampleExt.marshalIndent sampleDisk "ip".toList "10.0.0.1".toList
      = some (sampleStore, { sampleDisk with file := some [] }, none) ∧
    ∃ m1, Update sampleExt setApp sampleDisk (Msg.KeyMsg keyEnter)
        = some ((m1, Cmd.nil), { sampleDisk with file := some [] }) ∧
      m1.state = stateSearch ∧ m1.globals = sampleStore ∧
      sampleStore.Get "ip".toList = ("10.0.0.1".toList, true) ∧ m1.searchInput.value = [] ∧
      ((none : Error) = none → m1.statusIsError = false ∧
        m1.statusMsg = "✓ Set ip = 10.0.0.1".toList) ∧
      (∀ e, (none : Error) = some e → m1.statusIsError = true ∧
        m1.statusMsg = "✗ Failed to save variable: ".toList ++ e) :=
  ⟨rfl, by decide, by decide, by decide, by decide, by decide,
    (set_directive sampleExt setApp sampleDisk "SET ".toList "ip = 10.0.0.1".toList rfl
      (by decide) (by decide) (by decide) (by decide)).1 "ip ".toList " 10.0.0.1".toList
      sampleStore { sampleDisk with file := some [] } none (by decide) (by decide) (by decide)
      (by decide) (by decide)⟩

/-! ### The tokenizer -/

theorem flatten_flush (tokens : List Str) (current : Str) :
    (flush tokens current).flatten = tokens.flatten ++ current := by
  unfold flush
  cases current with
  | nil => simp
  | cons c cs => simp

/-- On a line without two-rune operators the tokens of the loop, concatenated, are
the tokens so far, the token being read and the rest of the line. -/
theorem tokenizeLoop_flatten (rest : Str) (prev : Option Char) (tokens : List Str)
    (current : Str) (inQuote : Char) (inBraces : Nat) (h : noDoubleOperator rest = true) :
    (tokenizeLoop prev tokens current inQuote inBraces rest).flatten
      = tokens.flatten ++ current ++ rest := by
  induction rest generalizing prev tokens current inQuote inBraces with
  | nil => simp [tokenizeLoop, flatten_flush]
  | cons char rest ih =>
    have hrest : noDoubleOperator rest = true := by
      cases rest with
      | nil => rfl
      | cons b r =>
        simp only [noDoubleOperator, Bool.and_eq_true] at h
        exact h.2
    unfold tokenizeLoop
    simp only
    split_ifs
    · rw [ih _ _ _ _ _ hrest]
      simp
    · rw [ih _ _ _ _ _ hrest]
      simp
    · rw [ih _ _ _ _ _ hrest]
      simp
    · rw [ih _ _ _ _ _ hrest]
      simp
    · rw [ih _ _ _ _ _ hrest]
      simp
    · rw [ih _ _ _ _ _ hrest]
      simp [flatten_flush]
    · rw [ih _ _ _ _ _ hrest]
      simp [flatten_flush]
    · rw [ih _ _ _ _ _ hrest]
      simp [flatten_flush]
    · cases rest with
      | nil =>
        simp only
        rw [ih _ _ _ _ _ hrest]
        simp [flatten_flush]
      | cons next r =>
        have hnd : ¬ ((char = '>' ∧ next = '>') ∨ (char = '&' ∧ next = '&')
            ∨ (char = bar ∧ next = bar)) := by
          simp only [noDoubleOperator, Bool.and_eq_true, Bool.not_eq_true',
            decide_eq_false_iff_not] at h
          exact h.1
        simp only [hnd, if_false]
        rw [ih _ _ _ _ _ hrest]
        simp [flatten_flush]
    · rw [ih _ _ _ _ _ hrest]
      simp

/-- The tokenizer is lossless on every line without the operators `>>`, `&&`, `||`. -/
theorem tokenize_lossless_of_noDoubleOperator (line : Str) (h : noDoubleOperator line = true) :
    (tokenize line).flatten = line := by
  unfold tokenize
  rw [tokenizeLoop_flatten line none [] [] noQuote 0 h]
  simp

/-- C26 fails on the line `cat a >> b`: the tokenizer emits the token `>>` at the first
`>` and then reads the second `>` again, so that the tokens concatenate to
`cat a >>> b`. -/
theorem tokenize_duplicates_operator :
    tokenize appendLine
      = ["cat".toList, " ".toList, "a".toList, " ".toList, ">>".toList, ">".toList, " ".toList,
          "b".toList] ∧
    (tokenize appendLine).flatten = "cat a >>> b".toList ∧
    (tokenize appendLine).flatten ≠ appendLine ∧
    (tokenize "a && b".toList).flatten = "a &&& b".toList ∧
    (tokenize "a || b".toList).flatten = "a ||| b".toList := by
  decide

/-! ### The tools of the catalog -/

theorem getElem?_middle {α : Type} (pre : List α) (a : α) (post : List α) :
    (pre ++ a :: post)[pre.length]? = some a := by
  induction pre with
  | nil => simp
  | cons x xs ih => simpa using ih

theorem set_middle {α : Type} (pre : List α) (a b : α) (post : List α) :
    (pre ++ a :: post).set pre.length b = pre ++ b :: post := by
  simp

theorem swapIfGreater_middle (pre done todo : List ToolInfo) (a b : ToolInfo) :
    swapIfGreater (pre ++ a :: (done ++ b :: todo)) pre.length (pre.length + 1 + done.length)
      = if b.Name < a.Name then pre ++ b :: (done ++ a :: todo)
        else pre ++ a :: (done ++ b :: todo) := by
  have e1 : (pre ++ a :: (done ++ b :: todo))[pre.length]? = some a := getElem?_middle _ _ _
  have e2 : (pre ++ a :: (done ++ b :: todo))[pre.length + 1 + done.length]? = some b := by
    have : pre ++ a :: (done ++ b :: todo) = (pre ++ a :: done) ++ b :: todo := by simp
    rw [this]
    have hl : pre.length + 1 + done.length = (pre ++ a :: done).length := by simp; omega
    rw [hl]
    exact getElem?_middle _ _ _
  unfold swapIfGreater
  rw [e1, e2]
  simp only
  split_ifs with h
  · rw [set_middle]
    have : pre ++ b :: (done ++ b :: todo) = (pre ++ b :: done) ++ b :: todo := by simp
    rw [this]
    have hl : pre.length + 1 + done.length = (pre ++ b :: done).length := by simp; omega
    rw [hl, set_middle]
    simp
  · rfl

theorem sortInner_minPass (todo : List ToolInfo) (pre done : List ToolInfo) (a : ToolInfo)
    (fuel : Nat) (hf : todo.length ≤ fuel) :
    sortInner pre.length fuel (pre.length + 1 + done.length) (pre ++ a :: (done ++ todo))
      = pre ++ (minPass a todo).1 :: (done ++ (minPass a todo).2) := by
  induction todo generalizing a done fuel with
  | nil =>
    cases fuel with
    | zero => simp [sortInner, minPass]
    | succ f =>
      have : ¬ pre.length + 1 + done.length < (pre ++ a :: (done ++ [])).length := by
        simp
        omega
      simp only [sortInner, this, if_false, minPass]
  | cons b t ih =>
    cases fuel with
    | zero => simp at hf
    | succ f =>
      have hlt : pre.length + 1 + done.length < (pre ++ a :: (done ++ b :: t)).length := by
        simp
        omega
      have hf2 : t.length ≤ f := by
        simp only [List.length_cons] at hf
        omega
      simp only [sortInner, hlt, if_true]
      rw [swapIfGreater_middle]
      have hidx : pre.length + 1 + done.length + 1 = pre.length + 1 + (done ++ [a]).length := by
        simp
        omega
      by_cases h : b.Name < a.Name
      · simp only [h, if_true, minPass]
        have e : pre ++ b :: (done ++ a :: t) = pre ++ b :: ((done ++ [a]) ++ t) := by simp
        rw [e, hidx, ih (done ++ [a]) b f hf2]
        simp
      · simp only [h, if_false, minPass]
        have e : pre ++ a :: (done ++ b :: t) = pre ++ a :: ((done ++ [b]) ++ t) := by simp
        have hidx2 : pre.length + 1 + done.length + 1 = pre.length + 1 + (done ++ [b]).length := by
          simp
          omega
        rw [e, hidx2, ih (done ++ [b]) a f hf2]
        simp

theorem minPass_length (todo : List ToolInfo) (a : ToolInfo) :
    (minPass a todo).2.length = todo.length := by
  induction todo generalizing a with
  | nil => rfl
  | cons b t ih =>
    simp only [minPass]
    split_ifs <;> simp [ih]

theorem minPass_perm (todo : List ToolInfo) (a : ToolInfo) :
    ((minPass a todo).1 :: (minPass a todo).2).Perm (a :: todo) := by
  induction todo generalizing a with
  | nil => exact List.Perm.refl _
  | cons b t ih =>
    simp only [minPass]
    split_ifs
    · exact (List.Perm.swap _ _ _).trans ((ih b).cons a)
    · exact ((List.Perm.swap _ _ _).trans ((ih a).cons b)).trans (List.Perm.swap _ _ _)

theorem minPass_le_start (todo : List ToolInfo) (a : ToolInfo) :
    ¬ a.Name < (minPass a todo).1.Name := by
  induction todo generalizing a with
  | nil => exact lt_irrefl _
  | cons b t ih =>
    simp only [minPass]
    split_ifs with h
    · intro h2
      exact ih b (lt_trans h h2)
    · exact ih a

theorem minPass_min (todo : List ToolInfo) (a : ToolInfo) :
    ∀ x ∈ (minPass a todo).2, ¬ x.Name < (minPass a todo).1.Name := by
  induction todo generalizing a with
  | nil => simp [minPass]
  | cons b t ih =>
    simp only [minPass]
    split_ifs with h
    · intro x hx
      rcases List.mem_cons.1 hx with h1 | h1
      · subst h1
        intro h2
        exact minPass_le_start t b (lt_trans h h2)
      · exact ih b x h1
    · intro x hx
      rcases List.mem_cons.1 hx with h1 | h1
      · subst h1
        intro h2
        exact h (lt_of_lt_of_le h2 (not_lt.1 (minPass_le_start t a)))
      · exact ih a x h1

/-- The sorting loops of `getToolInfoList`, started at position `pre.length` with
enough iterations left, leave the tools before that position in place and put the
others in ascending order of name. -/
theorem sortOuter_sorted (n : Nat) (l pre : List ToolInfo) (fuel : Nat) (hn : l.length = n)
    (hf : l.length ≤ fuel + 1) :
    ∃ s, sortOuter fuel pre.length (pre ++ l) = pre ++ s ∧ s.Perm l ∧
      s.Pairwise (fun x y => ¬ y.Name < x.Name) := by
  induction n generalizing l pre fuel with
  | zero =>
    have hl : l = [] := List.length_eq_zero.1 hn
    subst hl
    refine ⟨[], ?_, List.Perm.refl _, List.Pairwise.nil⟩
    cases fuel with
    | zero => rfl
    | succ f => simp [sortOuter]
  | succ k ih =>
    cases l with
    | nil => simp at hn
    | cons a rest =>
      cases rest with
      | nil =>
        refine ⟨[a], ?_, List.Perm.refl _, List.pairwise_singleton _ _⟩
        cases fuel with
        | zero => rfl
        | succ f => simp [sortOuter]
      | cons b t =>
        cases fuel with
        | zero => simp at hf
        | succ f =>
          have hcond : pre.length + 1 < (pre ++ a :: b :: t).length := by
            simp
          have hin := sortInner_minPass (b :: t) pre [] a (pre ++ a :: b :: t).length
            (by simp; omega)
          simp only [List.length_nil, Nat.add_zero, List.nil_append] at hin
          have hlen := minPass_length (b :: t) a
          have hperm := minPass_perm (b :: t) a
          have hmin := minPass_min (b :: t) a
          generalize minPass a (b :: t) = r at hin hlen hperm hmin
          obtain ⟨m, r2⟩ := r
          simp only at hin hlen hperm hmin
          have hk : r2.length = k := by
            rw [hlen]
            simpa using hn
          obtain ⟨s1, hs1, hp1, hsorted⟩ := ih r2 (pre ++ [m]) f hk (by
            rw [hlen]
            simp only [List.length_cons] at hf ⊢
            omega)
          refine ⟨m :: s1, ?_, (hp1.cons m).trans hperm, ?_⟩
          · simp only [sortOuter, hcond, if_true]
            rw [hin]
            have e1 : pre ++ m :: r2 = (pre ++ [m]) ++ r2 := by simp
            have e2 : pre.length + 1 = (pre ++ [m]).length := by simp
            rw [e1, e2, hs1]
            simp
          · refine List.Pairwise.cons ?_ hsorted
            intro x hx
            exact hmin x (hp1.mem_iff.1 hx)

theorem lookup_cons_eq {β : Type} (k : Str) (v : β) (rest : List (Str × β)) :
    ((k, v) :: rest).lookup k = some v := by
  simp [List.lookup]

theorem lookup_cons_ne {β : Type} (k a : Str) (v : β) (rest : List (Str × β)) (h : k ≠ a) :
    ((a, v) :: rest).lookup k = rest.lookup k := by
  have : (k == a) = false := by simpa using h
  simp [List.lookup, this]

theorem lookup_isSome_iff {β : Type} (l : List (Str × β)) (k : Str) :
    (l.lookup k).isSome = true ↔ k ∈ l.map Prod.fst := by
  induction l with
  | nil => simp [List.lookup]
  | cons p rest ih =>
    cases p with
    | mk a v =>
      by_cases h : k = a
      · subst h
        rw [lookup_cons_eq]
        exact ⟨fun _ => List.mem_map.2 ⟨(k, v), List.mem_cons_self _ _, rfl⟩, fun _ => rfl⟩
      · rw [lookup_cons_ne k a v rest h, ih, List.map_cons]
        constructor
        · intro hm
          exact List.mem_cons_of_mem _ hm
        · intro hm
          rcases List.mem_cons.1 hm with e | e
          · exact absurd e h
          · exact e

theorem lookup_of_mem_nodup {β : Type} (l : List (Str × β)) (hnd : (l.map Prod.fst).Nodup)
    (k : Str) (v : β) (h : (k, v) ∈ l) : l.lookup k = some v := by
  induction l with
  | nil => simp at h
  | cons p rest ih =>
    cases p with
    | mk a b =>
      simp only [List.map_cons, List.nodup_cons] at hnd
      rcases List.mem_cons.1 h with h1 | h1
      · injection h1 with h2 h3
        subst h2 h3
        exact lookup_cons_eq _ _ _
      · have hne : k ≠ a := by
          intro e
          apply hnd.1
          rw [← e]
          exact List.mem_map.2 ⟨(k, v), h1, rfl⟩
        rw [lookup_cons_ne k a b rest hne]
        exact ih hnd.2 h1

theorem mem_of_lookup {β : Type} (l : List (Str × β)) (k : Str) (v : β)
    (h : l.lookup k = some v) : (k, v) ∈ l := by
  induction l with
  | nil => simp [List.lookup] at h
  | cons p rest ih =>
    cases p with
    | mk a b =>
      by_cases hk : k = a
      · subst hk
        rw [lookup_cons_eq] at h
        injection h with h
        subst h
        exact List.mem_cons.2 (Or.inl rfl)
      · rw [lookup_cons_ne k a b rest hk] at h
        exact List.mem_cons.2 (Or.inr (ih h))

theorem lookup_increment (l : List (Str × Nat)) (t k : Str) :
    (l.map (fun p => if p.1 = t then (p.1, p.2 + 1) else p)).lookup k
      = (l.lookup k).map (fun v => if k = t then v + 1 else v) := by
  induction l with
  | nil => simp [List.lookup]
  | cons p rest ih =>
    cases p with
    | mk a v =>
      rw [List.map_cons]
      by_cases hk : k = a
      · subst hk
        by_cases ht : k = t
        · rw [if_pos (show (k, v).1 = t from ht)]
          simp only [lookup_cons_eq, Option.map_some', ht, if_true]
        · rw [if_neg (show ¬ (k, v).1 = t from ht)]
          simp only [lookup_cons_eq, Option.map_some', ht, if_false]
      · by_cases ht : a = t
        · rw [if_pos (show (a, v).1 = t from ht)]
          simp only
          rw [lookup_cons_ne k a _ _ hk, lookup_cons_ne k a _ _ hk, ih]
        · rw [if_neg (show ¬ (a, v).1 = t from ht)]
          rw [lookup_cons_ne k a _ _ hk, lookup_cons_ne k a _ _ hk, ih]

theorem lookup_append_one (l : List (Str × Nat)) (t k : Str) (v : Nat) :
    (l ++ [(t, v)]).lookup k
      = match l.lookup k with
        | some x => some x
        | none => if k = t then some v else none := by
  induction l with
  | nil =>
    by_cases h : k = t
    · subst h
      simp [lookup_cons_eq]
    · have hb : (k == t) = false := by simpa using h
      simp [h, hb, List.lookup]
  | cons p rest ih =>
    cases p with
    | mk a b =>
      by_cases hk : k = a
      · subst hk
        simp [lookup_cons_eq]
      · rw [List.cons_append, lookup_cons_ne k a b _ hk, lookup_cons_ne k a b _ hk, ih]

/-- The statement `toolMap[tool]++`: the count of `tool` grows by one, from zero when
the tool is new, and every other count stays. -/
theorem lookup_countTool (l : List (Str × Nat)) (t k : Str) :
    (countTool l t).lookup k
      = if k = t then some ((l.lookup t).getD 0 + 1) else l.lookup k := by
  unfold countTool
  cases hl : l.lookup t with
  | some v =>
    simp only [Option.isSome_some, if_true, Option.getD_some]
    rw [lookup_increment]
    by_cases hk : k = t
    · subst hk
      simp [hl]
    · simp only [hk, if_false]
      cases l.lookup k <;> rfl
  | none =>
    simp only [Option.isSome_none, Bool.false_eq_true, if_false, Option.getD_none]
    rw [lookup_append_one]
    by_cases hk : k = t
    · subst hk
      simp [hl]
    · simp only [hk, if_false]
      cases l.lookup k <;> rfl

theorem keys_countTool (l : List (Str × Nat)) (t : Str) (hnd : (l.map Prod.fst).Nodup) :
    ((countTool l t).map Prod.fst).Nodup := by
  unfold countTool
  cases hl : l.lookup t with
  | some v =>
    simp only [Option.isSome_some, if_true]
    have : (l.map (fun p => if p.1 = t then (p.1, p.2 + 1) else p)).map Prod.fst
        = l.map Prod.fst := by
      rw [List.map_map]
      apply List.map_congr_left
      intro p _
      simp only [Function.comp]
      split_ifs <;> rfl
    rw [this]
    exact hnd
  | none =>
    simp only [Option.isSome_none, Bool.false_eq_true, if_false, List.map_append, List.map_cons,
      List.map_nil]
    have hnot : t ∉ l.map Prod.fst := by
      intro hmem
      have := (lookup_isSome_iff l t).2 hmem
      rw [hl] at this
      cases this
    rw [List.nodup_append]
    refine ⟨hnd, List.nodup_singleton _, ?_⟩
    intro x hx hy
    simp only [List.mem_singleton] at hy
    subst hy
    exact hnot hx

theorem keys_countTools (cheats : List Cheat) (l : List (Str × Nat))
    (hnd : (l.map Prod.fst).Nodup) : ((countTools l cheats).map Prod.fst).Nodup := by
  induction cheats generalizing l with
  | nil => exact hnd
  | cons c rest ih =>
    simp only [countTools]
    split_ifs
    · exact ih _ (keys_countTool l c.Tool hnd)
    · exact ih l hnd

/-- The counting loop of `getToolInfoList`: the count of a named tool grows by the
number of cheats of that tool; a tool without cheats keeps its entry, or none. -/
theorem lookup_countTools (cheats : List Cheat) (l : List (Str × Nat)) (k : Str) (hk : k ≠ []) :
    (countTools l cheats).lookup k
      = if (cheats.filter (fun c => decide (c.Tool = k))).length = 0 then l.lookup k
        else some ((l.lookup k).getD 0 + (cheats.filter (fun c => decide (c.Tool = k))).length) := by
  induction cheats generalizing l with
  | nil => simp [countTools]
  | cons c rest ih =>
    simp only [countTools]
    by_cases hc : c.Tool = k
    · have hne : c.Tool ≠ [] := hc ▸ hk
      have hf : (List.filter (fun c => decide (c.Tool = k)) (c :: rest)).length
          = (List.filter (fun c => decide (c.Tool = k)) rest).length + 1 := by
        simp [List.filter, hc]
      rw [if_pos hne, ih, lookup_countTool, hf, hc]
      simp only [if_true, Option.getD_some, Nat.add_one_ne_zero, if_false]
      split_ifs with h0
      · rw [h0]
      · congr 1
        omega
    · have hf : (List.filter (fun c => decide (c.Tool = k)) (c :: rest)).length
          = (List.filter (fun c => decide (c.Tool = k)) rest).length := by
        simp [List.filter, hc]
      rw [hf]
      by_cases hne : c.Tool ≠ []
      · rw [if_pos hne, ih, lookup_countTool]
        have : ¬ k = c.Tool := fun e => hc e.symm
        simp only [this, if_false]
      · rw [if_neg hne]
        exact ih l

theorem lookup_countTools_nil (cheats : List Cheat) (l : List (Str × Nat)) :
    (countTools l cheats).lookup [] = l.lookup [] := by
  induction cheats generalizing l with
  | nil => rfl
  | cons c rest ih =>
    simp only [countTools]
    split_ifs with hne
    · rw [ih, lookup_countTool]
      have : ¬ ([] : Str) = c.Tool := fun e => hne e.symm
      simp only [this, if_false]
    · exact ih l

/-- The entries of the count map of a catalog: a pair `(n, k)` is an entry exactly when
`n` is the non-empty tool name of `k ≥ 1` cheats. -/
theorem mem_countTools (cheats : List Cheat) (n : Str) (k : Nat) :
    (n, k) ∈ countTools [] cheats ↔
      n ≠ [] ∧ k ≠ 0 ∧ k = (cheats.filter (fun c => decide (c.Tool = n))).length := by
  have hnd := keys_countTools cheats [] List.nodup_nil
  constructor
  · intro h
    have hl := lookup_of_mem_nodup _ hnd n k h
    have hne : n ≠ [] := by
      intro e
      subst e
      rw [lookup_countTools_nil] at hl
      simp [List.lookup] at hl
    rw [lookup_countTools cheats [] n hne] at hl
    split_ifs at hl with h0
    · simp [List.lookup] at hl
    · simp only [List.lookup, Option.getD_none, Nat.zero_add, Option.some.injEq] at hl
      exact ⟨hne, hl ▸ h0, hl.symm⟩
  · rintro ⟨hne, hk0, hk⟩
    apply mem_of_lookup
    rw [lookup_countTools cheats [] n hne, if_neg (hk ▸ hk0)]
    simp [List.lookup, hk]

/-- C25, as stated, fails on a catalog with a record whose tool name is the empty
string: the name occurs in the catalog, with one record, and has no entry. -/
theorem getToolInfoList_skips_empty_tool :
    (∃ c ∈ toolsApp.cheats, c.Tool = []) ∧
    (toolsApp.cheats.filter (fun c => decide (c.Tool = []))).length = 1 ∧
    [] ∉ (getToolInfoList toolsApp).map (fun t => t.Name) := by
  decide

/-- C25, amended: `getToolInfoList` returns one entry per distinct non-empty tool name
occurring in the catalog, each with `CommandCount` equal to the number of records
having that tool name, and the entries are in strictly ascending order of `Name`. -/
theorem getToolInfoList_spec (m : App) :
    (∀ n, n ∈ (getToolInfoList m).map (fun t => t.Name) ↔
      n ≠ [] ∧ ∃ c ∈ m.cheats, c.Tool = n) ∧
    (∀ t ∈ getToolInfoList m,
      t.CommandCount = (m.cheats.filter (fun c => decide (c.Tool = t.Name))).length) ∧
    ((getToolInfoList m).map (fun t => t.Name)).Pairwise (fun a b => a < b) := by
  have hnd := keys_countTools m.cheats [] List.nodup_nil
  obtain ⟨s, hs, hperm, hsorted⟩ := sortOuter_sorted _
    ((countTools [] m.cheats).map (fun p => ({ Name := p.1, CommandCount := p.2 } : ToolInfo)))
    [] ((countTools [] m.cheats).map
      (fun p => ({ Name := p.1, CommandCount := p.2 } : ToolInfo))).length rfl (by omega)
  have hget : getToolInfoList m = s := by
    unfold getToolInfoList
    simpa using hs
  have hmem : ∀ t, t ∈ s ↔ (t.Name, t.CommandCount) ∈ countTools [] m.cheats := by
    intro t
    rw [hperm.mem_iff, List.mem_map]
    constructor
    · rintro ⟨p, hp, rfl⟩
      exact hp
    · intro h
      exact ⟨(t.Name, t.CommandCount), h, rfl⟩
  have hpos : ∀ n : Str, (m.cheats.filter (fun c => decide (c.Tool = n))).length ≠ 0
      ↔ ∃ c ∈ m.cheats, c.Tool = n := by
    intro n
    rw [Nat.ne_zero_iff_zero_lt, List.length_pos_iff_exists_mem]
    constructor
    · rintro ⟨c, hc⟩
      rw [List.mem_filter] at hc
      exact ⟨c, hc.1, by simpa using hc.2⟩
    · rintro ⟨c, hc, hn⟩
      exact ⟨c, List.mem_filter.2 ⟨hc, by simpa using hn⟩⟩
  rw [hget]
  refine ⟨?_, ?_, ?_⟩
  · intro n
    rw [List.mem_map]
    constructor
    · rintro ⟨t, ht, rfl⟩
      obtain ⟨h1, h2, h3⟩ := (mem_countTools m.cheats _ _).1 ((hmem t).1 ht)
      exact ⟨h1, (hpos _).1 (h3 ▸ h2)⟩
    · rintro ⟨hne, hex⟩
      refine ⟨{ Name := n,
                CommandCount := (m.cheats.filter (fun c => decide (c.Tool = n))).length }, ?_, rfl⟩
      exact (hmem _).2 ((mem_countTools m.cheats _ _).2 ⟨hne, (hpos n).2 hex, rfl⟩)
  · intro t ht
    exact ((mem_countTools m.cheats _ _).1 ((hmem t).1 ht)).2.2
  · rw [List.pairwise_map]
    have hnames : (s.map (fun t => t.Name)).Nodup := by
      have hp2 := hperm.map (fun t : ToolInfo => t.Name)
      rw [hp2.nodup_iff, List.map_map]
      exact hnd
    have hne : s.Pairwise (fun a b => a.Name ≠ b.Name) := by
      rw [List.Nodup, List.pairwise_map] at hnames
      exact hnames
    refine (hsorted.and hne).imp ?_
    rintro a b ⟨h1, h2⟩
    rcases lt_trichotomy a.Name b.Name with h | h | h
    · exact h
    · exact absurd h h2
    · exact absurd h h1

/-- C25, amended, on a catalog with two records of `nmap`, one of `ffuf` and one without a
tool: the list is `ffuf` with one command and `nmap` with two. -/
theorem getToolInfoList_spec_witness :
    getToolInfoList toolsApp
      = [{ Name := "ffuf".toList, CommandCount := 1 },
         { Name := "nmap".toList, CommandCount := 2 }] ∧
    (∀ t ∈ getToolInfoList toolsApp,
      t.CommandCount = (toolsApp.cheats.filter (fun c => decide (c.Tool = t.Name))).length) ∧
    ((getToolInfoList toolsApp).map (fun t => t.Name)).Pairwise (fun a b => a < b) :=
  ⟨by decide, (getToolInfoList_spec toolsApp).2⟩

/-! ### The invariant of the argument view -/

theorem argsInv_of_core (m m1 : App) (h : argsCore m1 = argsCore m) (hi : argsInv m) :
    argsInv m1 := by
  simp only [argsCore, Prod.mk.injEq] at h
  obtain ⟨h1, h2, h3, h4, h5⟩ := h
  intro hs
  rw [h1] at hs
  rw [h2, h3, h4, h5]
  exact hi hs

theorem argsInv_of_state (m : App) (h : m.state ≠ stateArgs) : argsInv m :=
  fun hs => absurd hs h

theorem initToolsTable_core (ext : Ext) (m m1 : App) (h : initToolsTable ext m = some m1) :
    argsCore m1 = argsCore m := by
  by_cases h1 : (getToolInfoList m).length = 0
  · simp only [initToolsTable, h1, if_true, Option.some.injEq] at h
    subst h
    rfl
  · by_cases h2 : m.toolsPerPage ≤ 0
    · simp [initToolsTable, h1, h2] at h
    · simp only [initToolsTable, h1, h2, if_false] at h
      generalize Paginator.New.SetTotalPages _ = P at h
      cases P with
      | none => cases h
      | some p0 =>
        simp only [Option.some.injEq] at h
        subst h
        rfl

theorem resize_core (ext : Ext) (m m1 : App) (msg : Msg) (h : resize ext m msg = some m1) :
    argsCore m1 = argsCore m := by
  unfold resize at h
  cases msg with
  | KeyMsg k =>
    injection h with h
    subst h
    rfl
  | other =>
    injection h with h
    subst h
    rfl
  | WindowSizeMsg w hh =>
    simp only at h
    split_ifs at h with hc
    · cases ht : initToolsTable ext
          { m with width := w, height := hh,
                   searchInput := { m.searchInput with Width := w - 10 } } with
      | none => simp [ht] at h
      | some m2 =>
        have hcore := initToolsTable_core ext _ m2 ht
        simp only [ht, Option.map_some', Option.some.injEq] at h
        subst h
        split_ifs
        · exact hcore
        · exact hcore
    · simp only [Option.map_some', Option.some.injEq] at h
      subst h
      split_ifs <;> rfl

theorem updateFilter_core (ext : Ext) (m : App) : argsCore (updateFilter ext m) = argsCore m := by
  unfold updateFilter
  simp only
  split_ifs <;> rfl

theorem moveCursorUp_core (m : App) : argsCore (moveCursorUp m) = argsCore m := by
  unfold moveCursorUp
  simp only
  split_ifs <;> rfl

theorem moveCursorDown_core (ext : Ext) (m : App) :
    argsCore (moveCursorDown ext m) = argsCore m := by
  unfold moveCursorDown
  simp only
  split_ifs <;> rfl

theorem pageUp_core (ext : Ext) (m : App) : argsCore (pageUp ext m) = argsCore m := by
  unfold pageUp
  simp only
  split_ifs <;> rfl

theorem pageDown_core (ext : Ext) (m : App) : argsCore (pageDown ext m) = argsCore m := by
  unfold pageDown
  simp only
  split_ifs <;> rfl

theorem enterArgsLoop_keeps (ext : Ext) (args : List Argument) (i f : Int) (hf : f ≠ -1) :
    (enterArgsLoop ext i f args).2 = f := by
  induction args generalizing i with
  | nil => rfl
  | cons a rest ih =>
    have hc : ¬ (a.Value = [] ∧ f = -1) := fun h => hf h.2
    simp only [enterArgsLoop, hc, if_false]
    exact ih (i + 1)

theorem enterArgsLoop_range (ext : Ext) (args : List Argument) (i : Int) (hi : 0 ≤ i) :
    (enterArgsLoop ext i (-1) args).2 = -1 ∨
      (i ≤ (enterArgsLoop ext i (-1) args).2 ∧
        (enterArgsLoop ext i (-1) args).2 < i + args.length) := by
  induction args generalizing i with
  | nil => exact Or.inl rfl
  | cons a rest ih =>
    by_cases hv : a.Value = []
    · simp only [enterArgsLoop, hv, and_self, if_true]
      right
      rw [enterArgsLoop_keeps ext rest (i + 1) i (by omega)]
      simp only [List.length_cons, Nat.cast_add, Nat.cast_one]
      omega
    · simp only [enterArgsLoop, hv, false_and, if_false]
      rcases ih (i + 1) (by omega) with h | h
      · exact Or.inl h
      · right
        simp only [List.length_cons, Nat.cast_add, Nat.cast_one]
        omega

/-- The session that `enterArgsState` returns satisfies the invariant of the argument
view. -/
theorem enterArgsState_inv (ext : Ext) (m m1 : App) (c : Cmd)
    (h : enterArgsState ext m = some (m1, c)) (hsel : m.selectedCheat ≠ none) :
    m1.state = stateArgs ∧ m1.argInputs.length = m1.args.length ∧ 1 ≤ m1.args.length ∧
      0 ≤ m1.argCursor ∧ m1.argCursor < m1.args.length ∧ m1.selectedCheat ≠ none := by
  have hlen := enterArgsLoop_length ext m.args 0 (-1)
  have hrange := enterArgsLoop_range ext m.args 0 (le_refl _)
  unfold enterArgsState at h
  simp only at h
  by_cases h1 : (enterArgsLoop ext 0 (-1) m.args).2 = -1
  · simp only [h1, if_true] at h
    cases hr : (enterArgsLoop ext 0 (-1) m.args).1 with
    | nil => simp [hr] at h
    | cons ti rest =>
      simp only [hr, Option.some.injEq, Prod.mk.injEq] at h
      obtain ⟨h, _⟩ := h
      subst h
      rw [hr] at hlen
      simp only [List.length_cons] at hlen
      refine ⟨rfl, ?_, ?_, le_refl _, ?_, hsel⟩
      · simpa using hlen
      · simp only
        omega
      · simp only
        omega
  · simp only [h1, if_false, Option.some.injEq, Prod.mk.injEq] at h
    obtain ⟨h, _⟩ := h
    subst h
    rcases hrange with h2 | h2
    · exact absurd h2 h1
    · refine ⟨rfl, hlen, ?_, ?_, ?_, hsel⟩
      · simp only
        omega
      · simp only
        omega
      · simp only
        omega

theorem handleUnsetCommand_state (ext : Ext) (m : App) (d : Disk) (q : Str) :
    (handleUnsetCommand ext m d q).1.2.state = m.state := by
  unfold handleUnsetCommand
  simp only
  split
  · simp only
    split
    · rfl
    · split
      · split <;> rfl
      · rfl
  · rfl

theorem handleSpecialCommand_state (ext : Ext) (m m1 : App) (d d1 : Disk) (q : Str) (b : Bool)
    (h : handleSpecialCommand ext m d q = some ((b, m1), d1)) (hs : m.state ≠ stateArgs) :
    m1.state ≠ stateArgs := by
  unfold handleSpecialCommand at h
  simp only at h
  split_ifs at h
  · simp only [Option.some.injEq, Prod.mk.injEq] at h
    rw [← h.1.2]
    simp [initVarsTable]
  · simp only [Option.some.injEq, Prod.mk.injEq] at h
    rw [← h.1.2]
    simp
  · rw [Option.map_eq_some'] at h
    obtain ⟨m3, ht, he⟩ := h
    have hcore := initToolsTable_core ext _ m3 ht
    simp only [Prod.mk.injEq] at he
    rw [← he.1.2]
    have : m3.state = stateShowTools := congrArg Prod.fst hcore
    rw [this]
    decide
  · rw [Option.map_eq_some'] at h
    obtain ⟨m3, ht, he⟩ := h
    have hcore := initToolsTable_core ext _ m3 ht
    simp only [Prod.mk.injEq] at he
    rw [← he.1.2]
    have : m3.state = stateShowTools := congrArg Prod.fst hcore
    rw [this]
    decide
  · have := handleSetCommand_state ext m d _ _ h
    simp only at this
    rw [this]
    exact hs
  · simp only [Option.some.injEq] at h
    have := handleUnsetCommand_state ext m d (TrimSpace q)
    rw [h] at this
    simp only at this
    rw [this]
    exact hs
  · simp only [Option.some.injEq, Prod.mk.injEq] at h
    rw [← h.1.2]
    exact hs

theorem handleEnter_inv (ext : Ext) (m m1 : App) (d d1 : Disk) (c : Cmd)
    (h : handleEnter ext m d = some ((m1, c), d1)) (hs : m.state ≠ stateArgs) : argsInv m1 := by
  unfold handleEnter at h
  simp only at h
  cases hq : handleSpecialCommand ext m d (TrimSpace m.searchInput.value) with
  | none => simp [hq] at h
  | some r =>
    obtain ⟨⟨handled, newModel⟩, d2⟩ := r
    have hst := handleSpecialCommand_state ext m newModel d d2 _ handled hq hs
    simp only [hq] at h
    by_cases hh : handled = true
    · simp only [hh, if_true, Option.some.injEq, Prod.mk.injEq] at h
      rw [← h.1.1]
      exact argsInv_of_state _ hst
    · simp only [hh, if_false, Bool.false_eq_true] at h
      by_cases hsel : m.filtered.length = 0 ∨ m.cursor < 0 ∨ m.cursor ≥ m.filtered.length
      · simp only [hsel, if_true, Option.some.injEq, Prod.mk.injEq] at h
        rw [← h.1.1]
        exact argsInv_of_state _ hs
      · simp only [hsel, if_false] at h
        cases hi : index m.filtered m.cursor with
        | none => simp [hi] at h
        | some cheat =>
          simp only [hi] at h
          by_cases hz : ((ParseArguments cheat.Command).map (prefill m.globals)).length = 0
          · simp only [hz, if_true, Option.some.injEq, Prod.mk.injEq] at h
            rw [← h.1.1]
            exact argsInv_of_state _ hs
          · simp only [hz, if_false] at h
            rw [Option.map_eq_some'] at h
            obtain ⟨r, hr, he⟩ := h
            obtain ⟨m2, c2⟩ := r
            simp only [Prod.mk.injEq] at he
            have := enterArgsState_inv ext _ m2 c2 hr (by simp)
            rw [← he.1.1]
            exact fun _ => this.2

theorem updateSearch_inv (ext : Ext) (m m1 : App) (d d1 : Disk) (msg : Msg) (c : Cmd)
    (h : updateSearch ext m d msg = some ((m1, c), d1)) (hs : m.state = stateSearch) :
    argsInv m1 := by
  have hne : m.state ≠ stateArgs := by
    rw [hs]
    decide
  have hne0 : ({ m with statusMsg := [], statusIsError := false } : App).state ≠ stateArgs := hne
  unfold updateSearch at h
  simp only at h
  cases msg with
  | KeyMsg key =>
    simp only at h
    split_ifs at h
    · simp only [Option.some.injEq, Prod.mk.injEq] at h
      rw [← h.1.1]
      exact argsInv_of_state _ hne
    · simp only [Option.some.injEq, Prod.mk.injEq] at h
      rw [← h.1.1]
      apply argsInv_of_state
      simp
    · simp only [Option.some.injEq, Prod.mk.injEq, searchInputUpdate] at h
      rw [← h.1.1]
      exact argsInv_of_state _ hne
    · exact handleEnter_inv ext _ m1 d d1 c h hne0
    · simp only [Option.some.injEq, Prod.mk.injEq, searchInputUpdate] at h
      rw [← h.1.1]
      apply argsInv_of_state
      have := congrArg Prod.fst (moveCursorUp_core { m with statusMsg := [], statusIsError := false })
      simp only [argsCore] at this
      simp only [this]
      exact hne
    · simp only [Option.some.injEq, Prod.mk.injEq, searchInputUpdate] at h
      rw [← h.1.1]
      apply argsInv_of_state
      have := congrArg Prod.fst
        (moveCursorDown_core ext { m with statusMsg := [], statusIsError := false })
      simp only [argsCore] at this
      simp only [this]
      exact hne
    · simp only [Option.some.injEq, Prod.mk.injEq, searchInputUpdate] at h
      rw [← h.1.1]
      apply argsInv_of_state
      have := congrArg Prod.fst (pageUp_core ext { m with statusMsg := [], statusIsError := false })
      simp only [argsCore] at this
      simp only [this]
      exact hne
    · simp only [Option.some.injEq, Prod.mk.injEq, searchInputUpdate] at h
      rw [← h.1.1]
      apply argsInv_of_state
      have := congrArg Prod.fst
        (pageDown_core ext { m with statusMsg := [], statusIsError := false })
      simp only [argsCore] at this
      simp only [this]
      exact hne
    · simp only [Option.some.injEq, Prod.mk.injEq, searchInputUpdate] at h
      rw [← h.1.1]
      apply argsInv_of_state
      have := congrArg Prod.fst (updateFilter_core ext
        { m with statusMsg := [], statusIsError := false,
                 searchInput := (ext.tiUpdate m.searchInput (Msg.KeyMsg key)).1 })
      simp only [argsCore] at this
      simp only [this]
      exact hne
  | WindowSizeMsg w hh =>
    simp only [Option.some.injEq, Prod.mk.injEq, searchInputUpdate] at h
    rw [← h.1.1]
    exact argsInv_of_state _ hne
  | other =>
    simp only [Option.some.injEq, Prod.mk.injEq, searchInputUpdate] at h
    rw [← h.1.1]
    exact argsInv_of_state _ hne

theorem submitArgs_inv (m m1 : App) (c : Cmd) (h : submitArgs m = some (m1, c))
    (hin : m.argInputs.length = m.args.length) :
    m1.state = m.state ∧ m1.args.length = m.args.length ∧ m1.argInputs = m.argInputs ∧
      m1.argCursor = m.argCursor ∧ m1.selectedCheat = m.selectedCheat := by
  unfold submitArgs at h
  rw [submitArgsLoop_eq m.args m.argInputs hin] at h
  simp only at h
  have hl : (List.zipWith (fun (a : Argument) (ti : TextInput) => { a with Value := ti.value })
      m.args m.argInputs).length = m.args.length := by
    simp [hin]
  split_ifs at h
  · cases hsel : m.selectedCheat with
    | none => simp [hsel] at h
    | some cheat =>
      simp only [hsel, Option.some.injEq, Prod.mk.injEq] at h
      obtain ⟨h, _⟩ := h
      subst h
      exact ⟨rfl, hl, rfl, rfl, rfl⟩
  · simp only [Option.some.injEq, Prod.mk.injEq] at h
    obtain ⟨h, _⟩ := h
    subst h
    exact ⟨rfl, hl, rfl, rfl, rfl⟩

theorem submitArgs_total (m : App) (hin : m.argInputs.length = m.args.length)
    (hsel : m.selectedCheat ≠ none) : ∃ r, submitArgs m = some r := by
  unfold submitArgs
  rw [submitArgsLoop_eq m.args m.argInputs hin]
  simp only
  split_ifs
  · cases h : m.selectedCheat with
    | none => exact absurd h hsel
    | some cheat => exact ⟨_, rfl⟩
  · exact ⟨_, rfl⟩

theorem argInputUpdate_total (ext : Ext) (m : App) (msg : Msg)
    (hin : m.argInputs.length = m.args.length) (hc0 : 0 ≤ m.argCursor)
    (hc1 : m.argCursor < m.args.length) :
    ∃ r, argInputUpdate ext m msg = some r ∧ r.1.state = m.state ∧ r.1.args = m.args ∧
      r.1.argInputs.length = m.argInputs.length ∧ r.1.argCursor = m.argCursor ∧
      r.1.selectedCheat = m.selectedCheat := by
  obtain ⟨ti, hti⟩ := index_of_bounds m.argInputs m.argCursor hc0 (by omega)
  have ha := assign_of_lt m.argInputs m.argCursor (ext.tiUpdate ti msg).1 hc0 (by omega)
  refine ⟨({ m with argInputs := m.argInputs.set m.argCursor.toNat (ext.tiUpdate ti msg).1 },
    (ext.tiUpdate ti msg).2), ?_, rfl, rfl, ?_, rfl, rfl⟩
  · simp only [argInputUpdate, hti, ha]
  · simp

/-- In the argument view, under the invariant, `updateArgs` returns for every message
and the session it returns satisfies the invariant. -/
theorem updateArgs_inv (ext : Ext) (m : App) (msg : Msg)
    (hin : m.argInputs.length = m.args.length) (hc0 : 0 ≤ m.argCursor)
    (hc1 : m.argCursor < m.args.length) (hsel : m.selectedCheat ≠ none) :
    ∃ r, updateArgs ext m msg = some r ∧ argsInv r.1 := by
  have hframe : ∀ m1 : App, m1.args.length = m.args.length →
      m1.argInputs.length = m.argInputs.length → 0 ≤ m1.argCursor →
      m1.argCursor < m.args.length → m1.selectedCheat = m.selectedCheat → argsInv m1 := by
    intro m1 h1 h2 h3 h4 h5 _
    rw [h1, h2, h5]
    exact ⟨hin, by omega, h3, h4, hsel⟩
  have hinput : ∃ r, argInputUpdate ext m msg = some r ∧ argsInv r.1 := by
    obtain ⟨r, hr, _, h2, h3, h4, h5⟩ := argInputUpdate_total ext m msg hin hc0 hc1
    exact ⟨r, hr, hframe r.1 (by rw [h2]) h3 (by rw [h4]; exact hc0) (by rw [h4]; exact hc1) h5⟩
  cases msg with
  | KeyMsg key =>
    unfold updateArgs
    simp only
    split_ifs
    · exact ⟨_, rfl, hframe _ rfl rfl hc0 hc1 rfl⟩
    · refine ⟨_, rfl, argsInv_of_state _ ?_⟩
      simp
    · obtain ⟨r, hr⟩ := submitArgs_total m hin hsel
      obtain ⟨m1, c⟩ := r
      obtain ⟨_, h2, h3, h4, h5⟩ := submitArgs_inv m m1 c hr hin
      exact ⟨_, hr, hframe m1 h2 (by rw [h3]) (by rw [h4]; exact hc0) (by rw [h4]; exact hc1) h5⟩
    · obtain ⟨m1, h1, hcur, hargs, hlen, _, hs1⟩ := nextArg_step m hin hc0 hc1
      refine ⟨(m1, Cmd.nil), by simp [h1], hframe m1 (by rw [hargs]) hlen ?_ ?_ hs1⟩
      · rw [hcur]
        exact Int.emod_nonneg _ (by omega)
      · rw [hcur]
        exact Int.emod_lt_of_pos _ (by omega)
    · obtain ⟨m1, h1, hcur, hargs, hlen, _, hs1⟩ := prevArg_step m hin hc0 hc1
      refine ⟨(m1, Cmd.nil), by simp [h1], hframe m1 (by rw [hargs]) hlen ?_ ?_ hs1⟩
      · rw [hcur]
        exact Int.emod_nonneg _ (by omega)
      · rw [hcur]
        exact Int.emod_lt_of_pos _ (by omega)
    · exact hinput
  | WindowSizeMsg w hh => exact hinput
  | other => exact hinput

theorem updateShowVars_state (ext : Ext) (m : App) (msg : Msg) :
    (updateShowVars ext m msg).1.state = stateSearch ∨
      (updateShowVars ext m msg).1.state = m.state := by
  unfold updateShowVars
  simp only
  cases msg with
  | KeyMsg key =>
    simp only
    split_ifs <;> first | exact Or.inl rfl | exact Or.inr rfl
  | WindowSizeMsg w hh =>
    simp only
    split_ifs <;> exact Or.inr rfl
  | other =>
    simp only
    split_ifs <;> exact Or.inr rfl

theorem updateShowTools_state (ext : Ext) (m : App) (msg : Msg) (r : App × Cmd)
    (h : updateShowTools ext m msg = some r) :
    r.1.state = stateSearch ∨ r.1.state = m.state := by
  unfold updateShowTools at h
  simp only at h
  cases msg with
  | KeyMsg key =>
    simp only at h
    split_ifs at h
    · simp only [Option.some.injEq] at h
      subst h
      exact Or.inl rfl
    · split at h
      · simp only [Option.some.injEq] at h
        subst h
        left
        exact congrArg Prod.fst (updateFilter_core ext _)
      · simp only [Option.some.injEq] at h
        subst h
        exact Or.inl rfl
    · rw [Option.map_eq_some'] at h
      obtain ⟨m1, h1, he⟩ := h
      subst he
      right
      exact congrArg Prod.fst (initToolsTable_core ext _ m1 h1)
    · simp only [Option.some.injEq] at h
      subst h
      exact Or.inr rfl
    · rw [Option.map_eq_some'] at h
      obtain ⟨m1, h1, he⟩ := h
      subst he
      right
      exact congrArg Prod.fst (initToolsTable_core ext _ m1 h1)
    · simp only [Option.some.injEq] at h
      subst h
      exact Or.inr rfl
    · simp only [Option.some.injEq] at h
      subst h
      exact Or.inr rfl
  | WindowSizeMsg w hh =>
    simp only [Option.some.injEq] at h
    subst h
    exact Or.inr rfl
  | other =>
    simp only [Option.some.injEq] at h
    subst h
    exact Or.inr rfl

theorem updateHelp_state (m : App) (msg : Msg) :
    (updateHelp m msg).1.state = stateSearch ∨ (updateHelp m msg).1.state = m.state := by
  unfold updateHelp
  cases msg with
  | KeyMsg key =>
    simp only
    split_ifs
    · exact Or.inl rfl
    · exact Or.inr rfl
  | WindowSizeMsg w hh => exact Or.inr rfl
  | other => exact Or.inr rfl

theorem argsInv_of_state_or (m m1 : App) (h : m1.state = stateSearch ∨ m1.state = m.state)
    (hs : m.state ≠ stateArgs) : argsInv m1 := by
  apply argsInv_of_state
  rcases h with h | h
  · rw [h]
    decide
  · rw [h]
    exact hs

/-- Every transition of the session keeps the invariant of the argument view. -/
theorem Update_inv (ext : Ext) (m m1 : App) (d d1 : Disk) (msg : Msg) (c : Cmd)
    (hi : argsInv m) (h : Update ext m d msg = some ((m1, c), d1)) : argsInv m1 := by
  unfold Update at h
  cases hr : resize ext m msg with
  | none => simp [hr] at h
  | some m0 =>
    have hcore := resize_core ext m m0 msg hr
    have hi0 : argsInv m0 := argsInv_of_core m m0 hcore hi
    simp only [hr] at h
    cases hs : m0.state with
    | stateSearch =>
      simp only [hs] at h
      exact updateSearch_inv ext m0 m1 d d1 msg c h hs
    | stateArgs =>
      simp only [hs] at h
      obtain ⟨h1, h2, h3, h4, h5⟩ := hi0 hs
      obtain ⟨r, hr2, hinv⟩ := updateArgs_inv ext m0 msg h1 h3 h4 h5
      simp only [hr2, Option.map_some', Option.some.injEq, Prod.mk.injEq] at h
      obtain ⟨h6, _⟩ := h
      subst h6
      exact hinv
    | stateShowVars =>
      simp only [hs, Option.some.injEq, Prod.mk.injEq] at h
      have := updateShowVars_state ext m0 msg
      rw [h.1] at this
      exact argsInv_of_state_or m0 m1 this (by rw [hs]; decide)
    | stateShowTools =>
      simp only [hs] at h
      rw [Option.map_eq_some'] at h
      obtain ⟨r, hr2, he⟩ := h
      have := updateShowTools_state ext m0 msg r hr2
      simp only [Prod.mk.injEq] at he
      rw [he.1] at this
      exact argsInv_of_state_or m0 m1 this (by rw [hs]; decide)
    | stateHelp =>
      simp only [hs, Option.some.injEq, Prod.mk.injEq] at h
      have := updateHelp_state m0 msg
      rw [h.1] at this
      exact argsInv_of_state_or m0 m1 this (by rw [hs]; decide)

theorem run_inv (ext : Ext) (msgs : List Msg) (s : App × Disk) (m : App) (d : Disk)
    (hi : argsInv s.1) (h : run ext msgs s = some (m, d)) : argsInv m := by
  induction msgs generalizing s with
  | nil =>
    simp only [run, Option.some.injEq] at h
    rw [h] at hi
    exact hi
  | cons msg rest ih =>
    simp only [run] at h
    cases hu : Update ext s.1 s.2 msg with
    | none => simp [hu] at h
    | some r =>
      simp only [hu] at h
      obtain ⟨⟨m1, c⟩, d1⟩ := r
      exact ih (m1, d1) (Update_inv ext s.1 m1 s.2 d1 msg c hi hu) h

/-- C28: in every state reached from the initial state whose view is the argument
view there is one input per argument and at least one argument, and the focus is on
an argument; consequently `updateArgs`, `nextArg`, `prevArg` and `submitArgs`
return: no index is out of range and no remainder is taken modulo zero. -/
theorem args_view_safe (ext : Ext) (unmarshal : Str → Except Str (Option (List (Str × Str))))
    (cheats : List Cheat) (path : Except Str Str) (d0 : Disk) (msgs : List Msg)
    (m : App) (d : Disk)
    (hrun : run ext msgs (New unmarshal cheats path d0, d0) = some (m, d))
    (hs : m.state = stateArgs) :
    m.argInputs.length = m.args.length ∧ 1 ≤ m.args.length ∧
      0 ≤ m.argCursor ∧ m.argCursor < m.args.length ∧
      (∀ msg, ∃ r, updateArgs ext m msg = some r) ∧ (∃ m1, nextArg m = some m1) ∧
      (∃ m1, prevArg m = some m1) ∧ (∃ r, submitArgs m = some r) := by
  have hinit : argsInv (New unmarshal cheats path d0, d0).1 := by
    apply argsInv_of_state
    simp [New]
  obtain ⟨h1, h2, h3, h4, h5⟩ := run_inv ext msgs _ m d hinit hrun hs
  refine ⟨h1, h2, h3, h4, ?_, ?_, ?_, submitArgs_total m h1 h5⟩
  · intro msg
    obtain ⟨r, hr, _⟩ := updateArgs_inv ext m msg h1 h3 h4 h5
    exact ⟨r, hr⟩
  · obtain ⟨m1, hm1, _⟩ := nextArg_step m h1 h3 h4
    exact ⟨m1, hm1⟩
  · obtain ⟨m1, hm1, _⟩ := prevArg_step m h1 h3 h4
    exact ⟨m1, hm1⟩

/-- C28 on the session in which the first record of the sample catalog is selected:
`down`, `enter` lead to the argument view with one input for the argument `ip`. -/
theorem args_view_safe_witness :
    ∃ m d, run sampleExt [Msg.KeyMsg keyDown, Msg.KeyMsg keyEnter]
        (New sampleUnmarshal [sampleCheat] (.ok "variables.json".toList) emptyDisk, emptyDisk)
        = some (m, d) ∧
      m.state = stateArgs ∧ m.args.length = 1 ∧
      (m.argInputs.length = m.args.length ∧ 1 ≤ m.args.length ∧
        0 ≤ m.argCursor ∧ m.argCursor < m.args.length ∧
        (∀ msg, ∃ r, updateArgs sampleExt m msg = some r) ∧ (∃ m1, nextArg m = some m1) ∧
        (∃ m1, prevArg m = some m1) ∧ (∃ r, submitArgs m = some r)) :=
  ⟨_, _, rfl, rfl, rfl,
    args_view_safe sampleExt sampleUnmarshal [sampleCheat] (.ok "variables.json".toList)
      emptyDisk [Msg.KeyMsg keyDown, Msg.KeyMsg keyEnter] _ _ rfl rfl⟩

/-! ### The displayed list and the query -/

/-- C27 fails: after `help` is typed and entered and the help view is dismissed with
`esc`, the view is the search view with an empty query, which is not a directive,
and the displayed list is still the result of the search for `hel`, here empty,
where the search for the empty query is the whole catalog. Likewise after `n` and
`?` the query is `n?` and the displayed list is still the result for `n`. -/
theorem filtered_stale_after_help :
    (∃ m d, run typingExt helpAndBack (initialApp, emptyDisk) = some (m, d) ∧
      m.state = stateSearch ∧ m.searchInput.value = [] ∧
      isSpecialCommand typingExt m.searchInput.value = false ∧
      m.cheats = [sampleCheat] ∧ m.filtered = [] ∧
      loader.Search typingExt.toLower m.cheats m.searchInput.value = [sampleCheat]) ∧
    (∃ m d, run typingExt (typed "n?") (initialApp, emptyDisk) = some (m, d) ∧
      m.state = stateSearch ∧ m.searchInput.value = "n?".toList ∧
      isSpecialCommand typingExt m.searchInput.value = false ∧
      m.filtered = [sampleCheat] ∧
      loader.Search typingExt.toLower m.cheats m.searchInput.value = []) :=
  ⟨⟨_, _, rfl, by decide, by decide, by decide, by decide, by decide, by decide⟩,
    ⟨_, _, rfl, by decide, by decide, by decide, by decide, by decide⟩⟩

/-- On a store whose map is not nil the well-formed directive `set` returns: Enter
stores the value under the name, clears the query and stays in the search view. -/
theorem set_directive_of_map (ext : Ext) (m : App) (d : Disk) (kw rest : Str)
    (l : List (Str × Str))
    (hs : m.state = stateSearch) (hq : TrimSpace m.searchInput.value = kw ++ rest)
    (hkw : loader.ToLower ext.toLower kw = "set ".toList) (hascii : byteLen kw = 4)
    (hclear : ext.tiSetValue m.searchInput.CharLimit [] = [])
    (hl : m.globals.vars = some l) (p0 p1 : Str) (hrest : rest = p0 ++ '=' :: p1)
    (hp0 : '=' ∉ p0) (hn : TrimSpace p0 ≠ []) (hv : TrimSpace p1 ≠ []) :
    ∃ m1 d1, Update ext m d (Msg.KeyMsg keyEnter) = some ((m1, Cmd.nil), d1) ∧
      m1.state = stateSearch ∧ m1.globals.Get (TrimSpace p0) = (TrimSpace p1, true) ∧
      m1.searchInput.value = [] := by
  obtain ⟨g1, d1, err, hset, _⟩ :=
    Set_then_Get ext.marshalIndent m.globals d (TrimSpace p0) (TrimSpace p1) l hl
  obtain ⟨m1, h1, h2, h3, h4, h5, _⟩ :=
    (set_directive ext m d kw rest hs hq hkw hascii hclear).1 p0 p1 g1 d1 err hrest hp0 hn hv hset
  exact ⟨m1, d1, h1, h2, by rw [h3]; exact h4, h5⟩

/-- C23 fails on a store whose map is nil: over a variables file that holds the JSON
value `null` the session starts, the query `set ip=10.0.0.1` is typed, it is a
well-formed directive, and Enter panics in `Global.Set` instead of storing the
value and staying in the search view. -/
theorem set_directive_panics_on_nil_map :
    nullFileApp.globals.vars = none ∧
    ∃ m d, run typingExt (typed "set ip=10.0.0.1") (nullFileApp, nullDisk) = some (m, d) ∧
      m.state = stateSearch ∧
      TrimSpace m.searchInput.value = "set ".toList ++ ("ip".toList ++ '=' :: "10.0.0.1".toList) ∧
      TrimSpace "ip".toList ≠ [] ∧ TrimSpace "10.0.0.1".toList ≠ [] ∧
      Update typingExt m d (Msg.KeyMsg keyEnter) = none :=
  ⟨rfl, _, _, rfl, by decide, by decide, by decide, by decide, by decide⟩

end ui

end ArsenalNG
